import Mathlib

/-!
Verification of the `justbe` heading scanner/reporting pipeline.

The Go source (`justbe.go`) scans text files line by line, extracts heading
lines matching the regular expression `(?i)^(\*+)\s+(.*)\s+tidbits$`, and
builds three reports from the aggregated match records: a sorted match
listing, a duplicate-name summary and per-file line-count statistics.

This file gives a shallow embedding of that pipeline:
* the matcher semantics of the fixed regular expression on a line,
* `processFile` / the aggregation loop of `run` over a pure file-system model,
* `genReportStats`, `genReportNameCounts` and `genReportMatches` data builders
  (template rendering is presentation-only and out of scope),
* a faithful port of the sorting routine reached through Go's `sort.Slice`
  (the pattern-defeating quicksort of the Go 1.21 standard library), since the
  stability and ordering claims depend on that concrete algorithm.

Go maps carry no iteration order, so report builders that range over a map are
parameterised by the key iteration order.
-/

/-! ## Character classes and string helpers (from `regexp` / `strings`) -/

/-- The heading marker character of the pattern (`\*+`). -/
def isStarChar (c : Char) : Bool := c == '*'

/-- The `\s` character class of Go's `regexp` package: `[\t\n\f\r ]`. -/
def isRegexSpace (c : Char) : Bool :=
  c == ' ' || c == '\t' || c == '\n' || c == '\r' || c == '\x0c'

/-- Go's `unicode.IsSpace` (used by `strings.TrimSpace`): the Unicode
White_Space property. -/
def isGoSpace (c : Char) : Bool :=
  (9 ≤ c.toNat && c.toNat ≤ 13) || c.toNat == 32 || c.toNat == 0x85 ||
  c.toNat == 0xA0 || c.toNat == 0x1680 ||
  (0x2000 ≤ c.toNat && c.toNat ≤ 0x200A) ||
  c.toNat == 0x2028 || c.toNat == 0x2029 || c.toNat == 0x202F ||
  c.toNat == 0x205F || c.toNat == 0x3000

/-- Drop the longest suffix whose characters satisfy `p`. -/
def dropTrailing (p : Char → Bool) (l : List Char) : List Char :=
  (l.reverse.dropWhile p).reverse

/-- `strings.TrimSpace` on a character list. -/
def trimSpaceL (l : List Char) : List Char :=
  dropTrailing isGoSpace (l.dropWhile isGoSpace)

/-- `strings.ToLower` (restricted to ASCII letter folding, which is all the
case-insensitive comparisons in the source exercise). -/
def goToLower (s : String) : String := String.mk (s.toList.map Char.toLower)

/-- Case-insensitive equality with the literal marker word `tidbits` of the
pattern. -/
def ciTidbits (l : List Char) : Bool :=
  l.map Char.toLower == "tidbits".toList

/-! ## The line matcher

Semantics of `pattern.FindStringSubmatch(line)` for the anchored pattern
`(?i)^(\*+)\s+(.*)\s+tidbits$` on a single scanner line, combined with the
`strings.TrimSpace` applied to the captured name in `processFile`:

* group 1 is the maximal leading run of `*` (it cannot backtrack, as it must
  be followed by a whitespace character);
* the line matches exactly when, after the stars, the remainder decomposes as
  `\s+ (.*) \s+ tidbits` with `$` at end of line; `.` does not match `\n`, so
  every newline of the middle must be absorbed by the bordering `\s+` runs —
  equivalently, the remainder is at least 9 characters long, starts with a
  `\s` character, has a `\s` character just before the final 7 characters,
  those final 7 characters spell `tidbits` case-insensitively, and the part
  strictly between the maximal bordering `\s` runs contains no newline;
* the trimmed capture is independent of how the bordering runs are split, so
  the returned name is the whitespace-trimmed middle. -/
def matchLineL (cs : List Char) : Option (Nat × List Char) :=
  let stars := cs.takeWhile isStarChar
  let rest := cs.dropWhile isStarChar
  if stars.length == 0 then none
  else if rest.length < 9 then none
  else
    let body := rest.take (rest.length - 7)
    let tail7 := rest.drop (rest.length - 7)
    if !(ciTidbits tail7) then none
    else
      match body.head?, body.getLast? with
      | some c1, some c2 =>
        if isRegexSpace c1 && isRegexSpace c2 then
          let core := dropTrailing isRegexSpace (body.dropWhile isRegexSpace)
          if core.contains '\n' then none
          else some (stars.length, trimSpaceL core)
        else none
      | _, _ => none

/-! ## Match records and file processing -/

/-- `MatchedLine` of `justbe.go`. -/
structure MatchedLine where
  FilePath : String
  LineNumber : Nat
  Name : String
  IndentLevel : Nat
deriving DecidableEq, Repr, Inhabited

/-- The records `processFile` appends for one file: the scanner numbers lines
from 1 and each matching line contributes one record. -/
def recordsOfLines (path : String) (lines : List String) : List MatchedLine :=
  (List.enumFrom 1 lines).filterMap fun p =>
    (matchLineL p.2.toList).map fun dn =>
      { FilePath := path, LineNumber := p.1, Name := String.mk dn.2,
        IndentLevel := dn.1 }

/-- Pure file-system model: `none` means the matching pass for the path fails
(the file cannot be opened, or the scanner reports a read error). -/
def FS := String → Option (List String)

/-- `processFile`: appends this file's records to the accumulator, or fails. -/
def processFile (fs : FS) (path : String) (ms : List MatchedLine) :
    Except String (List MatchedLine) :=
  match fs path with
  | none => .error ("error opening file " ++ path)
  | some lines => .ok (ms ++ recordsOfLines path lines)

/-- The aggregation loop of `run`: process each path in order, failing fast on
the first error. -/
def aggregateMatches (fs : FS) : List String → List MatchedLine →
    Except String (List MatchedLine)
  | [], acc => .ok acc
  | p :: ps, acc =>
    match processFile fs p acc with
    | .error e => .error ("error processing file " ++ p ++ ": " ++ e)
    | .ok acc' => aggregateMatches fs ps acc'

/-! ## Statistics report (`genReportStats`)

Go maps are modelled as association lists keyed in first-insertion order;
only lookups are observable. `countLinesInFile` is an effectful call modelled
by its per-path outcome `cls : String → Option Nat`. -/

/-- `m[k]++` on an association-list counter map. -/
def bumpCount : List (String × Nat) → String → List (String × Nat)
  | [], k => [(k, 1)]
  | (k', v) :: rest, k =>
    if k' = k then (k', v + 1) :: rest else (k', v) :: bumpCount rest k

/-- `m[k] = v` on an association-list map. -/
def setCount : List (String × Nat) → String → Nat → List (String × Nat)
  | [], k, v => [(k, v)]
  | (k', v') :: rest, k, v =>
    if k' = k then (k', v) :: rest else (k', v') :: setCount rest k v

/-- Association-list lookup (Go map read). -/
def alookup {β : Type} : List (String × β) → String → Option β
  | [], _ => none
  | (k', v) :: rest, k => if k' = k then some v else alookup rest k

/-- The data assembled by `genReportStats`. -/
structure StatsData where
  FileLineCounts : List (String × Nat)
  TotalLineCount : Nat
  FileMatchedLineCounts : List (String × Nat)
  TotalMatchedLineCount : Nat
deriving DecidableEq, Repr

/-- `genReportStats` (data part): first a loop over the aggregated matches
that increments both per-file maps and both totals once per match, then a loop
over the paths that skips paths whose `countLinesInFile` call fails and
otherwise overwrites `fileLineCounts[path]` and adds the count to
`totalLineCount`. -/
def genReportStatsData (ms : List MatchedLine) (paths : List String)
    (cls : String → Option Nat) : StatsData :=
  let st := ms.foldl
    (fun st m =>
      { FileLineCounts := bumpCount st.FileLineCounts m.FilePath
        TotalLineCount := st.TotalLineCount + 1
        FileMatchedLineCounts := bumpCount st.FileMatchedLineCounts m.FilePath
        TotalMatchedLineCount := st.TotalMatchedLineCount + 1 })
    ⟨[], 0, [], 0⟩
  paths.foldl
    (fun st p =>
      match cls p with
      | none => st
      | some n =>
        { st with
          FileLineCounts := setCount st.FileLineCounts p n
          TotalLineCount := st.TotalLineCount + n })
    st

/-! ## Duplicate-name report (`genReportNameCounts`): group building -/

/-- `NameInfo` of `genReportNameCounts`. -/
structure NameInfo where
  Name : String
  Count : Nat
  Places : List String
deriving DecidableEq, Repr, Inhabited

/-- The `"%s:%d"` location string. -/
def locString (m : MatchedLine) : String :=
  m.FilePath ++ ":" ++ toString m.LineNumber

/-- `nameCount[lowerName] = info` on the association-list model of the map. -/
def setInfo : List (String × NameInfo) → String → NameInfo →
    List (String × NameInfo)
  | [], k, v => [(k, v)]
  | (k', v') :: rest, k, v =>
    if k' = k then (k', v) :: rest else (k', v') :: setInfo rest k v

/-- One step of the grouping loop: look up the lowercased name, create the
entry on first sight (keeping the first-seen casing), bump its count and
append the location. -/
def insertNameInfo (m : List (String × NameInfo)) (r : MatchedLine) :
    List (String × NameInfo) :=
  let k := goToLower r.Name
  match alookup m k with
  | none => m ++ [(k, { Name := r.Name, Count := 1, Places := [locString r] })]
  | some info =>
    setInfo m k { info with Count := info.Count + 1,
                            Places := info.Places ++ [locString r] }

/-- The `nameCount` map after the grouping loop. -/
def buildNameCount (ms : List MatchedLine) : List (String × NameInfo) :=
  ms.foldl insertNameInfo []

/-! ## Port of Go `sort.Slice` (Go 1.21 pattern-defeating quicksort)

`sortMatchesByName` and `genReportNameCounts` sort through `sort.Slice`, whose
behaviour (in particular, its lack of stability) is observable in the reports.
The routine below is a port of the unexported pdqsort of the Go 1.21 `sort`
package, operating on a list with indexed reads (`lget`) and swaps (`lswap`)
standing for the `data.Less` / `data.Swap` closures. Loops that are not
structurally decreasing take an explicit fuel argument; every caller supplies
fuel that dominates the Go loop's iteration count, so the port computes the
same result. -/

/-- Indexed read (`data[i]`); out-of-range reads return `default` (never
reached by in-bounds executions). -/
def lget {α : Type} [Inhabited α] (l : List α) (i : Nat) : α :=
  l.getD i default

/-- `data.Swap(i, j)`; out-of-range swaps leave the list unchanged (never
reached by in-bounds executions). -/
def lswap {α : Type} [Inhabited α] (l : List α) (i j : Nat) : List α :=
  if i < l.length ∧ j < l.length then
    (l.set i (lget l j)).set j (lget l i)
  else l

namespace GoSort

variable {α : Type} [Inhabited α]

/-- Inner loop of `insertionSort_func`:
`for j := i; j > a && data.Less(j, j-1); j-- { data.Swap(j, j-1) }`. -/
def insertInner (less : α → α → Bool) (a : Nat) : List α → Nat → List α
  | d, 0 => d
  | d, j + 1 =>
    if a < j + 1 && less (lget d (j + 1)) (lget d j) then
      insertInner less a (lswap d (j + 1) j) j
    else d

/-- Outer loop of `insertionSort_func`: `for i := a + 1; i < b; i++`. -/
def insertionSortAux (less : α → α → Bool) (a b : Nat) :
    List α → Nat → Nat → List α
  | d, _, 0 => d
  | d, i, fuel + 1 =>
    if i < b then insertionSortAux less a b (insertInner less a d i) (i + 1) fuel
    else d

/-- `insertionSort_func(data, a, b)`: insertion sort of `data[a:b]`. -/
def insertionSort (less : α → α → Bool) (d : List α) (a b : Nat) : List α :=
  insertionSortAux less a b d (a + 1) (b - a)

/-- Loop of `siftDown_func`: walk the max-heap path downward from `root`. -/
def siftDownAux (less : α → α → Bool) (hi first : Nat) :
    List α → Nat → Nat → List α
  | d, _, 0 => d
  | d, root, fuel + 1 =>
    let child := 2 * root + 1
    if child ≥ hi then d
    else
      let child :=
        if child + 1 < hi &&
            less (lget d (first + child)) (lget d (first + child + 1)) then
          child + 1
        else child
      if !(less (lget d (first + root)) (lget d (first + child))) then d
      else siftDownAux less hi first (lswap d (first + root) (first + child))
        child fuel

/-- `siftDown_func(data, lo, hi, first)`. -/
def siftDown (less : α → α → Bool) (d : List α) (lo hi first : Nat) : List α :=
  siftDownAux less hi first d lo (hi + 1)

/-- Heap construction loop of `heapSort_func`:
`for i := (hi-1)/2; i >= 0; i--` (argument is `i + 1`). -/
def heapBuild (less : α → α → Bool) (hi first : Nat) : List α → Nat → List α
  | d, 0 => d
  | d, c + 1 => heapBuild less hi first (siftDown less d c hi first) c

/-- Pop loop of `heapSort_func`:
`for i := hi - 1; i >= 0; i-- { data.Swap(first, first+i); siftDown(lo, i) }`
(argument is `i + 1`). -/
def heapPop (less : α → α → Bool) (first : Nat) : List α → Nat → List α
  | d, 0 => d
  | d, c + 1 =>
    heapPop less first (siftDown less (lswap d first (first + c)) 0 c first) c

/-- `heapSort_func(data, a, b)`. -/
def heapSort (less : α → α → Bool) (d : List α) (a b : Nat) : List α :=
  heapPop less a (heapBuild less (b - a) a d ((b - a - 1) / 2 + 1)) (b - a)

/-- `for i <= j && data.Less(i, a) { i++ }` of `partition_func`. -/
def advanceI (less : α → α → Bool) (d : List α) (a j : Nat) :
    Nat → Nat → Nat
  | i, 0 => i
  | i, fuel + 1 =>
    if i ≤ j && less (lget d i) (lget d a) then
      advanceI less d a j (i + 1) fuel
    else i

/-- `for i <= j && !data.Less(j, a) { j-- }` of `partition_func`. -/
def retreatJ (less : α → α → Bool) (d : List α) (a i : Nat) :
    Nat → Nat → Nat
  | j, 0 => j
  | j, fuel + 1 =>
    if i ≤ j && !(less (lget d j) (lget d a)) then
      retreatJ less d a i (j - 1) fuel
    else j

/-- Main loop of `partition_func` after the first crossing swap. -/
def partitionLoop (less : α → α → Bool) (a b : Nat) :
    List α → Nat → Nat → Nat → List α × Nat
  | d, _, j, 0 => (d, j)
  | d, i, j, fuel + 1 =>
    let i' := advanceI less d a j i b
    let j' := retreatJ less d a i' j b
    if i' > j' then (d, j')
    else partitionLoop less a b (lswap d i' j') (i' + 1) (j' - 1) fuel

/-- `partition_func(data, a, b, pivot)`: moves the pivot value to `a`, walks
the two pointers inward, and finally stores the pivot at the crossing point;
returns the new pivot position and whether the range was already
partitioned. -/
def partition (less : α → α → Bool) (d0 : List α) (a b pivot : Nat) :
    List α × Nat × Bool :=
  let d := lswap d0 a pivot
  let i := advanceI less d a (b - 1) (a + 1) b
  let j := retreatJ less d a i (b - 1) b
  if i > j then (lswap d j a, j, true)
  else
    let r := partitionLoop less a b (lswap d i j) (i + 1) (j - 1) b
    (lswap r.1 r.2 a, r.2, false)

/-- `for i <= j && !data.Less(a, i) { i++ }` of `partitionEqual_func`. -/
def advanceEqI (less : α → α → Bool) (d : List α) (a j : Nat) :
    Nat → Nat → Nat
  | i, 0 => i
  | i, fuel + 1 =>
    if i ≤ j && !(less (lget d a) (lget d i)) then
      advanceEqI less d a j (i + 1) fuel
    else i

/-- `for i <= j && data.Less(a, j) { j-- }` of `partitionEqual_func`. -/
def retreatEqJ (less : α → α → Bool) (d : List α) (a i : Nat) :
    Nat → Nat → Nat
  | j, 0 => j
  | j, fuel + 1 =>
    if i ≤ j && less (lget d a) (lget d j) then
      retreatEqJ less d a i (j - 1) fuel
    else j

/-- Loop of `partitionEqual_func`; returns the final `i`. -/
def partitionEqualLoop (less : α → α → Bool) (a b : Nat) :
    List α → Nat → Nat → Nat → List α × Nat
  | d, i, _, 0 => (d, i)
  | d, i, j, fuel + 1 =>
    let i' := advanceEqI less d a j i b
    let j' := retreatEqJ less d a i' j b
    if i' > j' then (d, i')
    else partitionEqualLoop less a b (lswap d i' j') (i' + 1) (j' - 1) fuel

/-- `partitionEqual_func(data, a, b, pivot)`: groups the elements equal to the
pivot at the front, returning the first index past them. -/
def partitionEqual (less : α → α → Bool) (d0 : List α) (a b pivot : Nat) :
    List α × Nat :=
  let d := lswap d0 a pivot
  partitionEqualLoop less a b d (a + 1) (b - 1) b

/-- Scan loop of `partialInsertionSort_func`:
`for i < b && !data.Less(i, i-1) { i++ }`. -/
def pisScan (less : α → α → Bool) (b : Nat) (d : List α) : Nat → Nat → Nat
  | i, 0 => i
  | i, fuel + 1 =>
    if i < b && !(less (lget d i) (lget d (i - 1))) then
      pisScan less b d (i + 1) fuel
    else i

/-- Left shift loop of `partialInsertionSort_func`:
`for j := i - 1; j >= 1; j--` with an early break. -/
def pisShiftLeft (less : α → α → Bool) : List α → Nat → List α
  | d, 0 => d
  | d, j + 1 =>
    if less (lget d (j + 1)) (lget d j) then
      pisShiftLeft less (lswap d (j + 1) j) j
    else d

/-- Right shift loop of `partialInsertionSort_func`:
`for j := i + 1; j < b; j++` with an early break. -/
def pisShiftRight (less : α → α → Bool) (b : Nat) :
    List α → Nat → Nat → List α
  | d, _, 0 => d
  | d, j, fuel + 1 =>
    if j < b && less (lget d j) (lget d (j - 1)) then
      pisShiftRight less b (lswap d j (j - 1)) (j + 1) fuel
    else d

/-- Step loop of `partialInsertionSort_func` (`maxSteps = 5`,
`shortestShifting = 50`); returns the data and whether the range was fully
ordered. -/
def partialInsertionSortAux (less : α → α → Bool) (a b : Nat) :
    List α → Nat → Nat → List α × Bool
  | d, _, 0 => (d, false)
  | d, i, steps + 1 =>
    let i := pisScan less b d i b
    if i = b then (d, true)
    else if b - a < 50 then (d, false)
    else
      let d := lswap d i (i - 1)
      let d := if i - a ≥ 2 then pisShiftLeft less d (i - 1) else d
      let d := if b - i ≥ 2 then pisShiftRight less b d (i + 1) b else d
      partialInsertionSortAux less a b d i steps

/-- `partialInsertionSort_func(data, a, b)`. -/
def partialInsertionSort (less : α → α → Bool) (d : List α) (a b : Nat) :
    List α × Bool :=
  partialInsertionSortAux less a b d (a + 1) 5

/-- Loop of `reverseRange_func`. -/
def reverseRangeAux : List α → Nat → Nat → Nat → List α
  | d, _, _, 0 => d
  | d, i, j, fuel + 1 =>
    if i < j then reverseRangeAux (lswap d i j) (i + 1) (j - 1) fuel else d

/-- `reverseRange_func(data, a, b)`. -/
def reverseRange (d : List α) (a b : Nat) : List α :=
  reverseRangeAux d a (b - 1) (b - a)

/-- Fuel-driven helper for `bitsLen` (the fuel dominates the bit count). -/
def bitsLenAux : Nat → Nat → Nat
  | _, 0 => 0
  | n, fuel + 1 => if n = 0 then 0 else bitsLenAux (n / 2) fuel + 1

/-- `bits.Len(uint(n))`: the number of bits needed to represent `n`. -/
def bitsLen (n : Nat) : Nat := bitsLenAux n n

/-- One step of the `xorshift` generator of the `sort` package (`uint64`). -/
def xorshiftStep (r : Nat) : Nat :=
  let r := (r ^^^ (r <<< 13)) % 2 ^ 64
  let r := r ^^^ (r >>> 7)
  (r ^^^ (r <<< 17)) % 2 ^ 64

/-- The post-mask adjustment of `breakPatterns_func`:
`if other >= length { other -= length }`. -/
def bpAdjust (length o : Nat) : Nat := if o ≥ length then o - length else o

/-- `breakPatterns_func(data, a, b)`: swaps three elements around the middle
with pseudo-random ones (`nextPowerOfTwo(length) = 1 << bits.Len(length)`,
and `x & (modulus-1) = x % modulus` for a power of two). -/
def breakPatterns (d : List α) (a b : Nat) : List α :=
  let len := b - a
  if len ≥ 8 then
    let modulus := 2 ^ bitsLen len
    let idx := a + len / 4 * 2 - 1
    let r1 := xorshiftStep len
    let r2 := xorshiftStep r1
    let r3 := xorshiftStep r2
    let d := lswap d idx (a + bpAdjust len (r1 % modulus))
    let d := lswap d (idx + 1) (a + bpAdjust len (r2 % modulus))
    lswap d (idx + 2) (a + bpAdjust len (r3 % modulus))
  else d

/-- Sortedness hints of `choosePivot_func`. -/
inductive Hint
  | increasing
  | decreasing
  | unknown
deriving DecidableEq, Repr

/-- `order2_func(data, a, b, &swaps)`. -/
def order2 (less : α → α → Bool) (d : List α) (x y s : Nat) :
    Nat × Nat × Nat :=
  if less (lget d y) (lget d x) then (y, x, s + 1) else (x, y, s)

/-- `median_func(data, a, b, c, &swaps)`. -/
def median (less : α → α → Bool) (d : List α) (x y z s : Nat) : Nat × Nat :=
  let r1 := order2 less d x y s
  let r2 := order2 less d r1.2.1 z r1.2.2
  let r3 := order2 less d r1.1 r2.1 r2.2.2
  (r3.2.1, r3.2.2)

/-- `medianAdjacent_func(data, a, &swaps)`. -/
def medianAdjacent (less : α → α → Bool) (d : List α) (x s : Nat) :
    Nat × Nat :=
  median less d (x - 1) x (x + 1) s

/-- `choosePivot_func(data, a, b)` (`shortestNinther = 50`,
`maxSwaps = 12`). -/
def choosePivot (less : α → α → Bool) (d : List α) (a b : Nat) : Nat × Hint :=
  let l := b - a
  let i := a + l / 4 * 1
  let j := a + l / 4 * 2
  let k := a + l / 4 * 3
  if l ≥ 8 then
    let t :=
      if l ≥ 50 then
        let ri := medianAdjacent less d i 0
        let rj := medianAdjacent less d j ri.2
        let rk := medianAdjacent less d k rj.2
        (ri.1, rj.1, rk.1, rk.2)
      else (i, j, k, 0)
    let rm := median less d t.1 t.2.1 t.2.2.1 t.2.2.2
    if rm.2 = 0 then (rm.1, Hint.increasing)
    else if rm.2 = 12 then (rm.1, Hint.decreasing)
    else (rm.1, Hint.unknown)
  else (j, Hint.increasing)

/-- Breaking-patterns stage of the `pdqsort_func` body:
`if !wasBalanced { breakPatterns(data, a, b); limit-- }`. -/
def pdqPrep (d : List α) (a b limit : Nat) (wasBalanced : Bool) :
    List α × Nat :=
  if !wasBalanced then (breakPatterns d a b, limit - 1) else (d, limit)

/-- Pivot stage of the `pdqsort_func` body: choose the pivot and, on a
decreasing hint, reverse the range, relocate the pivot and upgrade the hint
to increasing. -/
def pdqPivot (less : α → α → Bool) (d : List α) (a b : Nat) :
    List α × Nat × Hint :=
  let ph := choosePivot less d a b
  if ph.2 = Hint.decreasing then
    (reverseRange d a b, b - 1 - (ph.1 - a), Hint.increasing)
  else (d, ph.1, ph.2)

/-- Likely-sorted stage of the `pdqsort_func` body:
`if wasBalanced && wasPartitioned && hint == increasingHint`, try a partial
insertion sort. -/
def pdqTryPIS (less : α → α → Bool) (d : List α) (a b : Nat)
    (wasBalanced wasPartitioned : Bool) (hint : Hint) : List α × Bool :=
  if wasBalanced && wasPartitioned && hint = Hint.increasing then
    partialInsertionSort less d a b
  else (d, false)

/-- The body of `pdqsort_func`. Each recursive call corresponds to either the
Go `continue` (with a strictly narrower range) or an explicit recursive call,
so fuel at least `b - a` always suffices. -/
def pdqsortLoop (less : α → α → Bool) :
    List α → Nat → Nat → Nat → Bool → Bool → Nat → List α
  | d, _, _, _, _, _, 0 => d
  | d, a, b, limit, wasBalanced, wasPartitioned, fuel + 1 =>
    if b - a ≤ 12 then insertionSort less d a b
    else if limit = 0 then heapSort less d a b
    else
      let dl := pdqPrep d a b limit wasBalanced
      let dph := pdqPivot less dl.1 a b
      let pivot := dph.2.1
      let pis := pdqTryPIS less dph.1 a b wasBalanced wasPartitioned dph.2.2
      if pis.2 then pis.1
      else if a > 0 && !(less (lget pis.1 (a - 1)) (lget pis.1 pivot)) then
        let pe := partitionEqual less pis.1 a b pivot
        pdqsortLoop less pe.1 pe.2 b dl.2 wasBalanced wasPartitioned fuel
      else
        let pm := partition less pis.1 a b pivot
        let mid := pm.2.1
        let wasBalanced' := min (mid - a) (b - mid) ≥ (b - a) / 8
        if mid - a < b - mid then
          pdqsortLoop less (pdqsortLoop less pm.1 a mid dl.2 true true fuel)
            (mid + 1) b dl.2 wasBalanced' pm.2.2 fuel
        else
          pdqsortLoop less (pdqsortLoop less pm.1 (mid + 1) b dl.2 true true fuel)
            a mid dl.2 wasBalanced' pm.2.2 fuel

/-- `sort.Slice(x, less)`: `pdqsort_func(lessSwap, 0, length, bits.Len(length))`. -/
def goSortSlice (less : α → α → Bool) (l : List α) : List α :=
  pdqsortLoop less l 0 l.length (bitsLen l.length) true true (l.length + 1)

end GoSort

/-! ## The report builders on top of the sort -/

/-- Go's `<` on strings: byte-wise lexicographic comparison of the UTF-8
encodings, which coincides with code-point lexicographic order. -/
def lexLt : List Char → List Char → Bool
  | _, [] => false
  | [], _ :: _ => true
  | a :: as, b :: bs =>
    if a.toNat < b.toNat then true
    else if b.toNat < a.toNat then false
    else lexLt as bs

/-- The `less` closure of `sortMatchesByName`:
`strings.ToLower(matches[i].Name) < strings.ToLower(matches[j].Name)`. -/
def matchLess (x y : MatchedLine) : Bool :=
  lexLt (goToLower x.Name).toList (goToLower y.Name).toList

/-- `sortMatchesByName(matches)`: `sort.Slice` with `matchLess`; the returned
list is the content of the slice after the call. -/
def sortMatchesByName (ms : List MatchedLine) : List MatchedLine :=
  GoSort.goSortSlice matchLess ms

/-- `sortedMatches := make([]MatchedLine, len(matches)); copy(sortedMatches,
matches)`. -/
def copySlice {α : Type} (l : List α) : List α := l.take l.length

/-- `genReportMatches` in explicit-state form: the first component is the
sorted listing handed to the template, the second is the value of the
`matches` slice after the call. The function writes only into the fresh
`sortedMatches` slice, so the state component is the untouched argument. -/
def genReportMatchesData (ms : List MatchedLine) :
    List MatchedLine × List MatchedLine :=
  (sortMatchesByName (copySlice ms), ms)

/-- The `less` closure of both `sort.Slice` calls in `genReportNameCounts`:
`names[i].Count > names[j].Count`. -/
def countGreater (x y : NameInfo) : Bool := decide (y.Count < x.Count)

/-- `genReportNameCounts` in explicit-state form, parameterised by the map
iteration order (Go map iteration order is unspecified): build the
`nameCount` map, materialise it in iteration order, sort by count descending,
keep the groups with `Count >= 2`, sort those again, and hand them to the
template. The function never writes the `matches` slice. -/
def genReportNameCountsData (ms : List MatchedLine) (order : List String) :
    List NameInfo × List MatchedLine :=
  let nameCount := buildNameCount ms
  let names := order.filterMap (alookup nameCount)
  let names := GoSort.goSortSlice countGreater names
  let filteredNames := names.filter (fun i => i.Count ≥ 2)
  (GoSort.goSortSlice countGreater filteredNames, ms)

/-- `genReportStats` in explicit-state form (it never writes the `matches`
slice). -/
def genReportStatsDataSt (ms : List MatchedLine) (paths : List String)
    (cls : String → Option Nat) : StatsData × List MatchedLine :=
  (genReportStatsData ms paths cls, ms)

/-- The reporting phase of `run` after a successful aggregation: the three
data structures handed to the three templates (report-selection flags are
presentation toggles outside the core pipeline). -/
def runReports (fs : FS) (cls : String → Option Nat) (order : List String)
    (paths : List String) :
    Except String (List MatchedLine × List NameInfo × StatsData) :=
  match aggregateMatches fs paths [] with
  | .error e => .error e
  | .ok ms =>
    .ok ((genReportMatchesData ms).1, (genReportNameCountsData ms order).1,
      genReportStatsData ms paths cls)

/-! ## Concrete scenario inputs used by the claims -/

/-- The four lines of the `notes.txt` scenario. -/
def notesLines : List String :=
  ["* Alpha tidbits", "** beta TIDBITS", "not a heading", "* Alpha tidbits"]

/-- File system with just `notes.txt`. -/
def notesFS : FS := fun p => if p = "notes.txt" then some notesLines else none

/-- The three records the scenario aggregates. -/
def notesRecords : List MatchedLine :=
  [{ FilePath := "notes.txt", LineNumber := 1, Name := "Alpha", IndentLevel := 1 },
   { FilePath := "notes.txt", LineNumber := 2, Name := "beta", IndentLevel := 2 },
   { FilePath := "notes.txt", LineNumber := 4, Name := "Alpha", IndentLevel := 1 }]

/-- A 13-record collection (the smallest slice lengths on which `sort.Slice`
leaves its insertion-sort regime) with alternating case-insensitively equal
names, on which the sorted match report is not stable. -/
def ex13 : List MatchedLine :=
  (List.enumFrom 1
    ["b", "A", "b", "a", "b", "A", "b", "a", "b", "A", "b", "a", "b"]).map
    fun p =>
      { FilePath := "f.txt", LineNumber := p.1, Name := p.2, IndentLevel := 1 }

/-- The class of records of `ex13` whose name is case-insensitively `a`. -/
def aClass (r : MatchedLine) : Bool := goToLower r.Name == "a"

/-- Two aggregated records with distinct names and equal counts, for the
duplicate-report determinism claim. -/
def tieRecords : List MatchedLine :=
  [{ FilePath := "t.txt", LineNumber := 1, Name := "a", IndentLevel := 1 },
   { FilePath := "t.txt", LineNumber := 2, Name := "b", IndentLevel := 1 },
   { FilePath := "t.txt", LineNumber := 3, Name := "a", IndentLevel := 1 },
   { FilePath := "t.txt", LineNumber := 4, Name := "b", IndentLevel := 1 }]

/-- Per-path `countLinesInFile` outcomes induced by a pure file system. -/
def clsOfFS (fs : FS) : String → Option Nat := fun p => (fs p).map List.length

/-- A single aggregated record in `a.txt`, for the statistics claims. -/
def soloRecord : List MatchedLine :=
  [{ FilePath := "a.txt", LineNumber := 1, Name := "X", IndentLevel := 1 }]

/-- File system where only `bad.txt` fails. -/
def c6FS : FS := fun p => if p = "bad.txt" then none else some []

/-! ## Specification predicates for the sort port

Index-based formulations: statements quantify over positions of the working
list, mirroring the index manipulation of the Go routines. -/

namespace GoSort

/-- Every value stored at an index of `[a, b)` satisfies `P`. -/
def SegAll {α : Type} [Inhabited α] (d : List α) (a b : Nat)
    (P : α → Prop) : Prop :=
  ∀ i, a ≤ i → i < b → P (lget d i)

/-- The window `[a, b)` is sorted for the strict comparison `less`: no later
element is strictly below an earlier one. -/
def SortedSeg {α : Type} [Inhabited α] (less : α → α → Bool) (d : List α)
    (a b : Nat) : Prop :=
  ∀ i j, a ≤ i → i < j → j < b → less (lget d j) (lget d i) = false

/-- `d'` is obtained from `d` by writes confined to the window `[a, b)`: the
length is unchanged, values outside the window are unchanged, and any
property shared by all window values is preserved (writes only permute the
window). -/
def Confined {α : Type} [Inhabited α] (d : List α) (a b : Nat)
    (d' : List α) : Prop :=
  d'.length = d.length ∧
  (∀ i, i < a ∨ b ≤ i → lget d' i = lget d i) ∧
  (∀ P : α → Prop, SegAll d a b P → SegAll d' a b P)

/-- Max-heap order on the window of size `hi` based at `first`, restricted to
parents at heap index at least `st`. -/
def HeapFrom {α : Type} [Inhabited α] (less : α → α → Bool) (d : List α)
    (first hi st : Nat) : Prop :=
  ∀ r c, st ≤ r → c < hi → (c = 2 * r + 1 ∨ c = 2 * r + 2) →
    less (lget d (first + r)) (lget d (first + c)) = false

/-- Adjacent-pair order on `[a, i)` (the partial-insertion-sort invariant). -/
def AdjSorted {α : Type} [Inhabited α] (less : α → α → Bool) (d : List α)
    (a i : Nat) : Prop :=
  ∀ k, a < k → k < i → less (lget d k) (lget d (k - 1)) = false

end GoSort

/-! ## Theorems -/

theorem aggregateMatches_error (fs : FS) (p : String) (hfail : fs p = none) :
    ∀ (paths : List String) (acc : List MatchedLine), p ∈ paths →
      ∃ e, aggregateMatches fs paths acc = .error e := by
  intro paths
  induction paths with
  | nil => intro acc h; cases h
  | cons q ps ih =>
    intro acc hp
    rcases List.mem_cons.mp hp with hq | hps
    · subst hq
      refine ⟨"error processing file " ++ p ++ ": " ++
        ("error opening file " ++ p), ?_⟩
      simp [aggregateMatches, processFile, hfail]
    · show ∃ e, aggregateMatches fs (q :: ps) acc = .error e
      unfold aggregateMatches
      cases hpf : processFile fs q acc with
      | error e => exact ⟨_, rfl⟩
      | ok acc' => exact ih acc' hps

/-- C2: the claim says a failed line-counting path is omitted from
`fileLineCounts` and that `totalLineCount` is exactly the sum of the
successful `countLines` results. The code instead seeds both from the match
loop: with the three `notes.txt` scenario records and a successful count of 4,
`totalLineCount` is `3 + 4 = 7` rather than `4`; and with one aggregated
record in `a.txt` whose count pass fails, `fileLineCounts["a.txt"]` is still
present with the stale matched-line value `1`. -/
theorem c2_stats_totals_bug :
    (genReportStatsData notesRecords ["notes.txt"]
        (fun _ => some 4)).TotalLineCount = 7 ∧
    alookup (genReportStatsData soloRecord ["a.txt"]
        (fun _ => none)).FileLineCounts "a.txt" = some 1 ∧
    (genReportStatsData soloRecord ["a.txt"] (fun _ => none)).TotalLineCount
      = 1 := by
  refine ⟨rfl, rfl, rfl⟩

/-- C7 counterexample: the line `"*  tidbits"` (marker, two spaces, marker
word) matches the pattern — `\s+` takes one space, `(.*)` captures the empty
string, `\s+` takes the other space — and produces a record whose trimmed
name is the empty string, so `name` is not always nonempty after trimming. -/
theorem c7_counterexample :
    matchLineL "*  tidbits".toList = some (1, []) ∧
    recordsOfLines "f" ["*  tidbits"] =
      [{ FilePath := "f", LineNumber := 1, Name := "", IndentLevel := 1 }] :=
  ⟨rfl, rfl⟩

/-- C1 counterexample: on the 13-record collection `ex13`, the records with
case-insensitively equal names `"A"` (line 2) and `"A"` (line 10) appear in
the opposite relative order in the sorted report: `sort.Slice` is a
pattern-defeating quicksort and is not stable once a slice is longer than its
12-element insertion-sort regime. The first filter lists the case-insensitive
`a`-class of the input in input order; the second lists the same class in
report order, with line 10 now before line 2. -/
theorem c1_counterexample :
    ex13.filter aClass =
      [{ FilePath := "f.txt", LineNumber := 2, Name := "A", IndentLevel := 1 },
       { FilePath := "f.txt", LineNumber := 4, Name := "a", IndentLevel := 1 },
       { FilePath := "f.txt", LineNumber := 6, Name := "A", IndentLevel := 1 },
       { FilePath := "f.txt", LineNumber := 8, Name := "a", IndentLevel := 1 },
       { FilePath := "f.txt", LineNumber := 10, Name := "A", IndentLevel := 1 },
       { FilePath := "f.txt", LineNumber := 12, Name := "a", IndentLevel := 1 }]
    ∧
    ((genReportMatchesData ex13).1).filter aClass =
      [{ FilePath := "f.txt", LineNumber := 10, Name := "A", IndentLevel := 1 },
       { FilePath := "f.txt", LineNumber := 2, Name := "A", IndentLevel := 1 },
       { FilePath := "f.txt", LineNumber := 4, Name := "a", IndentLevel := 1 },
       { FilePath := "f.txt", LineNumber := 6, Name := "A", IndentLevel := 1 },
       { FilePath := "f.txt", LineNumber := 8, Name := "a", IndentLevel := 1 },
       { FilePath := "f.txt", LineNumber := 12, Name := "a", IndentLevel := 1 }] :=
  ⟨by decide, by decide⟩

/-- C9 counterexample: on `tieRecords`, the groups for `a` and `b` both have
count 2; the two key iteration orders `["a", "b"]` and `["b", "a"]` are both
permutations of the key set of the `nameCount` map, yet they produce
duplicate reports whose tied groups appear in different orders, so the report
is not deterministic under Go's randomised map iteration. -/
theorem c9_counterexample :
    (["a", "b"].Perm ((buildNameCount tieRecords).map Prod.fst) ∧
     ["b", "a"].Perm ((buildNameCount tieRecords).map Prod.fst)) ∧
    (genReportNameCountsData tieRecords ["a", "b"]).1 ≠
      (genReportNameCountsData tieRecords ["b", "a"]).1 := by
  refine ⟨⟨by decide, by decide⟩, by decide⟩

/-- C10: generating reports leaves the aggregated match collection unchanged:
each builder's explicit-state component returns the `matches` slice exactly as
it was (the sorted report sorts a fresh copy, and `copy` of the full slice is
the identity), and running all three in sequence leaves the collection
intact. -/
theorem c10_reports_preserve_matches (ms : List MatchedLine)
    (order : List String) (paths : List String) (cls : String → Option Nat) :
    (genReportMatchesData ms).2 = ms ∧
    (genReportNameCountsData ms order).2 = ms ∧
    (genReportStatsDataSt ms paths cls).2 = ms ∧
    (genReportMatchesData ms).1 = sortMatchesByName ms ∧
    (genReportStatsDataSt
      (genReportNameCountsData ((genReportMatchesData ms).2) order).2
      paths cls).2 = ms := by
  refine ⟨rfl, rfl, rfl, ?_, rfl⟩
  show sortMatchesByName (copySlice ms) = sortMatchesByName ms
  rw [copySlice, List.take_length]

/-- C6: if any path of the input list cannot be opened or read during the
matching pass, the whole run fails and none of the three reports is
produced, regardless of the other paths. -/
theorem c6_abort_on_open_error (fs : FS) (cls : String → Option Nat)
    (order : List String) (paths : List String) (p : String)
    (hp : p ∈ paths) (hfail : fs p = none) :
    ∃ e, runReports fs cls order paths = .error e := by
  obtain ⟨e, he⟩ := aggregateMatches_error fs p hfail paths [] hp
  exact ⟨e, by rw [runReports, he]⟩

/-- C6 witness: a list with a good path and a bad one aborts. -/
theorem c6_witness :
    ("bad.txt" ∈ ["good.txt", "bad.txt"] ∧ c6FS "bad.txt" = none) ∧
    ∃ e, runReports c6FS (fun _ => none) [] ["good.txt", "bad.txt"]
      = .error e :=
  ⟨⟨by decide, by rfl⟩,
    c6_abort_on_open_error c6FS (fun _ => none) [] ["good.txt", "bad.txt"]
      "bad.txt" (by decide) (by rfl)⟩

theorem perm_pair_cases {α : Type} {a b : α} {l : List α}
    (h : l.Perm [a, b]) : l = [a, b] ∨ l = [b, a] := by
  match l with
  | [] => exact absurd h.length_eq (by simp)
  | [x] => exact absurd h.length_eq (by simp)
  | x :: y :: z :: t => exact absurd h.length_eq (by simp)
  | [x, y] =>
    have hx : x ∈ [a, b] := h.subset (by simp)
    rcases List.mem_pair.mp hx with h1 | h1
    · left
      rw [h1] at h ⊢
      have h2 : [y].Perm [b] := h.cons_inv
      rw [List.perm_singleton.mp h2]
    · right
      rw [h1] at h ⊢
      have h2 : (b :: [y]).Perm (b :: [a]) :=
        h.trans (List.Perm.swap b a [])
      rw [List.perm_singleton.mp h2.cons_inv]

/-- C4: on the four-line `notes.txt` scenario, aggregation yields exactly the
three records of `notesRecords`; for every iteration order of the `nameCount`
map the duplicate report is the single `Alpha` group with count 2 and
locations `notes.txt:1`, `notes.txt:4`; and the statistics record 4 total
lines and 3 matched lines for `notes.txt`. -/
theorem c4_scenario (order : List String)
    (horder : order.Perm ((buildNameCount notesRecords).map Prod.fst)) :
    aggregateMatches notesFS ["notes.txt"] [] = .ok notesRecords ∧
    (genReportNameCountsData notesRecords order).1 =
      [{ Name := "Alpha", Count := 2,
         Places := ["notes.txt:1", "notes.txt:4"] }] ∧
    alookup (genReportStatsData notesRecords ["notes.txt"]
        (clsOfFS notesFS)).FileLineCounts "notes.txt" = some 4 ∧
    alookup (genReportStatsData notesRecords ["notes.txt"]
        (clsOfFS notesFS)).FileMatchedLineCounts "notes.txt" = some 3 := by
  have hkeys : (buildNameCount notesRecords).map Prod.fst = ["alpha", "beta"] :=
    by decide
  refine ⟨by rfl, ?_, by decide, by decide⟩
  rw [hkeys] at horder
  rcases perm_pair_cases horder with h | h <;> rw [h] <;> decide

/-- C4 witness: the insertion iteration order. -/
theorem c4_witness :
    (["alpha", "beta"].Perm ((buildNameCount notesRecords).map Prod.fst)) ∧
    (genReportNameCountsData notesRecords ["alpha", "beta"]).1 =
      [{ Name := "Alpha", Count := 2,
         Places := ["notes.txt:1", "notes.txt:4"] }] :=
  ⟨by decide, (c4_scenario ["alpha", "beta"] (by decide)).2.1⟩

/-- C7 (amended part): whenever the matcher produces a record, the reported
depth is the length of the line's maximal leading run of marker
characters. The name, however, may be empty (see the counterexample). -/
theorem c7_indent_is_star_run (cs : List Char) (d : Nat) (nm : List Char)
    (h : matchLineL cs = some (d, nm)) :
    d = (cs.takeWhile isStarChar).length := by
  simp only [matchLineL] at h
  split at h
  · exact absurd h (by simp)
  split at h
  · exact absurd h (by simp)
  split at h
  · exact absurd h (by simp)
  split at h
  case h_1 c1 c2 heq1 heq2 =>
    split at h
    · split at h
      · exact absurd h (by simp)
      · injection h with h'
        injection h' with h1 h2
        exact h1.symm
    · exact absurd h (by simp)
  case h_2 => exact absurd h (by simp)

/-- C7 witness. -/
theorem c7_witness :
    matchLineL "** beta TIDBITS".toList = some (2, "beta".toList) ∧
    2 = ("** beta TIDBITS".toList.takeWhile isStarChar).length :=
  ⟨by decide, c7_indent_is_star_run "** beta TIDBITS".toList 2 "beta".toList
    (by decide)⟩

theorem aggregateMatches_ok (fs : FS) :
    ∀ (paths : List String) (acc ms : List MatchedLine),
      aggregateMatches fs paths acc = .ok ms →
      ms = acc ++ paths.flatMap fun p => recordsOfLines p ((fs p).getD []) := by
  intro paths
  induction paths with
  | nil =>
    intro acc ms h
    simp only [aggregateMatches] at h
    injection h with h
    simp [h]
  | cons q ps ih =>
    intro acc ms h
    simp only [aggregateMatches, processFile] at h
    cases hq : fs q with
    | none => rw [hq] at h; exact absurd h (by simp)
    | some lines =>
      rw [hq] at h
      have := ih (acc ++ recordsOfLines q lines) ms h
      rw [this, List.flatMap_cons, hq]
      simp [List.append_assoc]

theorem recordsOfLines_pairwise (path : String) (lines : List String) :
    List.Pairwise (fun r s => r.LineNumber < s.LineNumber)
      (recordsOfLines path lines) := by
  rw [recordsOfLines, List.pairwise_filterMap]
  have base : List.Pairwise (fun p q : Nat × String => p.1 < q.1)
      (List.enumFrom 1 lines) := by
    have h := List.pairwise_lt_range' 1 lines.length
    rw [← List.enumFrom_map_fst 1 lines] at h
    exact List.pairwise_map.mp h
  refine base.imp ?_
  rintro p q hlt r hr s hs
  rcases Option.mem_map.mp hr with ⟨dn, _, rfl⟩
  rcases Option.mem_map.mp hs with ⟨dn', _, rfl⟩
  exact hlt

/-- C8: a successful aggregation is the order-preserving concatenation of the
per-path record lists (all matches of the first path precede all matches of
the second, and so on), and within one file the records carry strictly
increasing line numbers. -/
theorem c8_global_ordering :
    (∀ (fs : FS) (paths : List String) (ms : List MatchedLine),
        aggregateMatches fs paths [] = .ok ms →
        ms = paths.flatMap fun p => recordsOfLines p ((fs p).getD [])) ∧
    ∀ (path : String) (lines : List String),
      List.Pairwise (fun r s => r.LineNumber < s.LineNumber)
        (recordsOfLines path lines) := by
  refine ⟨?_, recordsOfLines_pairwise⟩
  intro fs paths ms h
  simpa using aggregateMatches_ok fs paths [] ms h

/-- C8 witness. -/
theorem c8_witness :
    notesRecords =
      ["notes.txt"].flatMap fun p => recordsOfLines p ((notesFS p).getD []) :=
  c8_global_ordering.1 notesFS ["notes.txt"] notesRecords (by rfl)

theorem getD_set_cons_perm {α : Type} [Inhabited α] :
    ∀ (t : List α) (m : Nat) (x : α), m < t.length →
      ((lget t m) :: t.set m x).Perm (x :: t) := by
  intro t
  induction t with
  | nil => intro m x h; simp at h
  | cons y t' ih =>
    intro m x h
    cases m with
    | zero => simp [lget, List.Perm.swap]
    | succ k =>
      simp only [lget, List.getD_cons_succ, List.set_cons_succ]
      refine (List.Perm.swap y (t'.getD k default) (t'.set k x)).trans ?_
      have hih := ih k x (by simpa using h)
      simp only [lget] at hih
      exact ((hih).cons y).trans (List.Perm.swap x y t')

theorem lswap_perm_aux {α : Type} [Inhabited α] :
    ∀ (l : List α) (i j : Nat), i < l.length → j < l.length →
      ((l.set i (lget l j)).set j (lget l i)).Perm l := by
  intro l
  induction l with
  | nil => intro i j hi _; simp at hi
  | cons x t ih =>
    intro i j hi hj
    cases i with
    | zero =>
      cases j with
      | zero => simp [lget]
      | succ k =>
        simp only [lget, List.getD_cons_succ, List.getD_cons_zero,
          List.set_cons_zero, List.set_cons_succ]
        exact getD_set_cons_perm t k x (by simpa using hj)
    | succ m =>
      cases j with
      | zero =>
        simp only [lget, List.getD_cons_succ, List.getD_cons_zero,
          List.set_cons_zero, List.set_cons_succ]
        exact getD_set_cons_perm t m x (by simpa using hi)
      | succ k =>
        simp only [lget, List.getD_cons_succ, List.set_cons_succ]
        exact (ih m k (by simpa using hi) (by simpa using hj)).cons x

theorem lswap_perm {α : Type} [Inhabited α] (l : List α) (i j : Nat) :
    (lswap l i j).Perm l := by
  unfold lswap
  split
  case isTrue h => exact lswap_perm_aux l i j h.1 h.2
  case isFalse => exact List.Perm.refl l

namespace GoSort

variable {α : Type} [Inhabited α] (less : α → α → Bool)

theorem insertInner_perm (a : Nat) :
    ∀ (j : Nat) (d : List α), (insertInner less a d j).Perm d := by
  intro j
  induction j with
  | zero => intro d; exact .refl d
  | succ j ih =>
    intro d
    simp only [insertInner]
    split
    · exact (ih _).trans (lswap_perm d (j + 1) j)
    · exact .refl d

theorem insertionSortAux_perm (a b : Nat) :
    ∀ (fuel i : Nat) (d : List α), (insertionSortAux less a b d i fuel).Perm d := by
  intro fuel
  induction fuel with
  | zero => intro i d; exact .refl d
  | succ fuel ih =>
    intro i d
    simp only [insertionSortAux]
    split
    · exact (ih _ _).trans (insertInner_perm less a i d)
    · exact .refl d

theorem insertionSort_perm (d : List α) (a b : Nat) :
    (insertionSort less d a b).Perm d :=
  insertionSortAux_perm less a b (b - a) (a + 1) d

theorem siftDownAux_perm (hi first : Nat) :
    ∀ (fuel root : Nat) (d : List α), (siftDownAux less hi first d root fuel).Perm d := by
  intro fuel
  induction fuel with
  | zero => intro root d; exact .refl d
  | succ fuel ih =>
    intro root d
    simp only [siftDownAux]
    repeat' split
    all_goals
      first
      | exact .refl d
      | exact (ih _ _).trans (lswap_perm d _ _)

theorem siftDown_perm (d : List α) (lo hi first : Nat) :
    (siftDown less d lo hi first).Perm d :=
  siftDownAux_perm less hi first (hi + 1) lo d

theorem heapBuild_perm (hi first : Nat) :
    ∀ (c : Nat) (d : List α), (heapBuild less hi first d c).Perm d := by
  intro c
  induction c with
  | zero => intro d; exact .refl d
  | succ c ih =>
    intro d
    simp only [heapBuild]
    exact (ih _).trans (siftDown_perm less d c hi first)

theorem heapPop_perm (first : Nat) :
    ∀ (c : Nat) (d : List α), (heapPop less first d c).Perm d := by
  intro c
  induction c with
  | zero => intro d; exact .refl d
  | succ c ih =>
    intro d
    simp only [heapPop]
    exact (ih _).trans ((siftDown_perm less _ 0 c first).trans
      (lswap_perm d first (first + c)))

theorem heapSort_perm (d : List α) (a b : Nat) :
    (heapSort less d a b).Perm d :=
  (heapPop_perm less a (b - a) _).trans
    (heapBuild_perm less (b - a) a ((b - a - 1) / 2 + 1) d)

theorem partitionLoop_perm (a b : Nat) :
    ∀ (fuel i j : Nat) (d : List α), (partitionLoop less a b d i j fuel).1.Perm d := by
  intro fuel
  induction fuel with
  | zero => intro i j d; exact .refl d
  | succ fuel ih =>
    intro i j d
    simp only [partitionLoop]
    split
    · exact .refl d
    · exact (ih _ _ _).trans (lswap_perm d _ _)

theorem partition_perm (d : List α) (a b pivot : Nat) :
    (partition less d a b pivot).1.Perm d := by
  simp only [partition]
  split
  · exact (lswap_perm _ _ _).trans (lswap_perm d a pivot)
  · exact (lswap_perm _ _ _).trans (((partitionLoop_perm less a b b _ _ _).trans
      (lswap_perm _ _ _)).trans (lswap_perm d a pivot))

theorem partitionEqualLoop_perm (a b : Nat) :
    ∀ (fuel i j : Nat) (d : List α),
      (partitionEqualLoop less a b d i j fuel).1.Perm d := by
  intro fuel
  induction fuel with
  | zero => intro i j d; exact .refl d
  | succ fuel ih =>
    intro i j d
    simp only [partitionEqualLoop]
    split
    · exact .refl d
    · exact (ih _ _ _).trans (lswap_perm d _ _)

theorem partitionEqual_perm (d : List α) (a b pivot : Nat) :
    (partitionEqual less d a b pivot).1.Perm d :=
  (partitionEqualLoop_perm less a b b _ _ _).trans (lswap_perm d a pivot)

theorem pisShiftLeft_perm :
    ∀ (j : Nat) (d : List α), (pisShiftLeft less d j).Perm d := by
  intro j
  induction j with
  | zero => intro d; exact .refl d
  | succ j ih =>
    intro d
    simp only [pisShiftLeft]
    split
    · exact (ih _).trans (lswap_perm d _ _)
    · exact .refl d

theorem pisShiftRight_perm (b : Nat) :
    ∀ (fuel j : Nat) (d : List α), (pisShiftRight less b d j fuel).Perm d := by
  intro fuel
  induction fuel with
  | zero => intro j d; exact .refl d
  | succ fuel ih =>
    intro j d
    simp only [pisShiftRight]
    split
    · exact (ih _ _).trans (lswap_perm d _ _)
    · exact .refl d

theorem partialInsertionSortAux_perm (a b : Nat) :
    ∀ (steps i : Nat) (d : List α),
      (partialInsertionSortAux less a b d i steps).1.Perm d := by
  intro steps
  induction steps with
  | zero => intro i d; exact .refl d
  | succ steps ih =>
    intro i d
    simp only [partialInsertionSortAux]
    split
    · exact .refl d
    · split
      · exact .refl d
      · refine (ih _ _).trans ?_
        have h2 : ∀ d' : List α,
            (if b - pisScan less b d i b ≥ 2 then
              pisShiftRight less b d' (pisScan less b d i b + 1) b
            else d').Perm d' := by
          intro d'
          split
          · exact pisShiftRight_perm less b b _ d'
          · exact .refl d'
        have h1 : ∀ d' : List α,
            (if pisScan less b d i b - a ≥ 2 then
              pisShiftLeft less d' (pisScan less b d i b - 1)
            else d').Perm d' := by
          intro d'
          split
          · exact pisShiftLeft_perm less _ d'
          · exact .refl d'
        exact ((h2 _).trans (h1 _)).trans (lswap_perm d _ _)

theorem partialInsertionSort_perm (d : List α) (a b : Nat) :
    (partialInsertionSort less d a b).1.Perm d :=
  partialInsertionSortAux_perm less a b 5 (a + 1) d

theorem reverseRangeAux_perm :
    ∀ (fuel i j : Nat) (d : List α), (reverseRangeAux d i j fuel).Perm d := by
  intro fuel
  induction fuel with
  | zero => intro i j d; exact .refl d
  | succ fuel ih =>
    intro i j d
    simp only [reverseRangeAux]
    split
    · exact (ih _ _ _).trans (lswap_perm d _ _)
    · exact .refl d

theorem reverseRange_perm (d : List α) (a b : Nat) :
    (reverseRange d a b).Perm d :=
  reverseRangeAux_perm (b - a) a (b - 1) d

theorem breakPatterns_perm (d : List α) (a b : Nat) :
    (breakPatterns d a b).Perm d := by
  simp only [breakPatterns]
  split
  · exact ((lswap_perm _ _ _).trans (lswap_perm _ _ _)).trans (lswap_perm d _ _)
  · exact .refl d

theorem pdqPrep_perm (d : List α) (a b limit : Nat) (wb : Bool) :
    (pdqPrep d a b limit wb).1.Perm d := by
  unfold pdqPrep
  split
  · exact breakPatterns_perm d a b
  · exact .refl d

theorem pdqPivot_perm (d : List α) (a b : Nat) :
    (pdqPivot less d a b).1.Perm d := by
  simp only [pdqPivot]
  split
  · exact reverseRange_perm d a b
  · exact .refl d

theorem pdqTryPIS_perm (d : List α) (a b : Nat) (wb wp : Bool) (h : Hint) :
    (pdqTryPIS less d a b wb wp h).1.Perm d := by
  unfold pdqTryPIS
  split
  · exact partialInsertionSort_perm less d a b
  · exact .refl d

theorem pdqsortLoop_perm :
    ∀ (fuel : Nat) (d : List α) (a b limit : Nat) (wb wp : Bool),
      (pdqsortLoop less d a b limit wb wp fuel).Perm d := by
  intro fuel
  induction fuel with
  | zero => intro d a b limit wb wp; exact .refl d
  | succ fuel ih =>
    intro d a b limit wb wp
    simp only [pdqsortLoop]
    have base :
        (pdqTryPIS less (pdqPivot less (pdqPrep d a b limit wb).1 a b).1 a b
          wb wp (pdqPivot less (pdqPrep d a b limit wb).1 a b).2.2).1.Perm d :=
      (pdqTryPIS_perm less _ a b wb wp _).trans
        ((pdqPivot_perm less _ a b).trans (pdqPrep_perm d a b limit wb))
    split
    · exact insertionSort_perm less d a b
    · split
      · exact heapSort_perm less d a b
      · split
        · exact base
        · split
          · exact (ih _ _ _ _ _ _).trans
              ((partitionEqual_perm less _ a b _).trans base)
          · split
            · exact ((ih _ _ _ _ _ _).trans (ih _ _ _ _ _ _)).trans
                ((partition_perm less _ a b _).trans base)
            · exact ((ih _ _ _ _ _ _).trans (ih _ _ _ _ _ _)).trans
                ((partition_perm less _ a b _).trans base)

theorem goSortSlice_perm (l : List α) : (goSortSlice less l).Perm l :=
  pdqsortLoop_perm less (l.length + 1) l 0 l.length (bitsLen l.length) true true

end GoSort

/-- C9 (amended): for a fixed aggregated collection the duplicate-name report
is deterministic up to the order of tied-count groups: any two legitimate map
iteration orders (permutations of the `nameCount` key sequence) produce the
same multiset of groups. (The counterexample shows the order itself can
differ, so equality holds only up to permutation.) -/
theorem c9_output_perm_invariant (ms : List MatchedLine) (o1 o2 : List String)
    (h1 : o1.Perm ((buildNameCount ms).map Prod.fst))
    (h2 : o2.Perm ((buildNameCount ms).map Prod.fst)) :
    ((genReportNameCountsData ms o1).1).Perm
      ((genReportNameCountsData ms o2).1) := by
  have ho : o1.Perm o2 := h1.trans h2.symm
  simp only [genReportNameCountsData]
  have hmid : (o1.filterMap (alookup (buildNameCount ms))).Perm
      (o2.filterMap (alookup (buildNameCount ms))) := ho.filterMap _
  have hsorted := (GoSort.goSortSlice_perm countGreater
      (o1.filterMap (alookup (buildNameCount ms)))).trans
    (hmid.trans (GoSort.goSortSlice_perm countGreater
      (o2.filterMap (alookup (buildNameCount ms)))).symm)
  have hfil := hsorted.filter (fun i => i.Count ≥ 2)
  exact (GoSort.goSortSlice_perm countGreater _).trans
    (hfil.trans (GoSort.goSortSlice_perm countGreater _).symm)

/-- C9 witness: the two orders of the counterexample produce permuted
outputs. -/
theorem c9_witness :
    (["a", "b"].Perm ((buildNameCount tieRecords).map Prod.fst) ∧
     ["b", "a"].Perm ((buildNameCount tieRecords).map Prod.fst)) ∧
    ((genReportNameCountsData tieRecords ["a", "b"]).1).Perm
      ((genReportNameCountsData tieRecords ["b", "a"]).1) :=
  ⟨⟨by decide, by decide⟩,
    c9_output_perm_invariant tieRecords ["a", "b"] ["b", "a"]
      (by decide) (by decide)⟩

theorem lexLt_self : ∀ l : List Char, lexLt l l = false := by
  intro l
  induction l with
  | nil => rfl
  | cons a as ih => simp [lexLt, ih]

theorem lswap_cons_succ {α : Type} [Inhabited α] (x : α) (t : List α)
    (i j : Nat) : lswap (x :: t) (i + 1) (j + 1) = x :: lswap t i j := by
  unfold lswap
  by_cases hb : i < t.length ∧ j < t.length
  · rw [if_pos hb, if_pos (by simp [Nat.succ_lt_succ, hb.1, hb.2])]
    simp [lget, List.getD_cons_succ, List.set_cons_succ]
  · rw [if_neg hb, if_neg (by simpa [Nat.succ_lt_succ_iff] using hb)]

theorem filter_lswap_adj {α : Type} [Inhabited α] (p : α → Bool) :
    ∀ (j : Nat) (d : List α),
      ¬(p (lget d j) = true ∧ p (lget d (j + 1)) = true) →
      (lswap d (j + 1) j).filter p = d.filter p := by
  intro j
  induction j with
  | zero =>
    intro d hnp
    match d with
    | [] => rfl
    | [x] => rfl
    | x :: y :: t =>
      have hb : (1 < (x :: y :: t).length ∧ 0 < (x :: y :: t).length) := by
        simp
      unfold lswap
      rw [if_pos hb]
      simp only [lget, List.getD_cons_succ, List.getD_cons_zero,
        List.set_cons_succ, List.set_cons_zero] at hnp ⊢
      rcases hx : p x <;> rcases hy : p y <;>
        simp [List.filter_cons, hx, hy]
      exact absurd ⟨hx, hy⟩ hnp
  | succ k ih =>
    intro d hnp
    match d with
    | [] => rfl
    | x :: t =>
      rw [lswap_cons_succ]
      simp only [lget, List.getD_cons_succ] at hnp
      simp [List.filter_cons, ih t hnp]

theorem insertInner_filter {α : Type} [Inhabited α] (p : α → Bool)
    (less : α → α → Bool)
    (hcompat : ∀ x y, p x = true → p y = true → less x y = false) (a : Nat) :
    ∀ (j : Nat) (d : List α),
      (GoSort.insertInner less a d j).filter p = d.filter p := by
  intro j
  induction j with
  | zero => intro d; rfl
  | succ j ih =>
    intro d
    simp only [GoSort.insertInner]
    split
    case isTrue hguard =>
      rw [ih]
      refine filter_lswap_adj p j d ?_
      rintro ⟨hpj, hpj1⟩
      have hless : less (lget d (j + 1)) (lget d j) = true :=
        (Bool.and_eq_true _ _ |>.mp hguard).2
      rw [hcompat _ _ hpj1 hpj] at hless
      exact Bool.false_ne_true hless
    case isFalse => rfl

theorem insertionSortAux_filter {α : Type} [Inhabited α] (p : α → Bool)
    (less : α → α → Bool)
    (hcompat : ∀ x y, p x = true → p y = true → less x y = false) (a b : Nat) :
    ∀ (fuel i : Nat) (d : List α),
      (GoSort.insertionSortAux less a b d i fuel).filter p = d.filter p := by
  intro fuel
  induction fuel with
  | zero => intro i d; rfl
  | succ fuel ih =>
    intro i d
    simp only [GoSort.insertionSortAux]
    split
    · rw [ih, insertInner_filter p less hcompat]
    · rfl

/-- C1 (amended): the sorted match report is stable exactly in the regime
where `sort.Slice` runs plain insertion sort, namely on collections of at
most 12 records: for each case-insensitive name class, the class's records
appear in the report in their aggregated order. (For 13 or more records
stability fails; see the counterexample.) -/
theorem c1_sorted_report_stable_upto12 (ms : List MatchedLine)
    (hlen : ms.length ≤ 12) (k : String) :
    ((genReportMatchesData ms).1).filter (fun r => goToLower r.Name == k) =
      ms.filter (fun r => goToLower r.Name == k) := by
  have hcopy : (genReportMatchesData ms).1 = GoSort.goSortSlice matchLess ms := by
    show sortMatchesByName (copySlice ms) = _
    rw [copySlice, List.take_length, sortMatchesByName]
  rw [hcopy, GoSort.goSortSlice]
  simp only [GoSort.pdqsortLoop]
  rw [if_pos (by simpa using hlen)]
  refine insertionSortAux_filter _ matchLess ?_ 0 ms.length
    (ms.length - 0) (0 + 1) ms
  intro x y hx hy
  have hx' : goToLower x.Name = k := by simpa using hx
  have hy' : goToLower y.Name = k := by simpa using hy
  unfold matchLess
  rw [hx', hy', lexLt_self]

/-- C1 witness: the three-record scenario collection is small enough, and its
`alpha` class is reported in aggregated order. -/
theorem c1_witness :
    notesRecords.length ≤ 12 ∧
    ((genReportMatchesData notesRecords).1).filter
        (fun r => goToLower r.Name == "alpha") =
      notesRecords.filter (fun r => goToLower r.Name == "alpha") :=
  ⟨by decide, c1_sorted_report_stable_upto12 notesRecords (by decide) "alpha"⟩

theorem regexSpace_goSpace {c : Char} (h : isRegexSpace c = true) :
    isGoSpace c = true := by
  simp only [isRegexSpace, Bool.or_eq_true, beq_iff_eq] at h
  obtain (((h | h) | h) | h) | h := h <;> subst h <;> rfl

theorem regexSpace_not_star {c : Char} (h : isRegexSpace c = true) :
    isStarChar c = false := by
  simp only [isRegexSpace, Bool.or_eq_true, beq_iff_eq] at h
  obtain (((h | h) | h) | h) | h := h <;> subst h <;> rfl

theorem dropWhile_append_of_all {α : Type} (p : α → Bool) :
    ∀ (xs ys : List α), (∀ c ∈ xs, p c = true) →
      (xs ++ ys).dropWhile p = ys.dropWhile p := by
  intro xs
  induction xs with
  | nil => intro ys _; rfl
  | cons x t ih =>
    intro ys h
    have hx : p x = true := h x (List.mem_cons_self x t)
    simp only [List.cons_append, List.dropWhile_cons, hx, if_true]
    exact ih ys fun c hc => h c (List.mem_cons_of_mem x hc)

theorem dropWhile_append_of_ne_nil {α : Type} (p : α → Bool) :
    ∀ (xs ys : List α), xs.dropWhile p ≠ [] →
      (xs ++ ys).dropWhile p = xs.dropWhile p ++ ys := by
  intro xs
  induction xs with
  | nil => intro ys h; exact absurd rfl h
  | cons x t ih =>
    intro ys h
    by_cases hx : p x = true
    · simp only [List.dropWhile_cons, hx, if_true] at h
      simp only [List.cons_append, List.dropWhile_cons, hx, if_true]
      exact ih ys h
    · have hx' : p x = false := Bool.not_eq_true _ |>.mp hx
      simp [List.cons_append, List.dropWhile_cons, hx']

theorem dropTrailing_append_of_all (p : Char → Bool) (xs ys : List Char)
    (h : ∀ c ∈ ys, p c = true) :
    dropTrailing p (xs ++ ys) = dropTrailing p xs := by
  unfold dropTrailing
  rw [List.reverse_append, dropWhile_append_of_all p ys.reverse xs.reverse
    fun c hc => h c (List.mem_reverse.mp hc)]

theorem dropWhile_dropWhile_of_imp (p q : Char → Bool)
    (himp : ∀ c, p c = true → q c = true) :
    ∀ l : List Char, (l.dropWhile p).dropWhile q = l.dropWhile q := by
  intro l
  induction l with
  | nil => rfl
  | cons x t ih =>
    by_cases hx : p x = true
    · have hq := himp x hx
      simp only [List.dropWhile_cons, hx, hq, if_true]
      exact ih
    · have hx' : p x = false := Bool.not_eq_true _ |>.mp hx
      simp [List.dropWhile_cons, hx']

theorem eq_dropTrailing_append (p : Char → Bool) (l : List Char) :
    l = dropTrailing p l ++ (l.reverse.takeWhile p).reverse := by
  unfold dropTrailing
  rw [← List.reverse_append, List.takeWhile_append_dropWhile,
    List.reverse_reverse]

theorem mem_revTakeWhile_imp (p : Char → Bool) (l : List Char) :
    ∀ c ∈ (l.reverse.takeWhile p).reverse, p c = true := fun _ hc =>
  List.mem_takeWhile_imp (List.mem_reverse.mp hc)

theorem trimSpaceL_all_left (w x : List Char)
    (h : ∀ c ∈ w, isGoSpace c = true) :
    trimSpaceL (w ++ x) = trimSpaceL x := by
  unfold trimSpaceL
  rw [dropWhile_append_of_all isGoSpace w x h]

theorem trimSpaceL_all_right (x w : List Char)
    (h : ∀ c ∈ w, isGoSpace c = true) :
    trimSpaceL (x ++ w) = trimSpaceL x := by
  unfold trimSpaceL
  by_cases hx : x.dropWhile isGoSpace = []
  · rw [dropWhile_append_of_all isGoSpace x w
      (List.dropWhile_eq_nil_iff.mp hx), hx]
    rw [List.dropWhile_eq_nil_iff.mpr h]
  · rw [dropWhile_append_of_ne_nil isGoSpace x w hx,
      dropTrailing_append_of_all isGoSpace _ w h]

theorem trimSpaceL_dropWhile_regex (x : List Char) :
    trimSpaceL (x.dropWhile isRegexSpace) = trimSpaceL x := by
  unfold trimSpaceL
  rw [dropWhile_dropWhile_of_imp isRegexSpace isGoSpace
    (fun c => regexSpace_goSpace) x]

theorem trimSpaceL_dropTrailing_regex (x : List Char) :
    trimSpaceL (dropTrailing isRegexSpace x) = trimSpaceL x := by
  conv_rhs => rw [eq_dropTrailing_append isRegexSpace x]
  rw [trimSpaceL_all_right _ _
    fun c hc => regexSpace_goSpace (mem_revTakeWhile_imp isRegexSpace x c hc)]

theorem takeWhile_dropWhile_append_stop {α : Type} (p : α → Bool) :
    ∀ (xs ys : List α), (∀ c ∈ xs, p c = true) →
      (∀ c, ys.head? = some c → p c = false) →
      (xs ++ ys).takeWhile p = xs ∧ (xs ++ ys).dropWhile p = ys := by
  intro xs
  induction xs with
  | nil =>
    intro ys _ hy
    cases ys with
    | nil => exact ⟨rfl, rfl⟩
    | cons y t =>
      have hpy := hy y rfl
      simp [List.takeWhile_cons, List.dropWhile_cons, hpy]
  | cons x t ih =>
    intro ys h hy
    have hx : p x = true := h x (List.mem_cons_self x t)
    have ht := ih ys (fun c hc => h c (List.mem_cons_of_mem x hc)) hy
    simp [List.takeWhile_cons, List.dropWhile_cons, hx, ht.1, ht.2]

theorem dropTrailing_sublist (p : Char → Bool) (l : List Char) :
    (dropTrailing p l).Sublist l := by
  have h := (List.dropWhile_sublist (l := l.reverse) p).reverse
  rwa [List.reverse_reverse] at h

theorem ciTidbits_length {tw : List Char} (h : ciTidbits tw = true) :
    tw.length = 7 := by
  have heq : tw.map Char.toLower = "tidbits".toList := by
    simpa [ciTidbits] using h
  have hlen := congrArg List.length heq
  simpa using hlen

theorem matchLineL_intro (cs : List Char) (hnl : '\n' ∉ cs)
    (stars w1 mid w2 tw : List Char)
    (hcs : cs = stars ++ w1 ++ mid ++ w2 ++ tw)
    (hsne : stars ≠ []) (hsall : ∀ c ∈ stars, isStarChar c = true)
    (hw1ne : w1 ≠ []) (hw1all : ∀ c ∈ w1, isRegexSpace c = true)
    (hw2ne : w2 ≠ []) (hw2all : ∀ c ∈ w2, isRegexSpace c = true)
    (htw : ciTidbits tw = true) :
    matchLineL cs = some (stars.length, trimSpaceL mid) := by
  obtain ⟨c1, w1t, rfl⟩ := List.exists_cons_of_ne_nil hw1ne
  obtain ⟨c2, w2rt, hw2r⟩ := List.exists_cons_of_ne_nil
    (fun h => hw2ne (List.reverse_eq_nil_iff.mp h))
  have hw2 : w2 = w2rt.reverse ++ [c2] := by
    have h := congrArg List.reverse hw2r
    rwa [List.reverse_reverse, List.reverse_cons] at h
  have hc1 : isRegexSpace c1 = true := hw1all c1 (by simp)
  have hc2 : isRegexSpace c2 = true := hw2all c2 (by rw [hw2]; simp)
  have hstop : ∀ c, (((c1 :: w1t) ++ (mid ++ (w2 ++ tw))).head? = some c) →
      isStarChar c = false := by
    intro c hc
    simp only [List.cons_append, List.head?_cons, Option.some.injEq] at hc
    rw [← hc]
    exact regexSpace_not_star hc1
  have hcs' : cs = stars ++ ((c1 :: w1t) ++ (mid ++ (w2 ++ tw))) := by
    rw [hcs]
    simp [List.append_assoc]
  have hsplit := takeWhile_dropWhile_append_stop isStarChar stars
    ((c1 :: w1t) ++ (mid ++ (w2 ++ tw))) hsall hstop
  have htk : cs.takeWhile isStarChar = stars := by rw [hcs']; exact hsplit.1
  have hdr : cs.dropWhile isStarChar = (c1 :: w1t) ++ (mid ++ (w2 ++ tw)) := by
    rw [hcs']; exact hsplit.2
  have htw7 : tw.length = 7 := ciTidbits_length htw
  have hw2len : 1 ≤ w2.length := List.length_pos.mpr hw2ne
  have hrlen : ((c1 :: w1t) ++ (mid ++ (w2 ++ tw))).length =
      w1t.length + 1 + mid.length + w2.length + 7 := by
    simp [htw7]
    omega
  have hassoc : (c1 :: w1t) ++ (mid ++ (w2 ++ tw)) =
      ((c1 :: w1t) ++ mid ++ w2) ++ tw := by
    simp [List.append_assoc]
  have hblen : ((c1 :: w1t) ++ mid ++ w2).length =
      (((c1 :: w1t) ++ mid ++ w2) ++ tw).length - 7 := by
    simp [htw7]
    omega
  have hbody : ((c1 :: w1t) ++ (mid ++ (w2 ++ tw))).take
      (((c1 :: w1t) ++ (mid ++ (w2 ++ tw))).length - 7) =
      (c1 :: w1t) ++ mid ++ w2 := by
    conv_lhs => rw [hassoc]
    exact List.take_left' hblen
  have htl7 : ((c1 :: w1t) ++ (mid ++ (w2 ++ tw))).drop
      (((c1 :: w1t) ++ (mid ++ (w2 ++ tw))).length - 7) = tw := by
    conv_lhs => rw [hassoc]
    exact List.drop_left' hblen
  have hh : ((c1 :: w1t) ++ mid ++ w2).head? = some c1 := rfl
  have hlast : ((c1 :: w1t) ++ mid ++ w2).getLast? = some c2 := by
    have hb2 : (c1 :: w1t) ++ mid ++ w2 =
        ((c1 :: w1t) ++ mid ++ w2rt.reverse) ++ [c2] := by
      rw [hw2]
      simp [List.append_assoc]
    rw [hb2, List.getLast?_concat]
  have hsubcore : (dropTrailing isRegexSpace
      (((c1 :: w1t) ++ mid ++ w2).dropWhile isRegexSpace)).Sublist cs := by
    refine ((dropTrailing_sublist _ _).trans
      ((List.dropWhile_sublist _).trans ?_))
    rw [hcs']
    refine List.Sublist.trans ?_ (List.sublist_append_right stars _)
    rw [hassoc]
    exact List.sublist_append_left _ _
  have hnlcore : (dropTrailing isRegexSpace
      (((c1 :: w1t) ++ mid ++ w2).dropWhile isRegexSpace)).contains '\n'
      = false := by
    cases hcc : (dropTrailing isRegexSpace
        (((c1 :: w1t) ++ mid ++ w2).dropWhile isRegexSpace)).contains '\n'
    · rfl
    · exact absurd (List.Sublist.mem (List.elem_iff.mp hcc) hsubcore) hnl
  have htrim : trimSpaceL (dropTrailing isRegexSpace
      (((c1 :: w1t) ++ mid ++ w2).dropWhile isRegexSpace)) = trimSpaceL mid := by
    rw [trimSpaceL_dropTrailing_regex, trimSpaceL_dropWhile_regex]
    have hgs1 : ∀ c ∈ (c1 :: w1t), isGoSpace c = true :=
      fun c hc => regexSpace_goSpace (hw1all c hc)
    have hgs2 : ∀ c ∈ w2, isGoSpace c = true :=
      fun c hc => regexSpace_goSpace (hw2all c hc)
    calc trimSpaceL ((c1 :: w1t) ++ mid ++ w2)
        = trimSpaceL ((c1 :: w1t) ++ mid) := trimSpaceL_all_right _ _ hgs2
      _ = trimSpaceL mid := trimSpaceL_all_left _ _ hgs1
  simp only [matchLineL, htk, hdr]
  rw [if_neg (by simp [hsne, List.length_eq_zero])]
  rw [if_neg (by omega)]
  rw [htl7]
  rw [if_neg (by simp [htw])]
  rw [hbody]
  rw [hh, hlast]
  dsimp only
  rw [if_pos (by simp [hc1, hc2])]
  rw [hnlcore]
  simp only [Bool.false_eq_true, if_false]
  rw [htrim]

theorem matchLineL_elim (cs : List Char) (d : Nat) (nm : List Char)
    (h : matchLineL cs = some (d, nm)) :
    ∃ stars w1 mid w2 tw,
      cs = stars ++ w1 ++ mid ++ w2 ++ tw ∧ stars ≠ [] ∧
      (∀ c ∈ stars, isStarChar c = true) ∧
      w1 ≠ [] ∧ (∀ c ∈ w1, isRegexSpace c = true) ∧
      w2 ≠ [] ∧ (∀ c ∈ w2, isRegexSpace c = true) ∧
      ciTidbits tw = true ∧ d = stars.length ∧ nm = trimSpaceL mid := by
  simp only [matchLineL] at h
  split at h
  · exact absurd h (by simp)
  case isFalse hs0 =>
    split at h
    · exact absurd h (by simp)
    case isFalse hlen9 =>
      split at h
      · exact absurd h (by simp)
      case isFalse htb =>
        split at h
        case h_2 => exact absurd h (by simp)
        case h_1 c1 c2 heq1 heq2 =>
          split at h
          case isFalse => exact absurd h (by simp)
          case isTrue hcc =>
            split at h
            · exact absurd h (by simp)
            case isFalse hnlc =>
              injection h with hpair
              injection hpair with hd hnm
              rw [Bool.and_eq_true] at hcc
              obtain ⟨hrc1, hrc2⟩ := hcc
              have hsne : cs.takeWhile isStarChar ≠ [] := by
                intro he
                exact hs0 (by rw [he]; rfl)
              have hsall : ∀ c ∈ cs.takeWhile isStarChar, isStarChar c = true :=
                fun c hc => List.mem_takeWhile_imp hc
              have h9 : 9 ≤ (cs.dropWhile isStarChar).length :=
                Nat.le_of_not_lt hlen9
              have htw : ciTidbits ((cs.dropWhile isStarChar).drop
                  ((cs.dropWhile isStarChar).length - 7)) = true := by
                rcases hct : ciTidbits ((cs.dropWhile isStarChar).drop
                    ((cs.dropWhile isStarChar).length - 7))
                · exact absurd (by rw [hct]; rfl) htb
                · rfl
              have hscs : cs.takeWhile isStarChar ++ cs.dropWhile isStarChar
                  = cs := List.takeWhile_append_dropWhile isStarChar cs
              have hrbt : (cs.dropWhile isStarChar).take
                    ((cs.dropWhile isStarChar).length - 7) ++
                  (cs.dropWhile isStarChar).drop
                    ((cs.dropWhile isStarChar).length - 7)
                  = cs.dropWhile isStarChar :=
                List.take_append_drop _ _
              have hblen : ((cs.dropWhile isStarChar).take
                  ((cs.dropWhile isStarChar).length - 7)).length =
                  (cs.dropWhile isStarChar).length - 7 := by
                rw [List.length_take]
                omega
              have hBc : c1 :: ((cs.dropWhile isStarChar).take
                    ((cs.dropWhile isStarChar).length - 7)).tail =
                  (cs.dropWhile isStarChar).take
                    ((cs.dropWhile isStarChar).length - 7) :=
                List.cons_head?_tail (Option.mem_def.mpr heq1)
              by_cases hR1 : ((cs.dropWhile isStarChar).take
                  ((cs.dropWhile isStarChar).length - 7)).dropWhile
                  isRegexSpace = []
              · -- the body is all whitespace: empty captured name
                have hball := List.dropWhile_eq_nil_iff.mp hR1
                refine ⟨cs.takeWhile isStarChar, [c1], [],
                  ((cs.dropWhile isStarChar).take
                    ((cs.dropWhile isStarChar).length - 7)).tail,
                  (cs.dropWhile isStarChar).drop
                    ((cs.dropWhile isStarChar).length - 7),
                  ?_, hsne, hsall, by simp, ?_, ?_, ?_, htw, hd.symm, ?_⟩
                · conv_lhs => rw [← hscs, ← hrbt, ← hBc]
                  simp [List.append_assoc]
                · intro c hc
                  rw [List.mem_singleton.mp hc]
                  exact hrc1
                · rw [← List.length_pos, List.length_tail]
                  omega
                · exact fun c hc => hball c (List.mem_of_mem_tail hc)
                · rw [← hnm, hR1]
                  rfl
              · -- nonempty core: take the core itself as the middle
                have hlast1 : (((cs.dropWhile isStarChar).take
                    ((cs.dropWhile isStarChar).length - 7)).dropWhile
                    isRegexSpace).getLast? = some c2 := by
                  have hsp := List.takeWhile_append_dropWhile isRegexSpace
                    ((cs.dropWhile isStarChar).take
                      ((cs.dropWhile isStarChar).length - 7))
                  have h2 := heq2
                  rw [← hsp, List.getLast?_append] at h2
                  obtain ⟨y, hy⟩ := Option.isSome_iff_exists.mp
                    (by
                      rw [List.getLast?_isSome]
                      exact hR1)
                  rw [hy] at h2 ⊢
                  simpa [Option.or] using h2
                have hrev1 : (((cs.dropWhile isStarChar).take
                    ((cs.dropWhile isStarChar).length - 7)).dropWhile
                    isRegexSpace).reverse.head? = some c2 := by
                  rw [List.head?_reverse]
                  exact hlast1
                have hw2c : c2 :: ((((cs.dropWhile isStarChar).take
                      ((cs.dropWhile isStarChar).length - 7)).dropWhile
                      isRegexSpace).reverse).tail =
                    (((cs.dropWhile isStarChar).take
                      ((cs.dropWhile isStarChar).length - 7)).dropWhile
                      isRegexSpace).reverse :=
                  List.cons_head?_tail (Option.mem_def.mpr hrev1)
                refine ⟨cs.takeWhile isStarChar,
                  ((cs.dropWhile isStarChar).take
                    ((cs.dropWhile isStarChar).length - 7)).takeWhile
                    isRegexSpace,
                  dropTrailing isRegexSpace
                    (((cs.dropWhile isStarChar).take
                      ((cs.dropWhile isStarChar).length - 7)).dropWhile
                      isRegexSpace),
                  (((((cs.dropWhile isStarChar).take
                      ((cs.dropWhile isStarChar).length - 7)).dropWhile
                      isRegexSpace).reverse).takeWhile isRegexSpace).reverse,
                  (cs.dropWhile isStarChar).drop
                    ((cs.dropWhile isStarChar).length - 7),
                  ?_, hsne, hsall, ?_, ?_, ?_, ?_, htw, hd.symm, hnm.symm⟩
                · conv_lhs => rw [← hscs, ← hrbt]
                  conv_lhs =>
                    rw [← List.takeWhile_append_dropWhile isRegexSpace
                      ((cs.dropWhile isStarChar).take
                        ((cs.dropWhile isStarChar).length - 7))]
                  conv_lhs =>
                    rw [eq_dropTrailing_append isRegexSpace
                      (((cs.dropWhile isStarChar).take
                        ((cs.dropWhile isStarChar).length - 7)).dropWhile
                        isRegexSpace)]
                  simp [List.append_assoc]
                · rw [← hBc, List.takeWhile_cons, hrc1]
                  simp
                · exact fun c hc => List.mem_takeWhile_imp hc
                · rw [← hw2c]
                  simp [List.takeWhile_cons, hrc2]
                · exact mem_revTakeWhile_imp _ _

/-- C3: a line produces a match exactly when it decomposes, case-insensitively,
as one or more leading marker characters, at least one whitespace character,
arbitrary text, at least one whitespace character, and the literal marker word
`tidbits` at end of line; the extracted depth is the length of the leading
marker run and the name is the captured text trimmed of whitespace. In
particular (second conjunct) every matched line ends in the marker word. The
hypothesis restricts to genuine scanner lines, which never contain a newline
(the scanner splits on newlines). -/
theorem c3_matcher_characterization (cs : List Char) (hnl : '\n' ∉ cs) :
    (∀ (d : Nat) (nm : List Char),
      matchLineL cs = some (d, nm) ↔
        ∃ stars w1 mid w2 tw,
          cs = stars ++ w1 ++ mid ++ w2 ++ tw ∧ stars ≠ [] ∧
          (∀ c ∈ stars, isStarChar c = true) ∧
          w1 ≠ [] ∧ (∀ c ∈ w1, isRegexSpace c = true) ∧
          w2 ≠ [] ∧ (∀ c ∈ w2, isRegexSpace c = true) ∧
          ciTidbits tw = true ∧ d = stars.length ∧ nm = trimSpaceL mid) ∧
    (∀ r : Nat × List Char, matchLineL cs = some r →
      ∃ pre tw, cs = pre ++ tw ∧ ciTidbits tw = true) := by
  constructor
  · intro d nm
    constructor
    · exact matchLineL_elim cs d nm
    · rintro ⟨stars, w1, mid, w2, tw, hcs, hsne, hsall, hw1ne, hw1all,
        hw2ne, hw2all, htw, hd, hnm⟩
      rw [hd, hnm]
      exact matchLineL_intro cs hnl stars w1 mid w2 tw hcs hsne hsall hw1ne
        hw1all hw2ne hw2all htw
  · intro r h
    obtain ⟨d, nm⟩ := r
    obtain ⟨stars, w1, mid, w2, tw, hcs, -, -, -, -, -, -, htw, -, -⟩ :=
      matchLineL_elim cs d nm h
    exact ⟨stars ++ w1 ++ mid ++ w2, tw, by rw [hcs], htw⟩

/-- C3 witness: the characterization applied to the concrete line
`"* Alpha tidbits"`. -/
theorem c3_witness :
    ('\n' ∉ "* Alpha tidbits".toList) ∧
    (matchLineL "* Alpha tidbits".toList = some (1, "Alpha".toList) ↔
      ∃ stars w1 mid w2 tw,
        "* Alpha tidbits".toList = stars ++ w1 ++ mid ++ w2 ++ tw ∧
        stars ≠ [] ∧ (∀ c ∈ stars, isStarChar c = true) ∧
        w1 ≠ [] ∧ (∀ c ∈ w1, isRegexSpace c = true) ∧
        w2 ≠ [] ∧ (∀ c ∈ w2, isRegexSpace c = true) ∧
        ciTidbits tw = true ∧ 1 = stars.length ∧
        "Alpha".toList = trimSpaceL mid) :=
  ⟨by decide,
    (c3_matcher_characterization "* Alpha tidbits".toList (by decide)).1
      1 "Alpha".toList⟩

theorem lget_set_self {α : Type} [Inhabited α] (d : List α) (i : Nat) (x : α)
    (h : i < d.length) : lget (d.set i x) i = x := by
  simp [lget, List.getD_eq_getElem?_getD, List.getElem?_set, h]

theorem lget_set_ne {α : Type} [Inhabited α] (d : List α) (i k : Nat) (x : α)
    (h : i ≠ k) : lget (d.set i x) k = lget d k := by
  simp [lget, List.getD_eq_getElem?_getD, List.getElem?_set_ne h]

theorem lswap_length {α : Type} [Inhabited α] (d : List α) (i j : Nat) :
    (lswap d i j).length = d.length := by
  unfold lswap
  split
  · simp
  · rfl

theorem lget_lswap_fst {α : Type} [Inhabited α] (d : List α) (i j : Nat)
    (hi : i < d.length) (hj : j < d.length) :
    lget (lswap d i j) i = lget d j := by
  unfold lswap
  rw [if_pos ⟨hi, hj⟩]
  by_cases hij : j = i
  · subst hij
    rw [lget_set_self _ _ _ (by simpa using hj)]
  · rw [lget_set_ne _ _ _ _ hij, lget_set_self _ _ _ hi]

theorem lget_lswap_snd {α : Type} [Inhabited α] (d : List α) (i j : Nat)
    (hi : i < d.length) (hj : j < d.length) :
    lget (lswap d i j) j = lget d i := by
  unfold lswap
  rw [if_pos ⟨hi, hj⟩]
  rw [lget_set_self _ _ _ (by simpa using hj)]

theorem lget_lswap_other {α : Type} [Inhabited α] (d : List α) (i j k : Nat)
    (hik : i ≠ k) (hjk : j ≠ k) : lget (lswap d i j) k = lget d k := by
  unfold lswap
  split
  · rw [lget_set_ne _ _ _ _ hjk, lget_set_ne _ _ _ _ hik]
  · rfl

namespace GoSort

theorem confined_refl {α : Type} [Inhabited α] (d : List α) (a b : Nat) :
    Confined d a b d :=
  ⟨rfl, fun _ _ => rfl, fun _ h => h⟩

theorem confined_trans {α : Type} [Inhabited α] {d d₁ d₂ : List α}
    {a b : Nat} (h1 : Confined d a b d₁) (h2 : Confined d₁ a b d₂) :
    Confined d a b d₂ :=
  ⟨h2.1.trans h1.1, fun i hi => (h2.2.1 i hi).trans (h1.2.1 i hi),
    fun P hP => h2.2.2 P (h1.2.2 P hP)⟩

theorem confined_mono {α : Type} [Inhabited α] {d d' : List α}
    {a b a' b' : Nat} (h : Confined d a b d') (ha : a' ≤ a) (hb : b ≤ b') :
    Confined d a' b' d' := by
  refine ⟨h.1, fun i hi => ?_, fun P hP => ?_⟩
  · by_cases hin : i < a ∨ b ≤ i
    · exact h.2.1 i hin
    · push_neg at hin
      exact absurd (by omega : a' ≤ i ∧ i < b') (by omega)
  · intro i hi1 hi2
    by_cases hin : a ≤ i ∧ i < b
    · exact h.2.2 (fun x => P x) (fun k hk1 hk2 => hP k (by omega) (by omega))
        i hin.1 hin.2
    · rw [h.2.1 i (by omega)]
      exact hP i hi1 hi2

theorem confined_lswap {α : Type} [Inhabited α] (d : List α) {a b i j : Nat}
    (hai : a ≤ i) (hib : i < b) (haj : a ≤ j) (hjb : j < b) :
    Confined d a b (lswap d i j) := by
  refine ⟨lswap_length d i j, fun k hk => ?_, fun P hP k hk1 hk2 => ?_⟩
  · exact lget_lswap_other d i j k (by omega) (by omega)
  · by_cases hlen : i < d.length ∧ j < d.length
    · by_cases hki : k = i
      · rw [hki, lget_lswap_fst d i j hlen.1 hlen.2]
        exact hP j haj hjb
      · by_cases hkj : k = j
        · rw [hkj, lget_lswap_snd d i j hlen.1 hlen.2]
          exact hP i hai hib
        · rw [lget_lswap_other d i j k (fun h => hki h.symm)
            (fun h => hkj h.symm)]
          exact hP k hk1 hk2
    · have : lswap d i j = d := by
        unfold lswap
        rw [if_neg hlen]
      rw [this]
      exact hP k hk1 hk2

theorem confined_lget {α : Type} [Inhabited α] {d d' : List α} {a b : Nat}
    (h : Confined d a b d') {i : Nat} (hi : i < a ∨ b ≤ i) :
    lget d' i = lget d i :=
  h.2.1 i hi

end GoSort

namespace GoSort

theorem insertInner_spec {α : Type} [Inhabited α] {less : α → α → Bool}
    (hasym : ∀ x y, less x y = true → less y x = false)
    (hntr : ∀ x y z, less x y = false → less y z = false → less x z = false)
    (a b n : Nat) (hnb : n < b) :
    ∀ (m : Nat) (d : List α), m ≤ n → b ≤ d.length →
      SortedSeg less d a m →
      (∀ k q, a ≤ k → k < m → m < q → q ≤ n →
        less (lget d q) (lget d k) = false) →
      (∀ p q, m < p → p < q → q ≤ n →
        less (lget d q) (lget d p) = false) →
      (∀ q, m < q → q ≤ n → less (lget d q) (lget d m) = false) →
      Confined d a b (insertInner less a d m) ∧
      SortedSeg less (insertInner less a d m) a (n + 1) := by
  intro m
  induction m with
  | zero =>
    intro d _ _ _ _ h3 h4
    refine ⟨confined_refl d a b, ?_⟩
    intro i j hai hij hjb
    rcases Nat.eq_zero_or_pos i with hi0 | hipos
    · subst hi0
      exact h4 j hij (by omega)
    · exact h3 i j hipos hij (by omega)
  | succ j ih =>
    intro d hmn hbl h1 h2 h3 h4
    simp only [insertInner]
    split
    case isTrue hguard =>
      rw [Bool.and_eq_true] at hguard
      have haj : a < j + 1 := by
        have := hguard.1
        simp only [decide_eq_true_eq] at this
        exact this
      have hless : less (lget d (j + 1)) (lget d j) = true := hguard.2
      have hj1b : j + 1 < b := by omega
      have hjb : j < b := by omega
      have hj1l : j + 1 < d.length := by omega
      have hjl : j < d.length := by omega
      have hfst : lget (lswap d (j + 1) j) (j + 1) = lget d j :=
        lget_lswap_fst d (j + 1) j hj1l hjl
      have hsnd : lget (lswap d (j + 1) j) j = lget d (j + 1) :=
        lget_lswap_snd d (j + 1) j hj1l hjl
      have hoth : ∀ k, k ≠ j → k ≠ j + 1 →
          lget (lswap d (j + 1) j) k = lget d k := fun k hk1 hk2 =>
        lget_lswap_other d (j + 1) j k (fun h => hk2 h.symm)
          (fun h => hk1 h.symm)
      have hlen' : b ≤ (lswap d (j + 1) j).length := by
        rw [lswap_length]
        exact hbl
      have h1' : SortedSeg less (lswap d (j + 1) j) a j := by
        intro p q hap hpq hqj
        rw [hoth p (by omega) (by omega), hoth q (by omega) (by omega)]
        exact h1 p q hap hpq (by omega)
      have h2' : ∀ k q, a ≤ k → k < j → j < q → q ≤ n →
          less (lget (lswap d (j + 1) j) q)
            (lget (lswap d (j + 1) j) k) = false := by
        intro k q hak hkj hjq hqn
        rw [hoth k (by omega) (by omega)]
        rcases Nat.eq_or_lt_of_le (Nat.succ_le_of_lt hjq) with hq | hq
        · rw [← hq, hfst]
          exact h1 k j hak hkj (by omega)
        · rw [hoth q (by omega) (by omega)]
          exact h2 k q hak (by omega) (by omega) hqn
      have h3' : ∀ p q, j < p → p < q → q ≤ n →
          less (lget (lswap d (j + 1) j) q)
            (lget (lswap d (j + 1) j) p) = false := by
        intro p q hjp hpq hqn
        rcases Nat.eq_or_lt_of_le (Nat.succ_le_of_lt hjp) with hp | hp
        · rw [← hp, hfst, hoth q (by omega) (by omega)]
          exact h2 j q (by omega) (by omega) (by omega) hqn
        · rw [hoth p (by omega) (by omega), hoth q (by omega) (by omega)]
          exact h3 p q (by omega) hpq hqn
      have h4' : ∀ q, j < q → q ≤ n →
          less (lget (lswap d (j + 1) j) q)
            (lget (lswap d (j + 1) j) j) = false := by
        intro q hjq hqn
        rw [hsnd]
        rcases Nat.eq_or_lt_of_le (Nat.succ_le_of_lt hjq) with hq | hq
        · rw [← hq, hfst]
          exact hasym _ _ hless
        · rw [hoth q (by omega) (by omega)]
          exact h4 q (by omega) hqn
      obtain ⟨hc, hs⟩ := ih (lswap d (j + 1) j) (by omega) hlen' h1' h2' h3' h4'
      exact ⟨confined_trans (confined_lswap d (by omega) hj1b (by omega) hjb)
        hc, hs⟩
    case isFalse hguard =>
      refine ⟨confined_refl d a b, ?_⟩
      intro p q hap hpq hqn1
      have hqn : q ≤ n := by omega
      by_cases haj : a < j + 1
      · have hle : less (lget d (j + 1)) (lget d j) = false := by
          rcases hl : less (lget d (j + 1)) (lget d j)
          · rfl
          · exact absurd (by simp [haj, hl]) hguard
        rcases Nat.lt_trichotomy p (j + 1) with hp | hp | hp
        · rcases Nat.lt_trichotomy q (j + 1) with hq | hq | hq
          · exact h1 p q hap hpq hq
          · rw [hq]
            rcases Nat.eq_or_lt_of_le (Nat.le_of_lt_succ hp) with hpj | hpj
            · rw [hpj]
              exact hle
            · exact hntr _ _ _ hle (h1 p j hap hpj (by omega))
          · exact h2 p q hap (by omega) hq hqn
        · rw [hp]
          exact h4 q (hp ▸ hpq) hqn
        · exact h3 p q hp hpq hqn
      · rcases Nat.lt_trichotomy p (j + 1) with hp | hp | hp
        · omega
        · rw [hp]
          exact h4 q (hp ▸ hpq) hqn
        · exact h3 p q hp hpq hqn

end GoSort

namespace GoSort

theorem insertionSortAux_spec {α : Type} [Inhabited α] {less : α → α → Bool}
    (hasym : ∀ x y, less x y = true → less y x = false)
    (hntr : ∀ x y z, less x y = false → less y z = false → less x z = false)
    (a b : Nat) :
    ∀ (fuel i : Nat) (d : List α), b ≤ d.length → b ≤ i + fuel →
      SortedSeg less d a i →
      Confined d a b (insertionSortAux less a b d i fuel) ∧
      SortedSeg less (insertionSortAux less a b d i fuel) a b := by
  intro fuel
  induction fuel with
  | zero =>
    intro i d _ hfi hs
    refine ⟨confined_refl d a b, ?_⟩
    intro p q hap hpq hqb
    exact hs p q hap hpq (by omega)
  | succ fuel ih =>
    intro i d hbl hfi hs
    simp only [insertionSortAux]
    split
    case isTrue hib =>
      have hspec := insertInner_spec hasym hntr a b i hib i d le_rfl hbl hs
        (fun k q _ _ h1 h2 => by omega) (fun p q h1 h2 h3 => by omega)
        (fun q h1 h2 => by omega)
      obtain ⟨hc, hsi⟩ := hspec
      have hres := ih (i + 1) (insertInner less a d i)
        (hc.1.symm ▸ hbl) (by omega) hsi
      exact ⟨confined_trans hc hres.1, hres.2⟩
    case isFalse hib =>
      refine ⟨confined_refl d a b, ?_⟩
      intro p q hap hpq hqb
      exact hs p q hap hpq (by omega)

theorem insertionSort_spec {α : Type} [Inhabited α] {less : α → α → Bool}
    (hasym : ∀ x y, less x y = true → less y x = false)
    (hntr : ∀ x y z, less x y = false → less y z = false → less x z = false)
    (d : List α) (a b : Nat) (hbl : b ≤ d.length) :
    Confined d a b (insertionSort less d a b) ∧
    SortedSeg less (insertionSort less d a b) a b := by
  refine insertionSortAux_spec hasym hntr a b (b - a) (a + 1) d hbl
    (by omega) ?_
  intro p q hap hpq hq
  omega

end GoSort

namespace GoSort

theorem advanceI_spec {α : Type} [Inhabited α] (less : α → α → Bool)
    (d : List α) (a j : Nat) :
    ∀ (fuel i : Nat), j + 2 ≤ i + fuel →
      i ≤ advanceI less d a j i fuel ∧
      (advanceI less d a j i fuel ≤ j + 1 ∨ advanceI less d a j i fuel = i) ∧
      (∀ k, i ≤ k → k < advanceI less d a j i fuel →
        less (lget d k) (lget d a) = true) ∧
      (j < advanceI less d a j i fuel ∨
        less (lget d (advanceI less d a j i fuel)) (lget d a) = false) := by
  intro fuel
  induction fuel with
  | zero =>
    intro i hf
    simp only [advanceI]
    exact ⟨le_rfl, Or.inr (by simp), fun k h1 h2 => by omega, Or.inl (by omega)⟩
  | succ fuel ih =>
    intro i hf
    simp only [advanceI]
    split
    case isTrue hguard =>
      rw [Bool.and_eq_true, decide_eq_true_eq] at hguard
      obtain ⟨hij, hlt⟩ := hguard
      obtain ⟨hmon, hbnd, hscan, hstop⟩ := ih (i + 1) (by omega)
      refine ⟨by omega, ?_, ?_, hstop⟩
      · rcases hbnd with h | h
        · exact Or.inl h
        · exact Or.inl (by omega)
      · intro k hk1 hk2
        rcases Nat.eq_or_lt_of_le hk1 with hk | hk
        · rw [← hk]
          exact hlt
        · exact hscan k hk hk2
    case isFalse hguard =>
      refine ⟨le_rfl, Or.inr (by simp), fun k h1 h2 => by omega, ?_⟩
      by_cases hij : i ≤ j
      · refine Or.inr ?_
        rcases hl : less (lget d i) (lget d a)
        · rfl
        · exact absurd (by simp [hij, hl]) hguard
      · exact Or.inl (by omega)

theorem retreatJ_spec {α : Type} [Inhabited α] (less : α → α → Bool)
    (d : List α) (a i : Nat) (hi : 1 ≤ i) :
    ∀ (fuel j : Nat), j + 2 ≤ i + fuel →
      retreatJ less d a i j fuel ≤ j ∧
      (i - 1 ≤ retreatJ less d a i j fuel ∨ retreatJ less d a i j fuel = j) ∧
      (∀ k, retreatJ less d a i j fuel < k → k ≤ j →
        less (lget d k) (lget d a) = false) ∧
      (retreatJ less d a i j fuel < i ∨
        less (lget d (retreatJ less d a i j fuel)) (lget d a) = true) := by
  intro fuel
  induction fuel with
  | zero =>
    intro j hf
    simp only [retreatJ]
    exact ⟨le_rfl, Or.inr (by simp), fun k h1 h2 => by omega, Or.inl (by omega)⟩
  | succ fuel ih =>
    intro j hf
    simp only [retreatJ]
    split
    case isTrue hguard =>
      rw [Bool.and_eq_true, decide_eq_true_eq] at hguard
      obtain ⟨hij, hnlt⟩ := hguard
      obtain ⟨hmon, hbnd, hscan, hstop⟩ := ih (j - 1) (by omega)
      refine ⟨by omega, ?_, ?_, hstop⟩
      · rcases hbnd with h | h
        · exact Or.inl h
        · exact Or.inl (by omega)
      · intro k hk1 hk2
        rcases Nat.eq_or_lt_of_le hk2 with hk | hk
        · rw [hk]
          exact Bool.not_eq_true _ |>.mp (by simpa using hnlt)
        · exact hscan k hk1 (by omega)
    case isFalse hguard =>
      refine ⟨le_rfl, Or.inr (by simp), fun k h1 h2 => by omega, ?_⟩
      by_cases hij : i ≤ j
      · refine Or.inr ?_
        rcases hl : less (lget d j) (lget d a)
        · exact absurd (by simp [hij, hl]) hguard
        · rfl
      · exact Or.inl (by omega)

theorem advanceEqI_spec {α : Type} [Inhabited α] (less : α → α → Bool)
    (d : List α) (a j : Nat) :
    ∀ (fuel i : Nat), j + 2 ≤ i + fuel →
      i ≤ advanceEqI less d a j i fuel ∧
      (advanceEqI less d a j i fuel ≤ j + 1 ∨ advanceEqI less d a j i fuel = i) ∧
      (∀ k, i ≤ k → k < advanceEqI less d a j i fuel →
        less (lget d a) (lget d k) = false) ∧
      (j < advanceEqI less d a j i fuel ∨
        less (lget d a) (lget d (advanceEqI less d a j i fuel)) = true) := by
  intro fuel
  induction fuel with
  | zero =>
    intro i hf
    simp only [advanceEqI]
    exact ⟨le_rfl, Or.inr (by simp), fun k h1 h2 => by omega, Or.inl (by omega)⟩
  | succ fuel ih =>
    intro i hf
    simp only [advanceEqI]
    split
    case isTrue hguard =>
      rw [Bool.and_eq_true, decide_eq_true_eq] at hguard
      obtain ⟨hij, hnlt⟩ := hguard
      obtain ⟨hmon, hbnd, hscan, hstop⟩ := ih (i + 1) (by omega)
      refine ⟨by omega, ?_, ?_, hstop⟩
      · rcases hbnd with h | h
        · exact Or.inl h
        · exact Or.inl (by omega)
      · intro k hk1 hk2
        rcases Nat.eq_or_lt_of_le hk1 with hk | hk
        · rw [← hk]
          exact Bool.not_eq_true _ |>.mp (by simpa using hnlt)
        · exact hscan k hk hk2
    case isFalse hguard =>
      refine ⟨le_rfl, Or.inr (by simp), fun k h1 h2 => by omega, ?_⟩
      by_cases hij : i ≤ j
      · refine Or.inr ?_
        rcases hl : less (lget d a) (lget d i)
        · exact absurd (by simp [hij, hl]) hguard
        · rfl
      · exact Or.inl (by omega)

theorem retreatEqJ_spec {α : Type} [Inhabited α] (less : α → α → Bool)
    (d : List α) (a i : Nat) (hi : 1 ≤ i) :
    ∀ (fuel j : Nat), j + 2 ≤ i + fuel →
      retreatEqJ less d a i j fuel ≤ j ∧
      (i - 1 ≤ retreatEqJ less d a i j fuel ∨ retreatEqJ less d a i j fuel = j) ∧
      (∀ k, retreatEqJ less d a i j fuel < k → k ≤ j →
        less (lget d a) (lget d k) = true) ∧
      (retreatEqJ less d a i j fuel < i ∨
        less (lget d a) (lget d (retreatEqJ less d a i j fuel)) = false) := by
  intro fuel
  induction fuel with
  | zero =>
    intro j hf
    simp only [retreatEqJ]
    exact ⟨le_rfl, Or.inr (by simp), fun k h1 h2 => by omega, Or.inl (by omega)⟩
  | succ fuel ih =>
    intro j hf
    simp only [retreatEqJ]
    split
    case isTrue hguard =>
      rw [Bool.and_eq_true, decide_eq_true_eq] at hguard
      obtain ⟨hij, hlt⟩ := hguard
      obtain ⟨hmon, hbnd, hscan, hstop⟩ := ih (j - 1) (by omega)
      refine ⟨by omega, ?_, ?_, hstop⟩
      · rcases hbnd with h | h
        · exact Or.inl h
        · exact Or.inl (by omega)
      · intro k hk1 hk2
        rcases Nat.eq_or_lt_of_le hk2 with hk | hk
        · rw [hk]
          exact hlt
        · exact hscan k hk1 (by omega)
    case isFalse hguard =>
      refine ⟨le_rfl, Or.inr (by simp), fun k h1 h2 => by omega, ?_⟩
      by_cases hij : i ≤ j
      · refine Or.inr ?_
        rcases hl : less (lget d a) (lget d j)
        · rfl
        · exact absurd (by simp [hij, hl]) hguard
      · exact Or.inl (by omega)

end GoSort

namespace GoSort

theorem partitionLoop_spec {α : Type} [Inhabited α] (less : α → α → Bool)
    (a b : Nat) (v : α) :
    ∀ (fuel : Nat) (d : List α) (i j : Nat),
      b ≤ d.length → lget d a = v →
      a + 1 ≤ i → i ≤ b → j + 1 ≤ b → a ≤ j →
      j + 2 ≤ i + 2 * fuel →
      (∀ k, a + 1 ≤ k → k < i → less (lget d k) v = true) →
      (∀ k, j < k → k < b → less (lget d k) v = false) →
      Confined d (a + 1) b (partitionLoop less a b d i j fuel).1 ∧
      lget (partitionLoop less a b d i j fuel).1 a = v ∧
      a ≤ (partitionLoop less a b d i j fuel).2 ∧
      (partitionLoop less a b d i j fuel).2 + 1 ≤ b ∧
      (∀ k, a + 1 ≤ k → k ≤ (partitionLoop less a b d i j fuel).2 →
        less (lget (partitionLoop less a b d i j fuel).1 k) v = true) ∧
      (∀ k, (partitionLoop less a b d i j fuel).2 < k → k < b →
        less (lget (partitionLoop less a b d i j fuel).1 k) v = false) := by
  intro fuel
  induction fuel with
  | zero =>
    intro d i j hbl hva hai hib hjb haj hfuel hpre hpost
    simp only [partitionLoop]
    exact ⟨confined_refl _ _ _, hva, haj, hjb,
      fun k hk1 hk2 => hpre k hk1 (by omega),
      fun k hk1 hk2 => hpost k hk1 hk2⟩
  | succ fuel ih =>
    intro d i j hbl hva hai hib hjb haj hfuel hpre hpost
    simp only [partitionLoop]
    obtain ⟨hi_mon, hi_bnd, hi_scan, hi_stop⟩ :=
      advanceI_spec less d a j b i (by omega)
    set i' := advanceI less d a j i b with hi'
    obtain ⟨hj_mon, hj_bnd, hj_scan, hj_stop⟩ :=
      retreatJ_spec less d a i' (by omega) b j (by omega)
    set j' := retreatJ less d a i' j b with hj'
    have hi'b : i' ≤ b ∨ i' = i := by
      rcases hi_bnd with h | h
      · exact Or.inl (by omega)
      · exact Or.inr h
    split
    case isTrue hgt =>
      have hij' : j' < i' := by simpa using hgt
      refine ⟨confined_refl _ _ _, hva, ?_, by omega, ?_, ?_⟩
      · rcases hj_bnd with h | h <;> omega
      · intro k hk1 hk2
        by_cases hki : k < i
        · exact hpre k hk1 hki
        · have : k < i' := by omega
          have := hi_scan k (by omega) this
          rwa [hva] at this
      · intro k hk1 hk2
        by_cases hkj : k ≤ j
        · have := hj_scan k hk1 hkj
          rwa [hva] at this
        · exact hpost k (by omega) hk2
    case isFalse hle =>
      have hij' : i' ≤ j' := by simpa using hle
      have hj'b : j' + 1 ≤ b := by omega
      have hi'len : i' < d.length := by omega
      have hj'len : j' < d.length := by omega
      have hai' : a + 1 ≤ i' := by omega
      have haj' : a + 1 ≤ j' := by omega
      have hfst : lget (lswap d i' j') i' = lget d j' :=
        lget_lswap_fst d i' j' hi'len hj'len
      have hsnd : lget (lswap d i' j') j' = lget d i' :=
        lget_lswap_snd d i' j' hi'len hj'len
      have hoth : ∀ k, k ≠ i' → k ≠ j' →
          lget (lswap d i' j') k = lget d k := fun k h1 h2 =>
        lget_lswap_other d i' j' k (fun h => h1 h.symm) (fun h => h2 h.symm)
      have hva' : lget (lswap d i' j') a = v := by
        rw [hoth a (by omega) (by omega)]
        exact hva
      have hpre' : ∀ k, a + 1 ≤ k → k < i' + 1 →
          less (lget (lswap d i' j') k) v = true := by
        intro k hk1 hk2
        by_cases hki' : k = i'
        · rw [hki', hfst]
          rcases hj_stop with h | h
          · omega
          · rwa [hva] at h
        · rw [hoth k hki' (by omega)]
          by_cases hki : k < i
          · exact hpre k hk1 hki
          · have := hi_scan k (by omega) (by omega)
            rwa [hva] at this
      have hpost' : ∀ k, j' - 1 < k → k < b →
          less (lget (lswap d i' j') k) v = false := by
        intro k hk1 hk2
        by_cases hkj' : k = j'
        · rw [hkj', hsnd]
          rcases hi_stop with h | h
          · omega
          · rwa [hva] at h
        · rw [hoth k (by omega) hkj']
          by_cases hkj : k ≤ j
          · have := hj_scan k (by omega) hkj
            rwa [hva] at this
          · exact hpost k (by omega) hk2
      have hres := ih (lswap d i' j') (i' + 1) (j' - 1)
        (by rw [lswap_length]; exact hbl) hva' (by omega) (by omega)
        (by omega) (by omega) (by omega) hpre' hpost'
      refine ⟨confined_trans (confined_lswap d hai' (by omega) haj'
        (by omega)) hres.1, hres.2.1, hres.2.2.1, hres.2.2.2.1,
        hres.2.2.2.2.1, hres.2.2.2.2.2⟩

end GoSort

namespace GoSort

theorem partition_spec {α : Type} [Inhabited α] (less : α → α → Bool)
    (d : List α) (a b pivot : Nat) (hab : a < b) (hap : a ≤ pivot)
    (hpb : pivot < b) (hbl : b ≤ d.length) :
    Confined d a b (partition less d a b pivot).1 ∧
    a ≤ (partition less d a b pivot).2.1 ∧
    (partition less d a b pivot).2.1 < b ∧
    lget (partition less d a b pivot).1 (partition less d a b pivot).2.1 =
      lget d pivot ∧
    (∀ k, a ≤ k → k < (partition less d a b pivot).2.1 →
      less (lget (partition less d a b pivot).1 k) (lget d pivot) = true) ∧
    (∀ k, (partition less d a b pivot).2.1 < k → k < b →
      less (lget (partition less d a b pivot).1 k) (lget d pivot) = false) := by
  have hplen : pivot < d.length := by omega
  have halen : a < d.length := by omega
  have hva : lget (lswap d a pivot) a = lget d pivot :=
    lget_lswap_fst d a pivot halen hplen
  have hc0 : Confined d a b (lswap d a pivot) :=
    confined_lswap d le_rfl hab hap hpb
  have hlen0 : b ≤ (lswap d a pivot).length := by
    rw [lswap_length]
    exact hbl
  simp only [partition]
  obtain ⟨hi_mon, hi_bnd, hi_scan, hi_stop⟩ :=
    advanceI_spec less (lswap d a pivot) a (b - 1) b (a + 1) (by omega)
  set i1 := advanceI less (lswap d a pivot) a (b - 1) (a + 1) b with hi1
  obtain ⟨hj_mon, hj_bnd, hj_scan, hj_stop⟩ :=
    retreatJ_spec less (lswap d a pivot) a i1 (by omega) b (b - 1) (by omega)
  set j1 := retreatJ less (lswap d a pivot) a i1 (b - 1) b with hj1
  have haj1 : a ≤ j1 := by
    rcases hj_bnd with h | h <;> omega
  have hj1b : j1 < b := by omega
  split
  case isTrue hgt =>
    dsimp only
    have hij : j1 < i1 := by simpa using hgt
    have hj1len : j1 < d.length := by omega
    have hfst : lget (lswap (lswap d a pivot) j1 a) j1 =
        lget (lswap d a pivot) a :=
      lget_lswap_fst (lswap d a pivot) j1 a (by omega) (by omega)
    have hsnd : lget (lswap (lswap d a pivot) j1 a) a =
        lget (lswap d a pivot) j1 :=
      lget_lswap_snd (lswap d a pivot) j1 a (by omega) (by omega)
    have hoth : ∀ k, k ≠ j1 → k ≠ a →
        lget (lswap (lswap d a pivot) j1 a) k = lget (lswap d a pivot) k :=
      fun k h1 h2 =>
        lget_lswap_other (lswap d a pivot) j1 a k (fun h => h1 h.symm)
          (fun h => h2 h.symm)
    refine ⟨confined_trans hc0 (confined_lswap _ haj1 hj1b le_rfl hab),
      haj1, hj1b, by rw [hfst, hva], ?_, ?_⟩
    · intro k hk1 hk2
      by_cases hka : k = a
      · rw [hka, hsnd]
        have hj1a : a + 1 ≤ j1 := by omega
        have := hi_scan j1 hj1a hij
        rwa [hva] at this
      · rw [hoth k (by omega) hka]
        have := hi_scan k (by omega) (by omega)
        rwa [hva] at this
    · intro k hk1 hk2
      rw [hoth k (by omega) (by omega)]
      have := hj_scan k hk1 (by omega)
      rwa [hva] at this
  case isFalse hle =>
    dsimp only
    have hij : i1 ≤ j1 := by simpa using hle
    have hai1 : a + 1 ≤ i1 := hi_mon
    have hi1len : i1 < d.length := by omega
    have hj1len : j1 < d.length := by omega
    have hfst : lget (lswap (lswap d a pivot) i1 j1) i1 =
        lget (lswap d a pivot) j1 :=
      lget_lswap_fst (lswap d a pivot) i1 j1 (by omega) (by omega)
    have hsnd : lget (lswap (lswap d a pivot) i1 j1) j1 =
        lget (lswap d a pivot) i1 :=
      lget_lswap_snd (lswap d a pivot) i1 j1 (by omega) (by omega)
    have hoth : ∀ k, k ≠ i1 → k ≠ j1 →
        lget (lswap (lswap d a pivot) i1 j1) k = lget (lswap d a pivot) k :=
      fun k h1 h2 =>
        lget_lswap_other (lswap d a pivot) i1 j1 k (fun h => h1 h.symm)
          (fun h => h2 h.symm)
    have hva1 : lget (lswap (lswap d a pivot) i1 j1) a = lget d pivot := by
      rw [hoth a (by omega) (by omega), hva]
    have hpre1 : ∀ k, a + 1 ≤ k → k < i1 + 1 →
        less (lget (lswap (lswap d a pivot) i1 j1) k) (lget d pivot)
          = true := by
      intro k hk1 hk2
      by_cases hki : k = i1
      · rw [hki, hfst]
        rcases hj_stop with h | h
        · omega
        · rwa [hva] at h
      · rw [hoth k hki (by omega)]
        have := hi_scan k hk1 (by omega)
        rwa [hva] at this
    have hpost1 : ∀ k, j1 - 1 < k → k < b →
        less (lget (lswap (lswap d a pivot) i1 j1) k) (lget d pivot)
          = false := by
      intro k hk1 hk2
      by_cases hkj : k = j1
      · rw [hkj, hsnd]
        rcases hi_stop with h | h
        · omega
        · rwa [hva] at h
      · rw [hoth k (by omega) hkj]
        have := hj_scan k (by omega) (by omega)
        rwa [hva] at this
    have hloop := partitionLoop_spec less a b (lget d pivot) b
      (lswap (lswap d a pivot) i1 j1) (i1 + 1) (j1 - 1)
      (by rw [lswap_length]; exact hlen0) hva1 (by omega) (by omega)
      (by omega) (by omega) (by omega) hpre1 hpost1
    obtain ⟨hlc, hlva, hlaj, hljb, hlzone1, hlzone2⟩ := hloop
    set P := partitionLoop less a b (lswap (lswap d a pivot) i1 j1)
      (i1 + 1) (j1 - 1) b with hP
    have hPlen : b ≤ P.1.length := by
      rw [hlc.1, lswap_length]
      exact hlen0
    have hP2len : P.2 < P.1.length := by omega
    have hPalen : a < P.1.length := by omega
    have hffst : lget (lswap P.1 P.2 a) P.2 = lget P.1 a :=
      lget_lswap_fst P.1 P.2 a hP2len hPalen
    have hfsnd : lget (lswap P.1 P.2 a) a = lget P.1 P.2 :=
      lget_lswap_snd P.1 P.2 a hP2len hPalen
    have hfoth : ∀ k, k ≠ P.2 → k ≠ a →
        lget (lswap P.1 P.2 a) k = lget P.1 k := fun k h1 h2 =>
      lget_lswap_other P.1 P.2 a k (fun h => h1 h.symm) (fun h => h2 h.symm)
    refine ⟨?_, hlaj, by omega, by rw [hffst, hlva], ?_, ?_⟩
    · refine confined_trans hc0 (confined_trans
        (confined_lswap _ (by omega) (by omega) (by omega) hj1b)
        (confined_trans (confined_mono hlc (by omega) le_rfl)
          (confined_lswap _ hlaj (by omega) le_rfl hab)))
    · intro k hk1 hk2
      by_cases hka : k = a
      · rw [hka, hfsnd]
        exact hlzone1 P.2 (by omega) le_rfl
      · rw [hfoth k (by omega) hka]
        exact hlzone1 k (by omega) (by omega)
    · intro k hk1 hk2
      rw [hfoth k (by omega) (by omega)]
      exact hlzone2 k hk1 hk2

end GoSort

namespace GoSort

theorem partitionEqualLoop_spec {α : Type} [Inhabited α]
    (less : α → α → Bool) (a b : Nat) (v : α) :
    ∀ (fuel : Nat) (d : List α) (i j : Nat),
      b ≤ d.length → lget d a = v →
      a + 1 ≤ i → i ≤ b → j + 1 ≤ b → a ≤ j → j + 2 ≤ i + 2 * fuel →
      (∀ k, a + 1 ≤ k → k < i → less v (lget d k) = false) →
      (∀ k, j < k → k < b → less v (lget d k) = true) →
      Confined d (a + 1) b (partitionEqualLoop less a b d i j fuel).1 ∧
      lget (partitionEqualLoop less a b d i j fuel).1 a = v ∧
      a + 1 ≤ (partitionEqualLoop less a b d i j fuel).2 ∧
      (partitionEqualLoop less a b d i j fuel).2 ≤ b ∧
      (∀ k, a + 1 ≤ k → k < (partitionEqualLoop less a b d i j fuel).2 →
        less v (lget (partitionEqualLoop less a b d i j fuel).1 k) = false) ∧
      (∀ k, (partitionEqualLoop less a b d i j fuel).2 ≤ k → k < b →
        less v (lget (partitionEqualLoop less a b d i j fuel).1 k) = true) := by
  intro fuel
  induction fuel with
  | zero =>
    intro d i j hbl hva hai hib hjb haj hfuel hpre hpost
    simp only [partitionEqualLoop]
    exact ⟨confined_refl _ _ _, hva, hai, hib,
      fun k hk1 hk2 => hpre k hk1 hk2,
      fun k hk1 hk2 => hpost k (by omega) hk2⟩
  | succ fuel ih =>
    intro d i j hbl hva hai hib hjb haj hfuel hpre hpost
    simp only [partitionEqualLoop]
    obtain ⟨hi_mon, hi_bnd, hi_scan, hi_stop⟩ :=
      advanceEqI_spec less d a j b i (by omega)
    set i' := advanceEqI less d a j i b with hi'
    obtain ⟨hj_mon, hj_bnd, hj_scan, hj_stop⟩ :=
      retreatEqJ_spec less d a i' (by omega) b j (by omega)
    set j' := retreatEqJ less d a i' j b with hj'
    have hi'b : i' ≤ b := by
      rcases hi_bnd with h | h <;> omega
    split
    case isTrue hgt =>
      have hij' : j' < i' := by simpa using hgt
      refine ⟨confined_refl _ _ _, hva, by omega, hi'b, ?_, ?_⟩
      · intro k hk1 hk2
        by_cases hki : k < i
        · exact hpre k hk1 hki
        · have := hi_scan k (by omega) (by omega)
          rwa [hva] at this
      · intro k hk1 hk2
        by_cases hkj : k ≤ j
        · have := hj_scan k (by omega) hkj
          rwa [hva] at this
        · exact hpost k (by omega) hk2
    case isFalse hle =>
      have hij' : i' ≤ j' := by simpa using hle
      have hi'len : i' < d.length := by omega
      have hj'len : j' < d.length := by omega
      have hfst : lget (lswap d i' j') i' = lget d j' :=
        lget_lswap_fst d i' j' hi'len hj'len
      have hsnd : lget (lswap d i' j') j' = lget d i' :=
        lget_lswap_snd d i' j' hi'len hj'len
      have hoth : ∀ k, k ≠ i' → k ≠ j' →
          lget (lswap d i' j') k = lget d k := fun k h1 h2 =>
        lget_lswap_other d i' j' k (fun h => h1 h.symm) (fun h => h2 h.symm)
      have hva' : lget (lswap d i' j') a = v := by
        rw [hoth a (by omega) (by omega)]
        exact hva
      have hpre' : ∀ k, a + 1 ≤ k → k < i' + 1 →
          less v (lget (lswap d i' j') k) = false := by
        intro k hk1 hk2
        by_cases hki' : k = i'
        · rw [hki', hfst]
          rcases hj_stop with h | h
          · omega
          · rwa [hva] at h
        · rw [hoth k hki' (by omega)]
          by_cases hki : k < i
          · exact hpre k hk1 hki
          · have := hi_scan k (by omega) (by omega)
            rwa [hva] at this
      have hpost' : ∀ k, j' - 1 < k → k < b →
          less v (lget (lswap d i' j') k) = true := by
        intro k hk1 hk2
        by_cases hkj' : k = j'
        · rw [hkj', hsnd]
          rcases hi_stop with h | h
          · omega
          · rwa [hva] at h
        · rw [hoth k (by omega) hkj']
          by_cases hkj : k ≤ j
          · have := hj_scan k (by omega) hkj
            rwa [hva] at this
          · exact hpost k (by omega) hk2
      have hres := ih (lswap d i' j') (i' + 1) (j' - 1)
        (by rw [lswap_length]; exact hbl) hva' (by omega) (by omega)
        (by omega) (by omega) (by omega) hpre' hpost'
      exact ⟨confined_trans (confined_lswap d (by omega) (by omega)
        (by omega) (by omega)) hres.1, hres.2.1, hres.2.2.1, hres.2.2.2.1,
        hres.2.2.2.2.1, hres.2.2.2.2.2⟩

theorem partitionEqual_spec {α : Type} [Inhabited α] (less : α → α → Bool)
    (hirr : ∀ x, less x x = false) (d : List α) (a b pivot : Nat)
    (hab : a < b) (hap : a ≤ pivot) (hpb : pivot < b) (hbl : b ≤ d.length) :
    Confined d a b (partitionEqual less d a b pivot).1 ∧
    a + 1 ≤ (partitionEqual less d a b pivot).2 ∧
    (partitionEqual less d a b pivot).2 ≤ b ∧
    (∀ k, a ≤ k → k < (partitionEqual less d a b pivot).2 →
      less (lget d pivot) (lget (partitionEqual less d a b pivot).1 k)
        = false) ∧
    (∀ k, (partitionEqual less d a b pivot).2 ≤ k → k < b →
      less (lget d pivot) (lget (partitionEqual less d a b pivot).1 k)
        = true) := by
  have hplen : pivot < d.length := by omega
  have halen : a < d.length := by omega
  have hva : lget (lswap d a pivot) a = lget d pivot :=
    lget_lswap_fst d a pivot halen hplen
  have hc0 : Confined d a b (lswap d a pivot) :=
    confined_lswap d le_rfl hab hap hpb
  have hlen0 : b ≤ (lswap d a pivot).length := by
    rw [lswap_length]
    exact hbl
  simp only [partitionEqual]
  have hloop := partitionEqualLoop_spec less a b (lget d pivot) b
    (lswap d a pivot) (a + 1) (b - 1) hlen0 hva le_rfl (by omega) (by omega)
    (by omega) (by omega) (fun k hk1 hk2 => by omega)
    (fun k hk1 hk2 => by omega)
  obtain ⟨hlc, hlva, hlai, hlib, hlzone1, hlzone2⟩ := hloop
  refine ⟨confined_trans hc0 (confined_mono hlc (by omega) le_rfl),
    hlai, hlib, ?_, hlzone2⟩
  intro k hk1 hk2
  by_cases hka : k = a
  · rw [hka, hlva]
    exact hirr _
  · exact hlzone1 k (by omega) hk2

end GoSort

namespace GoSort

theorem reverseRangeAux_confined {α : Type} [Inhabited α] (a b : Nat) :
    ∀ (fuel i j : Nat) (d : List α), a ≤ i → j < b →
      Confined d a b (reverseRangeAux d i j fuel) := by
  intro fuel
  induction fuel with
  | zero => intro i j d _ _; exact confined_refl _ _ _
  | succ fuel ih =>
    intro i j d hai hjb
    simp only [reverseRangeAux]
    split
    case isTrue hij =>
      exact confined_trans (confined_lswap d hai (by omega) (by omega) hjb)
        (ih (i + 1) (j - 1) _ (by omega) (by omega))
    case isFalse hij => exact confined_refl _ _ _

theorem reverseRange_confined {α : Type} [Inhabited α] (d : List α)
    (a b : Nat) (hab : a < b) : Confined d a b (reverseRange d a b) :=
  reverseRangeAux_confined a b (b - a) a (b - 1) d le_rfl (by omega)

theorem two_pow_bitsLenAux_le :
    ∀ (fuel n : Nat), 1 ≤ n → n < 2 ^ fuel →
      2 ^ bitsLenAux n fuel ≤ 2 * n := by
  intro fuel
  induction fuel with
  | zero => intro n h1 h2; omega
  | succ fuel ih =>
    intro n h1 h2
    simp only [bitsLenAux]
    rw [if_neg (by omega)]
    have hb0 : ∀ f : Nat, bitsLenAux 0 f = 0 := by
      intro f
      cases f <;> simp [bitsLenAux]
    by_cases hh : n / 2 = 0
    · have hn1 : n = 1 := by omega
      subst hn1
      simp only [Nat.reduceDiv, hb0]
      omega
    · have hrec := ih (n / 2) (by omega) (by
        have := Nat.pow_succ 2 fuel
        omega)
      have : 2 ^ (bitsLenAux (n / 2) fuel + 1) =
          2 * 2 ^ bitsLenAux (n / 2) fuel := by ring
      omega

theorem two_pow_bitsLen_le (n : Nat) (h : 1 ≤ n) : 2 ^ bitsLen n ≤ 2 * n :=
  two_pow_bitsLenAux_le n n h (Nat.lt_two_pow n)

theorem bpAdjust_lt (len o : Nat) (h : o < 2 * len) : bpAdjust len o < len := by
  unfold bpAdjust
  split <;> omega

theorem breakPatterns_confined {α : Type} [Inhabited α] (d : List α)
    (a b : Nat) : Confined d a b (breakPatterns d a b) := by
  simp only [breakPatterns]
  split
  case isTrue hlen =>
    have hmod : 2 ^ bitsLen (b - a) ≤ 2 * (b - a) :=
      two_pow_bitsLen_le (b - a) (by omega)
    have hmpos : 0 < 2 ^ bitsLen (b - a) := Nat.pos_pow_of_pos _ (by omega)
    have hadj : ∀ r : Nat, a + bpAdjust (b - a) (r % 2 ^ bitsLen (b - a)) < b := by
      intro r
      have h1 : r % 2 ^ bitsLen (b - a) < 2 ^ bitsLen (b - a) :=
        Nat.mod_lt _ hmpos
      have := bpAdjust_lt (b - a) (r % 2 ^ bitsLen (b - a)) (by omega)
      omega
    have hidx : a ≤ a + (b - a) / 4 * 2 - 1 ∧ a + (b - a) / 4 * 2 - 1 + 2 < b := by
      omega
    refine confined_trans (confined_lswap d (by omega) (by omega) (by omega)
      (hadj _)) (confined_trans (confined_lswap _ (by omega) (by omega)
      (by omega) (hadj _)) (confined_lswap _ (by omega) (by omega)
      (by omega) (hadj _)))
  case isFalse hlen => exact confined_refl _ _ _

theorem order2_mem {α : Type} [Inhabited α] (less : α → α → Bool)
    (d : List α) (x y s : Nat) :
    ((order2 less d x y s).1 = x ∨ (order2 less d x y s).1 = y) ∧
    ((order2 less d x y s).2.1 = x ∨ (order2 less d x y s).2.1 = y) := by
  unfold order2
  split <;> simp

theorem median_mem {α : Type} [Inhabited α] (less : α → α → Bool)
    (d : List α) (x y z s : Nat) :
    (median less d x y z s).1 = x ∨ (median less d x y z s).1 = y ∨
      (median less d x y z s).1 = z := by
  obtain ⟨h11, h12⟩ := order2_mem less d x y s
  obtain ⟨h21, h22⟩ := order2_mem less d (order2 less d x y s).2.1 z
    (order2 less d x y s).2.2
  obtain ⟨h31, h32⟩ := order2_mem less d (order2 less d x y s).1
    (order2 less d (order2 less d x y s).2.1 z (order2 less d x y s).2.2).1
    (order2 less d (order2 less d x y s).2.1 z (order2 less d x y s).2.2).2.2
  unfold median
  dsimp only
  rcases h32 with h | h
  · rw [h]
    tauto
  · rw [h]
    rcases h21 with h' | h'
    · rw [h']
      tauto
    · rw [h']
      tauto

theorem medianAdjacent_mem {α : Type} [Inhabited α] (less : α → α → Bool)
    (d : List α) (x s : Nat) :
    (medianAdjacent less d x s).1 = x - 1 ∨
    (medianAdjacent less d x s).1 = x ∨
    (medianAdjacent less d x s).1 = x + 1 :=
  median_mem less d (x - 1) x (x + 1) s

theorem choosePivot_range {α : Type} [Inhabited α] (less : α → α → Bool)
    (d : List α) (a b : Nat) (hab : 13 ≤ b - a) :
    a ≤ (choosePivot less d a b).1 ∧ (choosePivot less d a b).1 < b := by
  have hkey : ∀ (p s : Nat),
      (if s = 0 then (p, Hint.increasing)
       else if s = 12 then (p, Hint.decreasing)
       else (p, Hint.unknown)).1 = p := by
    intro p s
    by_cases h : s = 0 <;> by_cases h2 : s = 12 <;> simp [h, h2]
  unfold choosePivot
  dsimp only
  rw [if_pos (by omega : b - a ≥ 8)]
  by_cases h50 : b - a ≥ 50
  · rw [if_pos h50]
    dsimp only
    rw [hkey]
    have hb1 : a + (b - a) / 4 * 1 - 1 ≤
        (medianAdjacent less d (a + (b - a) / 4 * 1) 0).1 ∧
        (medianAdjacent less d (a + (b - a) / 4 * 1) 0).1 ≤
          a + (b - a) / 4 * 1 + 1 := by
      rcases medianAdjacent_mem less d (a + (b - a) / 4 * 1) 0 with h | h | h <;>
        rw [h] <;> omega
    have hb2 : a + (b - a) / 4 * 2 - 1 ≤
        (medianAdjacent less d (a + (b - a) / 4 * 2)
          (medianAdjacent less d (a + (b - a) / 4 * 1) 0).2).1 ∧
        (medianAdjacent less d (a + (b - a) / 4 * 2)
          (medianAdjacent less d (a + (b - a) / 4 * 1) 0).2).1 ≤
          a + (b - a) / 4 * 2 + 1 := by
      rcases medianAdjacent_mem less d (a + (b - a) / 4 * 2)
        (medianAdjacent less d (a + (b - a) / 4 * 1) 0).2 with h | h | h <;>
        rw [h] <;> omega
    have hb3 : a + (b - a) / 4 * 3 - 1 ≤
        (medianAdjacent less d (a + (b - a) / 4 * 3)
          (medianAdjacent less d (a + (b - a) / 4 * 2)
            (medianAdjacent less d (a + (b - a) / 4 * 1) 0).2).2).1 ∧
        (medianAdjacent less d (a + (b - a) / 4 * 3)
          (medianAdjacent less d (a + (b - a) / 4 * 2)
            (medianAdjacent less d (a + (b - a) / 4 * 1) 0).2).2).1 ≤
          a + (b - a) / 4 * 3 + 1 := by
      rcases medianAdjacent_mem less d (a + (b - a) / 4 * 3)
        (medianAdjacent less d (a + (b - a) / 4 * 2)
          (medianAdjacent less d (a + (b - a) / 4 * 1) 0).2).2 with h | h | h <;>
        rw [h] <;> omega
    rcases median_mem less d
        (medianAdjacent less d (a + (b - a) / 4 * 1) 0).1
        (medianAdjacent less d (a + (b - a) / 4 * 2)
          (medianAdjacent less d (a + (b - a) / 4 * 1) 0).2).1
        (medianAdjacent less d (a + (b - a) / 4 * 3)
          (medianAdjacent less d (a + (b - a) / 4 * 2)
            (medianAdjacent less d (a + (b - a) / 4 * 1) 0).2).2).1
        (medianAdjacent less d (a + (b - a) / 4 * 3)
          (medianAdjacent less d (a + (b - a) / 4 * 2)
            (medianAdjacent less d (a + (b - a) / 4 * 1) 0).2).2).2
      with hm | hm | hm <;> rw [hm] <;> omega
  · rw [if_neg h50]
    dsimp only
    rw [hkey]
    rcases median_mem less d (a + (b - a) / 4 * 1) (a + (b - a) / 4 * 2)
      (a + (b - a) / 4 * 3) 0 with hm | hm | hm <;> rw [hm] <;> omega

end GoSort

namespace GoSort

theorem pisScan_spec {α : Type} [Inhabited α] (less : α → α → Bool)
    (b : Nat) (d : List α) :
    ∀ (fuel i : Nat), b ≤ i + fuel → i ≤ b →
      i ≤ pisScan less b d i fuel ∧ pisScan less b d i fuel ≤ b ∧
      (∀ k, i ≤ k → k < pisScan less b d i fuel →
        less (lget d k) (lget d (k - 1)) = false) ∧
      (pisScan less b d i fuel < b →
        less (lget d (pisScan less b d i fuel))
          (lget d (pisScan less b d i fuel - 1)) = true) := by
  intro fuel
  induction fuel with
  | zero =>
    intro i hfi hib
    simp only [pisScan]
    exact ⟨le_rfl, hib, fun k hk1 hk2 => by omega, fun h => by omega⟩
  | succ fuel ih =>
    intro i hfi hib
    simp only [pisScan]
    split
    case isTrue hc =>
      simp only [Bool.and_eq_true, decide_eq_true_eq,
        Bool.not_eq_true'] at hc
      have hrec := ih (i + 1) (by omega) (by omega)
      refine ⟨by omega, hrec.2.1, ?_, hrec.2.2.2⟩
      intro k hk1 hk2
      by_cases hki : k = i
      · rw [hki]
        exact hc.2
      · exact hrec.2.2.1 k (by omega) hk2
    case isFalse hc =>
      simp only [Bool.and_eq_true, decide_eq_true_eq,
        Bool.not_eq_true'] at hc
      refine ⟨le_rfl, hib, fun k hk1 hk2 => by omega, fun hlt => ?_⟩
      cases hval : less (lget d i) (lget d (i - 1)) with
      | false => exact absurd ⟨hlt, hval⟩ hc
      | true => rfl

theorem pisShiftRight_confined {α : Type} [Inhabited α]
    (less : α → α → Bool) (t b : Nat) :
    ∀ (fuel j : Nat) (d : List α), t + 1 ≤ j →
      Confined d t b (pisShiftRight less b d j fuel) := by
  intro fuel
  induction fuel with
  | zero =>
    intro j d _
    simp only [pisShiftRight]
    exact confined_refl d t b
  | succ fuel ih =>
    intro j d htj
    simp only [pisShiftRight]
    split
    case isTrue hc =>
      simp only [Bool.and_eq_true, decide_eq_true_eq] at hc
      exact confined_trans
        (confined_lswap d (by omega) hc.1 (by omega) (by omega))
        (ih (j + 1) _ (by omega))
    case isFalse _ => exact confined_refl d t b

theorem adjSorted_sortedSeg {α : Type} [Inhabited α] {less : α → α → Bool}
    (hntr : ∀ x y z, less x y = false → less y z = false →
      less x z = false)
    (d : List α) (a b : Nat) (h : AdjSorted less d a b) :
    SortedSeg less d a b := by
  intro i j hai hij hjb
  have key : ∀ n i j, a ≤ i → i < j → j < b → j - i ≤ n →
      less (lget d j) (lget d i) = false := by
    intro n
    induction n with
    | zero => intro i j _ hij _ hn; omega
    | succ n ih =>
      intro i j hai hij hjb hn
      by_cases hji : j = i + 1
      · rw [hji]
        have hstep := h (i + 1) (by omega) (by omega)
        simpa using hstep
      · have h1 := ih i (j - 1) hai (by omega) (by omega) (by omega)
        have h2 := h j (by omega) hjb
        exact hntr _ _ _ h2 h1
  exact key (j - i) i j hai hij hjb le_rfl

theorem pisShiftLeft_spec {α : Type} [Inhabited α] {less : α → α → Bool}
    (hasym : ∀ x y, less x y = true → less y x = false)
    (a t b : Nat) :
    ∀ (j : Nat) (d : List α), a ≤ j → j < t → t ≤ b → b ≤ d.length →
      (0 < a → ∀ k, a ≤ k → k < b →
        less (lget d k) (lget d (a - 1)) = false) →
      (∀ k, a < k → k < t → k ≠ j →
        less (lget d k) (lget d (k - 1)) = false) →
      (a < j → j + 1 < t →
        less (lget d (j + 1)) (lget d (j - 1)) = false) →
      Confined d a t (pisShiftLeft less d j) ∧
      AdjSorted less (pisShiftLeft less d j) a t := by
  intro j
  induction j with
  | zero =>
    intro d _ _ _ _ _ hinv _
    simp only [pisShiftLeft]
    exact ⟨confined_refl d a t, fun k hk1 hk2 => hinv k hk1 hk2 (by omega)⟩
  | succ j ih =>
    intro d haj hjt htb hbl hbound hinv hbr
    simp only [pisShiftLeft]
    split
    case isTrue hlt =>
      have haj' : a ≤ j := by
        by_contra hcon
        have h0a : 0 < a := by omega
        have hbd := hbound h0a (j + 1) (by omega) (by omega)
        have hd : a - 1 = j := by omega
        rw [hd] at hbd
        rw [hbd] at hlt
        exact Bool.false_ne_true hlt
      have hj1l : j + 1 < d.length := by omega
      have hjl : j < d.length := by omega
      have hbound' : 0 < a → ∀ k, a ≤ k → k < b →
          less (lget (lswap d (j + 1) j) k)
            (lget (lswap d (j + 1) j) (a - 1)) = false := by
        intro h0a k hk1 hk2
        have hfix : lget (lswap d (j + 1) j) (a - 1) = lget d (a - 1) :=
          lget_lswap_other d (j + 1) j (a - 1) (by omega) (by omega)
        rw [hfix]
        by_cases hk : k = j + 1
        · rw [hk, lget_lswap_fst d (j + 1) j hj1l hjl]
          exact hbound h0a j (by omega) (by omega)
        · by_cases hk' : k = j
          · rw [hk', lget_lswap_snd d (j + 1) j hj1l hjl]
            exact hbound h0a (j + 1) (by omega) (by omega)
          · rw [lget_lswap_other d (j + 1) j k (by omega) (by omega)]
            exact hbound h0a k hk1 hk2
      have hinv' : ∀ k, a < k → k < t → k ≠ j →
          less (lget (lswap d (j + 1) j) k)
            (lget (lswap d (j + 1) j) (k - 1)) = false := by
        intro k hk1 hk2 hkj
        by_cases hk : k = j + 1
        · rw [hk]
          have e1 : lget (lswap d (j + 1) j) (j + 1) = lget d j :=
            lget_lswap_fst d (j + 1) j hj1l hjl
          have e2 : lget (lswap d (j + 1) j) (j + 1 - 1) = lget d (j + 1) := by
            have hred : j + 1 - 1 = j := by omega
            rw [hred]
            exact lget_lswap_snd d (j + 1) j hj1l hjl
          rw [e1, e2]
          exact hasym _ _ hlt
        · by_cases hk' : k = j + 2
          · rw [hk']
            have e1 : lget (lswap d (j + 1) j) (j + 2) = lget d (j + 2) :=
              lget_lswap_other d (j + 1) j (j + 2) (by omega) (by omega)
            have e2 : lget (lswap d (j + 1) j) (j + 2 - 1) = lget d j := by
              have hred : j + 2 - 1 = j + 1 := by omega
              rw [hred]
              exact lget_lswap_fst d (j + 1) j hj1l hjl
            rw [e1, e2]
            have hres := hbr (by omega) (by omega)
            have hr1 : j + 1 + 1 = j + 2 := by omega
            have hr2 : j + 1 - 1 = j := by omega
            rw [hr1, hr2] at hres
            exact hres
          · have e1 : lget (lswap d (j + 1) j) k = lget d k :=
              lget_lswap_other d (j + 1) j k (by omega) (by omega)
            have e2 : lget (lswap d (j + 1) j) (k - 1) = lget d (k - 1) :=
              lget_lswap_other d (j + 1) j (k - 1) (by omega) (by omega)
            rw [e1, e2]
            exact hinv k hk1 hk2 hk
      have hbr' : a < j → j + 1 < t →
          less (lget (lswap d (j + 1) j) (j + 1))
            (lget (lswap d (j + 1) j) (j - 1)) = false := by
        intro haj2 hjt2
        have e1 : lget (lswap d (j + 1) j) (j + 1) = lget d j :=
          lget_lswap_fst d (j + 1) j hj1l hjl
        have e2 : lget (lswap d (j + 1) j) (j - 1) = lget d (j - 1) :=
          lget_lswap_other d (j + 1) j (j - 1) (by omega) (by omega)
        rw [e1, e2]
        exact hinv j (by omega) (by omega) (by omega)
      have hrec := ih (lswap d (j + 1) j) haj' (by omega) htb
        (by rw [lswap_length]; exact hbl) hbound' hinv' hbr'
      exact ⟨confined_trans
        (confined_lswap d (by omega) (by omega) (by omega) (by omega))
        hrec.1, hrec.2⟩
    case isFalse hlt =>
      refine ⟨confined_refl d a t, fun k hk1 hk2 => ?_⟩
      by_cases hk : k = j + 1
      · rw [hk]
        have hred : j + 1 - 1 = j := by omega
        rw [hred]
        cases hval : less (lget d (j + 1)) (lget d j) with
        | false => rfl
        | true => exact absurd hval hlt
      · exact hinv k hk1 hk2 hk

end GoSort

namespace GoSort

theorem boundary_transport {α : Type} [Inhabited α] {less : α → α → Bool}
    {d d' : List α} {a b : Nat} (hc : Confined d a b d')
    (hb : 0 < a → ∀ k, a ≤ k → k < b →
      less (lget d k) (lget d (a - 1)) = false) :
    0 < a → ∀ k, a ≤ k → k < b →
      less (lget d' k) (lget d' (a - 1)) = false := by
  intro h0a k hk1 hk2
  have hfix : lget d' (a - 1) = lget d (a - 1) := hc.2.1 (a - 1) (by omega)
  rw [hfix]
  exact hc.2.2 (fun x => less x (lget d (a - 1)) = false) (hb h0a) k hk1 hk2

theorem partialInsertionSortAux_spec {α : Type} [Inhabited α]
    {less : α → α → Bool}
    (hasym : ∀ x y, less x y = true → less y x = false)
    (hntr : ∀ x y z, less x y = false → less y z = false →
      less x z = false)
    (a b : Nat) :
    ∀ (steps i : Nat) (d : List α), a + 1 ≤ i → i ≤ b → b ≤ d.length →
      (0 < a → ∀ k, a ≤ k → k < b →
        less (lget d k) (lget d (a - 1)) = false) →
      AdjSorted less d a i →
      Confined d a b (partialInsertionSortAux less a b d i steps).1 ∧
      ((partialInsertionSortAux less a b d i steps).2 = true →
        SortedSeg less (partialInsertionSortAux less a b d i steps).1 a b) := by
  intro steps
  induction steps with
  | zero =>
    intro i d _ _ _ _ _
    simp only [partialInsertionSortAux]
    exact ⟨confined_refl d a b, fun h => by simp at h⟩
  | succ steps ih =>
    intro i d hai hib hbl hbound hadj
    simp only [partialInsertionSortAux]
    obtain ⟨hs1, hs2, hs3, hs4⟩ := pisScan_spec less b d b i (by omega) hib
    by_cases hib2 : pisScan less b d i b = b
    · rw [if_pos hib2]
      refine ⟨confined_refl d a b, fun _ => ?_⟩
      apply adjSorted_sortedSeg hntr
      intro k hk1 hk2
      by_cases hki : k < i
      · exact hadj k hk1 hki
      · exact hs3 k (by omega) (by rw [hib2]; exact hk2)
    · rw [if_neg hib2]
      by_cases h50 : b - a < 50
      · rw [if_pos h50]
        exact ⟨confined_refl d a b, fun h => by simp at h⟩
      · rw [if_neg h50]
        generalize hgen : pisScan less b d i b = m at hs1 hs2 hs3 hs4 hib2 ⊢
        have hma : a + 1 ≤ m := by omega
        have hmb : m < b := by omega
        have hlt : less (lget d m) (lget d (m - 1)) = true := hs4 (by omega)
        have hadj2 : AdjSorted less d a m := by
          intro k hk1 hk2
          by_cases hki : k < i
          · exact hadj k hk1 hki
          · exact hs3 k (by omega) hk2
        have hc1 : Confined d a b (lswap d m (m - 1)) :=
          confined_lswap d (by omega) hmb (by omega) (by omega)
        have hml : m < d.length := by omega
        have hm1l : m - 1 < d.length := by omega
        have h2 : Confined (lswap d m (m - 1)) a m
            (if m - a ≥ 2 then
              pisShiftLeft less (lswap d m (m - 1)) (m - 1)
             else lswap d m (m - 1)) ∧
            AdjSorted less
            (if m - a ≥ 2 then
              pisShiftLeft less (lswap d m (m - 1)) (m - 1)
             else lswap d m (m - 1)) a m := by
          split
          case isTrue hsl =>
            have hinv1 : ∀ k, a < k → k < m → k ≠ m - 1 →
                less (lget (lswap d m (m - 1)) k)
                  (lget (lswap d m (m - 1)) (k - 1)) = false := by
              intro k hk1 hk2 hk3
              have e1 : lget (lswap d m (m - 1)) k = lget d k :=
                lget_lswap_other d m (m - 1) k (by omega) (by omega)
              have e2 : lget (lswap d m (m - 1)) (k - 1) = lget d (k - 1) :=
                lget_lswap_other d m (m - 1) (k - 1) (by omega) (by omega)
              rw [e1, e2]
              exact hadj2 k hk1 hk2
            have hbound1 : 0 < a → ∀ k, a ≤ k → k < b →
                less (lget (lswap d m (m - 1)) k)
                  (lget (lswap d m (m - 1)) (a - 1)) = false :=
              boundary_transport hc1 hbound
            exact pisShiftLeft_spec hasym a m b (m - 1) (lswap d m (m - 1))
              (by omega) (by omega) (by omega)
              (by rw [lswap_length]; exact hbl) hbound1 hinv1
              (fun _ h => by omega)
          case isFalse hsl =>
            exact ⟨confined_refl _ a m, fun k hk1 hk2 => by omega⟩
        have h3gen : ∀ D2 : List α, Confined D2 m b
            (if b - m ≥ 2 then pisShiftRight less b D2 (m + 1) b
             else D2) := by
          intro D2
          split
          case isTrue hsr =>
            exact pisShiftRight_confined less m b b (m + 1) D2 (by omega)
          case isFalse hsr =>
            exact confined_refl D2 m b
        have h3 := h3gen
          (if m - a ≥ 2 then
            pisShiftLeft less (lswap d m (m - 1)) (m - 1)
           else lswap d m (m - 1))
        have hadj5 : AdjSorted less
            (if b - m ≥ 2 then
              pisShiftRight less b
                (if m - a ≥ 2 then
                  pisShiftLeft less (lswap d m (m - 1)) (m - 1)
                 else lswap d m (m - 1)) (m + 1) b
             else
              (if m - a ≥ 2 then
                pisShiftLeft less (lswap d m (m - 1)) (m - 1)
               else lswap d m (m - 1))) a m := by
          intro k hk1 hk2
          rw [h3.2.1 k (Or.inl hk2), h3.2.1 (k - 1) (Or.inl (by omega))]
          exact h2.2 k hk1 hk2
        have hcAll : Confined d a b
            (if b - m ≥ 2 then
              pisShiftRight less b
                (if m - a ≥ 2 then
                  pisShiftLeft less (lswap d m (m - 1)) (m - 1)
                 else lswap d m (m - 1)) (m + 1) b
             else
              (if m - a ≥ 2 then
                pisShiftLeft less (lswap d m (m - 1)) (m - 1)
               else lswap d m (m - 1))) :=
          confined_trans hc1 (confined_trans
            (confined_mono h2.1 le_rfl (by omega))
            (confined_mono h3 (by omega) le_rfl))
        have hlen3 : b ≤ (if b - m ≥ 2 then
              pisShiftRight less b
                (if m - a ≥ 2 then
                  pisShiftLeft less (lswap d m (m - 1)) (m - 1)
                 else lswap d m (m - 1)) (m + 1) b
             else
              (if m - a ≥ 2 then
                pisShiftLeft less (lswap d m (m - 1)) (m - 1)
               else lswap d m (m - 1))).length := by
          rw [hcAll.1]
          exact hbl
        have hrec := ih m _ hma (by omega) hlen3
          (boundary_transport hcAll hbound) hadj5
        exact ⟨confined_trans hcAll hrec.1, hrec.2⟩

theorem partialInsertionSort_spec {α : Type} [Inhabited α]
    {less : α → α → Bool}
    (hasym : ∀ x y, less x y = true → less y x = false)
    (hntr : ∀ x y z, less x y = false → less y z = false →
      less x z = false)
    (d : List α) (a b : Nat) (hab : a < b) (hbl : b ≤ d.length)
    (hbound : 0 < a → ∀ k, a ≤ k → k < b →
      less (lget d k) (lget d (a - 1)) = false) :
    Confined d a b (partialInsertionSort less d a b).1 ∧
    ((partialInsertionSort less d a b).2 = true →
      SortedSeg less (partialInsertionSort less d a b).1 a b) :=
  partialInsertionSortAux_spec hasym hntr a b 5 (a + 1) d le_rfl hab
    hbl hbound (fun k hk1 hk2 => by omega)

end GoSort

namespace GoSort

theorem siftDownAux_spec {α : Type} [Inhabited α] {less : α → α → Bool}
    (hasym : ∀ x y, less x y = true → less y x = false)
    (hntr : ∀ x y z, less x y = false → less y z = false →
      less x z = false)
    (htr : ∀ x y z, less x y = true → less y z = true → less x z = true)
    (hirr : ∀ x, less x x = false)
    (first hi st : Nat) :
    ∀ (fuel root : Nat) (d : List α), first + hi ≤ d.length →
      hi ≤ root + fuel → st ≤ root →
      (∀ r c, st ≤ r → c < hi → (c = 2 * r + 1 ∨ c = 2 * r + 2) →
        r ≠ root →
        less (lget d (first + r)) (lget d (first + c)) = false) →
      (∀ c, c < hi → (c = 2 * root + 1 ∨ c = 2 * root + 2) → 1 ≤ root →
        st ≤ (root - 1) / 2 →
        less (lget d (first + (root - 1) / 2)) (lget d (first + c))
          = false) →
      Confined d first (first + hi)
        (siftDownAux less hi first d root fuel) ∧
      HeapFrom less (siftDownAux less hi first d root fuel) first hi st := by
  intro fuel
  induction fuel with
  | zero =>
    intro root d hlen hfuel hst hexc hgp
    simp only [siftDownAux]
    refine ⟨confined_refl _ _ _, ?_⟩
    intro r c hr hc hcc
    by_cases hrr : r = root
    · subst hrr
      rcases hcc with h | h <;> omega
    · exact hexc r c hr hc hcc hrr
  | succ fuel ih =>
    intro root d hlen hfuel hst hexc hgp
    simp only [siftDownAux]
    by_cases hch : 2 * root + 1 ≥ hi
    · rw [if_pos hch]
      refine ⟨confined_refl _ _ _, ?_⟩
      intro r c hr hc hcc
      by_cases hrr : r = root
      · subst hrr
        rcases hcc with h | h <;> omega
      · exact hexc r c hr hc hcc hrr
    · rw [if_neg hch]
      have hrhi : root < hi := by omega
      have hrootl : first + root < d.length := by omega
      have key : ∀ c, (c = 2 * root + 1 ∨ c = 2 * root + 2) → c < hi →
          (∀ o, (o = 2 * root + 1 ∨ o = 2 * root + 2) → o < hi →
            less (lget d (first + c)) (lget d (first + o)) = false) →
          (∀ o, (o = 2 * root + 1 ∨ o = 2 * root + 2) → o < hi →
            less (lget d (first + root)) (lget d (first + c)) = false →
            less (lget d (first + root)) (lget d (first + o)) = false) →
          Confined d first (first + hi)
            (if !(less (lget d (first + root)) (lget d (first + c)))
             then d
             else siftDownAux less hi first
               (lswap d (first + root) (first + c)) c fuel) ∧
          HeapFrom less
            (if !(less (lget d (first + root)) (lget d (first + c)))
             then d
             else siftDownAux less hi first
               (lswap d (first + root) (first + c)) c fuel) first hi st := by
        intro c hcc hchi hsib hneed
        have hcl : first + c < d.length := by omega
        by_cases hrl : less (lget d (first + root)) (lget d (first + c))
            = true
        · rw [if_neg (by simp [hrl])]
          have hexc' : ∀ r o, st ≤ r → o < hi →
              (o = 2 * r + 1 ∨ o = 2 * r + 2) → r ≠ c →
              less (lget (lswap d (first + root) (first + c)) (first + r))
                (lget (lswap d (first + root) (first + c)) (first + o))
                = false := by
            intro r o hr ho hoo hrc
            by_cases hrr : r = root
            · subst hrr
              have e1 : lget (lswap d (first + r) (first + c))
                  (first + r) = lget d (first + c) :=
                lget_lswap_fst d _ _ hrootl hcl
              rw [e1]
              by_cases hoc : o = c
              · subst hoc
                have e2 : lget (lswap d (first + r) (first + o))
                    (first + o) = lget d (first + r) :=
                  lget_lswap_snd d _ _ hrootl hcl
                rw [e2]
                exact hasym _ _ hrl
              · have e2 : lget (lswap d (first + r) (first + c))
                    (first + o) = lget d (first + o) :=
                  lget_lswap_other d _ _ _
                    (by rcases hoo with h | h <;> omega) (by omega)
                rw [e2]
                exact hsib o hoo ho
            · by_cases hor : o = root
              · subst hor
                have hr2 : r = (o - 1) / 2 := by
                  rcases hoo with h | h <;> omega
                have ho1 : 1 ≤ o := by rcases hoo with h | h <;> omega
                have e1 : lget (lswap d (first + o) (first + c))
                    (first + r) = lget d (first + r) :=
                  lget_lswap_other d _ _ _ (by omega) (by omega)
                have e2 : lget (lswap d (first + o) (first + c))
                    (first + o) = lget d (first + c) :=
                  lget_lswap_fst d _ _ hrootl hcl
                rw [e1, e2, hr2]
                exact hgp c hchi hcc ho1 (by omega)
              · have hoc : o ≠ c := by
                  intro hocx
                  rcases hoo with h | h <;> rcases hcc with h' | h' <;>
                    omega
                have e1 : lget (lswap d (first + root) (first + c))
                    (first + r) = lget d (first + r) :=
                  lget_lswap_other d _ _ _ (by omega) (by omega)
                have e2 : lget (lswap d (first + root) (first + c))
                    (first + o) = lget d (first + o) :=
                  lget_lswap_other d _ _ _ (by omega) (by omega)
                rw [e1, e2]
                exact hexc r o hr ho hoo hrr
          have hgp' : ∀ o, o < hi → (o = 2 * c + 1 ∨ o = 2 * c + 2) →
              1 ≤ c → st ≤ (c - 1) / 2 →
              less (lget (lswap d (first + root) (first + c))
                  (first + (c - 1) / 2))
                (lget (lswap d (first + root) (first + c)) (first + o))
                = false := by
            intro o ho hoo hc1 hstc
            have hcp : (c - 1) / 2 = root := by
              rcases hcc with h | h <;> omega
            rw [hcp]
            have e1 : lget (lswap d (first + root) (first + c))
                (first + root) = lget d (first + c) :=
              lget_lswap_fst d _ _ hrootl hcl
            have e2 : lget (lswap d (first + root) (first + c))
                (first + o) = lget d (first + o) :=
              lget_lswap_other d _ _ _
                (by rcases hoo with h | h <;> rcases hcc with h' | h' <;>
                  omega)
                (by rcases hoo with h | h <;> rcases hcc with h' | h' <;>
                  omega)
            rw [e1, e2]
            exact hexc c o (by rcases hcc with h | h <;> omega) ho hoo
              (by rcases hcc with h | h <;> omega)
          have hrec := ih c (lswap d (first + root) (first + c))
            (by rw [lswap_length]; exact hlen)
            (by rcases hcc with h | h <;> omega)
            (by rcases hcc with h | h <;> omega) hexc' hgp'
          exact ⟨confined_trans
            (confined_lswap d (by omega) (by omega) (by omega) (by omega))
            hrec.1, hrec.2⟩
        · have hrl' : less (lget d (first + root)) (lget d (first + c))
              = false := by
            cases h : less (lget d (first + root)) (lget d (first + c))
            · rfl
            · exact absurd h hrl
          rw [if_pos (by rw [hrl']; rfl)]
          refine ⟨confined_refl _ _ _, ?_⟩
          intro r o hr ho hoo
          by_cases hrr : r = root
          · subst hrr
            exact hneed o hoo ho hrl'
          · exact hexc r o hr ho hoo hrr
      by_cases hs2 : (2 * root + 1 + 1 < hi &&
          less (lget d (first + (2 * root + 1)))
            (lget d (first + (2 * root + 1) + 1))) = true
      · rw [if_pos hs2]
        simp only [Bool.and_eq_true, decide_eq_true_eq] at hs2
        refine key (2 * root + 1 + 1) (by omega) (by omega) ?_ ?_
        · intro o hoo ho
          rcases hoo with h | h
          · subst h
            exact hasym _ _ hs2.2
          · subst h
            exact hirr _
        · intro o hoo ho hroot_le
          rcases hoo with h | h
          · subst h
            cases hv : less (lget d (first + root))
                (lget d (first + (2 * root + 1))) with
            | false => rfl
            | true =>
              exact Bool.false_ne_true
                (hroot_le.symm.trans (htr _ _ _ hv hs2.2)) |>.elim
          · subst h
            exact hroot_le
      · rw [if_neg hs2]
        simp only [Bool.and_eq_true, decide_eq_true_eq] at hs2
        refine key (2 * root + 1) (by omega) (by omega) ?_ ?_
        · intro o hoo ho
          rcases hoo with h | h
          · subst h
            exact hirr _
          · subst h
            have hsingle : less (lget d (first + (2 * root + 1)))
                (lget d (first + (2 * root + 1) + 1)) = false := by
              cases hv : less (lget d (first + (2 * root + 1)))
                  (lget d (first + (2 * root + 1) + 1))
              · rfl
              · exact absurd ⟨by omega, hv⟩ hs2
            exact hsingle
        · intro o hoo ho hroot_le
          rcases hoo with h | h
          · subst h
            exact hroot_le
          · subst h
            have hsingle : less (lget d (first + (2 * root + 1)))
                (lget d (first + (2 * root + 1) + 1)) = false := by
              cases hv : less (lget d (first + (2 * root + 1)))
                  (lget d (first + (2 * root + 1) + 1))
              · rfl
              · exact absurd ⟨by omega, hv⟩ hs2
            exact hntr _ _ _ hroot_le hsingle

end GoSort

namespace GoSort

theorem siftDown_spec {α : Type} [Inhabited α] {less : α → α → Bool}
    (hasym : ∀ x y, less x y = true → less y x = false)
    (hntr : ∀ x y z, less x y = false → less y z = false →
      less x z = false)
    (htr : ∀ x y z, less x y = true → less y z = true → less x z = true)
    (hirr : ∀ x, less x x = false)
    (d : List α) (lo hi first st : Nat) (hlen : first + hi ≤ d.length)
    (hst : st ≤ lo)
    (hexc : ∀ r c, st ≤ r → c < hi → (c = 2 * r + 1 ∨ c = 2 * r + 2) →
      r ≠ lo → less (lget d (first + r)) (lget d (first + c)) = false)
    (hgp : ∀ c, c < hi → (c = 2 * lo + 1 ∨ c = 2 * lo + 2) → 1 ≤ lo →
      st ≤ (lo - 1) / 2 →
      less (lget d (first + (lo - 1) / 2)) (lget d (first + c)) = false) :
    Confined d first (first + hi) (siftDown less d lo hi first) ∧
    HeapFrom less (siftDown less d lo hi first) first hi st :=
  siftDownAux_spec hasym hntr htr hirr first hi st (hi + 1) lo d hlen
    (by omega) hst hexc hgp

theorem heapBuild_spec {α : Type} [Inhabited α] {less : α → α → Bool}
    (hasym : ∀ x y, less x y = true → less y x = false)
    (hntr : ∀ x y z, less x y = false → less y z = false →
      less x z = false)
    (htr : ∀ x y z, less x y = true → less y z = true → less x z = true)
    (hirr : ∀ x, less x x = false)
    (hi first : Nat) :
    ∀ (cnt : Nat) (d : List α), first + hi ≤ d.length →
      HeapFrom less d first hi cnt →
      Confined d first (first + hi) (heapBuild less hi first d cnt) ∧
      HeapFrom less (heapBuild less hi first d cnt) first hi 0 := by
  intro cnt
  induction cnt with
  | zero =>
    intro d hlen hh
    simp only [heapBuild]
    exact ⟨confined_refl _ _ _, hh⟩
  | succ cnt ih =>
    intro d hlen hh
    simp only [heapBuild]
    have hsd := siftDown_spec hasym hntr htr hirr d cnt hi first cnt hlen
      le_rfl
      (fun r c hr hc hcc hrc => hh r c (by omega) hc hcc)
      (fun c hc hcc h1 h2 => by omega)
    have hrec := ih (siftDown less d cnt hi first)
      (by rw [hsd.1.1]; exact hlen) hsd.2
    exact ⟨confined_trans hsd.1 hrec.1, hrec.2⟩

theorem heap_max {α : Type} [Inhabited α] {less : α → α → Bool}
    (hntr : ∀ x y z, less x y = false → less y z = false →
      less x z = false)
    (hirr : ∀ x, less x x = false)
    (d : List α) (first hi : Nat) (hh : HeapFrom less d first hi 0) :
    ∀ k, k < hi → less (lget d first) (lget d (first + k)) = false := by
  have key : ∀ n k, k ≤ n → k < hi →
      less (lget d first) (lget d (first + k)) = false := by
    intro n
    induction n with
    | zero =>
      intro k hkn hk
      have hk0 : k = 0 := by omega
      subst hk0
      exact hirr _
    | succ n ih =>
      intro k hkn hk
      by_cases hk0 : k = 0
      · subst hk0
        exact hirr _
      · have hp : k = 2 * ((k - 1) / 2) + 1 ∨ k = 2 * ((k - 1) / 2) + 2 :=
          by omega
        have h1 := hh ((k - 1) / 2) k (Nat.zero_le _) hk hp
        have h2 := ih ((k - 1) / 2) (by omega) (by omega)
        exact hntr _ _ _ h2 h1
  exact fun k hk => key k k le_rfl hk

theorem heapPop_spec {α : Type} [Inhabited α] {less : α → α → Bool}
    (hasym : ∀ x y, less x y = true → less y x = false)
    (hntr : ∀ x y z, less x y = false → less y z = false →
      less x z = false)
    (htr : ∀ x y z, less x y = true → less y z = true → less x z = true)
    (hirr : ∀ x, less x x = false)
    (first n : Nat) :
    ∀ (c : Nat) (d : List α), c ≤ n → first + n ≤ d.length →
      HeapFrom less d first c 0 →
      SortedSeg less d (first + c) (first + n) →
      (∀ p q, p < c → c ≤ q → q < n →
        less (lget d (first + q)) (lget d (first + p)) = false) →
      Confined d first (first + n) (heapPop less first d c) ∧
      SortedSeg less (heapPop less first d c) first (first + n) := by
  intro c
  induction c with
  | zero =>
    intro d hcn hlen hh hs hcross
    simp only [heapPop]
    exact ⟨confined_refl _ _ _, hs⟩
  | succ c ih =>
    intro d hcn hlen hh hs hcross
    simp only [heapPop]
    have hfl : first < d.length := by omega
    have hfcl : first + c < d.length := by omega
    have he1 : lget (lswap d first (first + c)) first = lget d (first + c) :=
      lget_lswap_fst d _ _ hfl hfcl
    have he1' : lget (lswap d first (first + c)) (first + 0)
        = lget d (first + c) := he1
    have he2 : lget (lswap d first (first + c)) (first + c) = lget d first :=
      lget_lswap_snd d _ _ hfl hfcl
    have heo : ∀ k, k ≠ 0 → k ≠ c →
        lget (lswap d first (first + c)) (first + k) = lget d (first + k) :=
      fun k h0 hc2 => lget_lswap_other d _ _ _ (by omega) (by omega)
    have heout : ∀ k, first + n ≤ k ∨ k < first →
        lget (lswap d first (first + c)) k = lget d k :=
      fun k hk => lget_lswap_other d _ _ _ (by omega) (by omega)
    have hmax := heap_max hntr hirr d first (c + 1) hh
    have hexc : ∀ r o, 0 ≤ r → o < c → (o = 2 * r + 1 ∨ o = 2 * r + 2) →
        r ≠ 0 →
        less (lget (lswap d first (first + c)) (first + r))
          (lget (lswap d first (first + c)) (first + o)) = false := by
      intro r o _ ho hoo hr0
      have hro : r < c := by rcases hoo with h | h <;> omega
      have ho0 : o ≠ 0 := by rcases hoo with h | h <;> omega
      rw [heo r hr0 (by omega), heo o ho0 (by omega)]
      exact hh r o (Nat.zero_le _) (by omega) hoo
    have hsd := siftDown_spec hasym hntr htr hirr
      (lswap d first (first + c)) 0 c first 0
      (by rw [lswap_length]; omega) le_rfl hexc
      (fun o ho hoo h1 h2 => by omega)
    have hse : SortedSeg less (lswap d first (first + c)) (first + c)
        (first + n) := by
      intro i j hi hij hj
      have hj' : lget (lswap d first (first + c)) j = lget d j :=
        lget_lswap_other d _ _ _ (by omega) (by omega)
      rw [hj']
      by_cases hic : i = first + c
      · rw [hic, he2]
        have hqx := hcross 0 (j - first) (by omega) (by omega) (by omega)
        have hjx : first + (j - first) = j := by omega
        rw [hjx] at hqx
        exact hqx
      · have hi' : lget (lswap d first (first + c)) i = lget d i :=
          lget_lswap_other d _ _ _ (by omega) (by omega)
        rw [hi']
        exact hs i j (by omega) hij hj
    have hce : ∀ p q, p < c → c ≤ q → q < n →
        less (lget (lswap d first (first + c)) (first + q))
          (lget (lswap d first (first + c)) (first + p)) = false := by
      intro p q hp hq hqn
      by_cases hqc : q = c
      · rw [hqc, he2]
        by_cases hp0 : p = 0
        · rw [hp0, he1']
          exact hmax c (by omega)
        · rw [heo p hp0 (by omega)]
          exact hmax p (by omega)
      · rw [heo q (by omega) hqc]
        by_cases hp0 : p = 0
        · rw [hp0, he1']
          exact hcross c q (by omega) (by omega) hqn
        · rw [heo p hp0 (by omega)]
          exact hcross p q (by omega) (by omega) hqn
    have hsf : SortedSeg less
        (siftDown less (lswap d first (first + c)) 0 c first)
        (first + c) (first + n) := by
      intro i j hi hij hj
      rw [hsd.1.2.1 j (Or.inr (by omega)), hsd.1.2.1 i (Or.inr (by omega))]
      exact hse i j hi hij hj
    have hcf : ∀ p q, p < c → c ≤ q → q < n →
        less (lget (siftDown less (lswap d first (first + c)) 0 c first)
            (first + q))
          (lget (siftDown less (lswap d first (first + c)) 0 c first)
            (first + p)) = false := by
      intro p q hp hq hqn
      rw [hsd.1.2.1 (first + q) (Or.inr (by omega))]
      have hseg : SegAll (lswap d first (first + c)) first (first + c)
          (fun x => ∀ q', c ≤ q' → q' < n →
            less (lget (lswap d first (first + c)) (first + q')) x
              = false) := by
        intro idx hidx1 hidx2 q' hq1 hq2
        have hix : first + (idx - first) = idx := by omega
        have hval := hce (idx - first) q' (by omega) hq1 hq2
        rw [hix] at hval
        exact hval
      exact hsd.1.2.2 _ hseg (first + p) (by omega) (by omega) q hq hqn
    have hrec := ih (siftDown less (lswap d first (first + c)) 0 c first)
      (by omega)
      (by rw [hsd.1.1, lswap_length]; exact hlen) hsd.2 hsf hcf
    refine ⟨confined_trans
      (confined_lswap d (by omega) (by omega) (by omega) (by omega))
      (confined_trans (confined_mono hsd.1 le_rfl (by omega)) hrec.1),
      hrec.2⟩

theorem heapSort_spec {α : Type} [Inhabited α] {less : α → α → Bool}
    (hasym : ∀ x y, less x y = true → less y x = false)
    (hntr : ∀ x y z, less x y = false → less y z = false →
      less x z = false)
    (htr : ∀ x y z, less x y = true → less y z = true → less x z = true)
    (hirr : ∀ x, less x x = false)
    (d : List α) (a b : Nat) (hab : a ≤ b) (hbl : b ≤ d.length) :
    Confined d a b (heapSort less d a b) ∧
    SortedSeg less (heapSort less d a b) a b := by
  unfold heapSort
  have hhb := heapBuild_spec hasym hntr htr hirr (b - a) a
    ((b - a - 1) / 2 + 1) d (by omega)
    (fun r c hr hc hcc => by omega)
  have hios : a + (b - a) = b := by omega
  rw [hios] at hhb
  have hpop := heapPop_spec hasym hntr htr hirr a (b - a) (b - a)
    (heapBuild less (b - a) a d ((b - a - 1) / 2 + 1)) le_rfl
    (by rw [hhb.1.1]; omega) hhb.2
    (fun i j hi hij hj => by omega)
    (fun p q hp hq hqn => by omega)
  rw [hios] at hpop
  exact ⟨confined_trans hhb.1 hpop.1, hpop.2⟩

end GoSort

namespace GoSort

theorem pdqPrep_confined {α : Type} [Inhabited α] (d : List α)
    (a b limit : Nat) (wb : Bool) :
    Confined d a b (pdqPrep d a b limit wb).1 := by
  unfold pdqPrep
  split
  · exact breakPatterns_confined d a b
  · exact confined_refl d a b

theorem pdqPivot_spec {α : Type} [Inhabited α] (less : α → α → Bool)
    (d : List α) (a b : Nat) (hab : 13 ≤ b - a) :
    Confined d a b (pdqPivot less d a b).1 ∧
    a ≤ (pdqPivot less d a b).2.1 ∧ (pdqPivot less d a b).2.1 < b := by
  have hcp := choosePivot_range less d a b hab
  simp only [pdqPivot]
  split
  · refine ⟨reverseRange_confined d a b (by omega), ?_, ?_⟩ <;>
      dsimp only <;> omega
  · exact ⟨confined_refl d a b, hcp.1, hcp.2⟩

theorem pdqTryPIS_spec {α : Type} [Inhabited α] {less : α → α → Bool}
    (hasym : ∀ x y, less x y = true → less y x = false)
    (hntr : ∀ x y z, less x y = false → less y z = false →
      less x z = false)
    (d : List α) (a b : Nat) (wb wp : Bool) (hint : Hint) (hab : a < b)
    (hbl : b ≤ d.length)
    (hbound : 0 < a → ∀ k, a ≤ k → k < b →
      less (lget d k) (lget d (a - 1)) = false) :
    Confined d a b (pdqTryPIS less d a b wb wp hint).1 ∧
    ((pdqTryPIS less d a b wb wp hint).2 = true →
      SortedSeg less (pdqTryPIS less d a b wb wp hint).1 a b) := by
  unfold pdqTryPIS
  split
  · exact partialInsertionSort_spec hasym hntr d a b hab hbl hbound
  · exact ⟨confined_refl d a b, fun h => by simp at h⟩

theorem pdqsortLoop_spec {α : Type} [Inhabited α] {less : α → α → Bool}
    (hasym : ∀ x y, less x y = true → less y x = false)
    (hntr : ∀ x y z, less x y = false → less y z = false →
      less x z = false)
    (htr : ∀ x y z, less x y = true → less y z = true → less x z = true)
    (hirr : ∀ x, less x x = false) :
    ∀ (fuel : Nat) (d : List α) (a b limit : Nat) (wb wp : Bool),
      b ≤ d.length → b - a ≤ fuel →
      (0 < a → ∀ k, a ≤ k → k < b →
        less (lget d k) (lget d (a - 1)) = false) →
      Confined d a b (pdqsortLoop less d a b limit wb wp fuel) ∧
      SortedSeg less (pdqsortLoop less d a b limit wb wp fuel) a b := by
  intro fuel
  induction fuel with
  | zero =>
    intro d a b limit wb wp hbl hfuel hbound
    simp only [pdqsortLoop]
    exact ⟨confined_refl d a b, fun i j hi hij hj => by omega⟩
  | succ fuel ih =>
    intro d a b limit wb wp hbl hfuel hbound
    simp only [pdqsortLoop]
    split
    case isTrue h12 => exact insertionSort_spec hasym hntr d a b hbl
    case isFalse h12 =>
    split
    case isTrue hlim =>
      exact heapSort_spec hasym hntr htr hirr d a b (by omega) hbl
    case isFalse hlim =>
    have h13 : 13 ≤ b - a := by omega
    have hc1 : Confined d a b (pdqPrep d a b limit wb).1 :=
      pdqPrep_confined d a b limit wb
    have hpv := pdqPivot_spec less (pdqPrep d a b limit wb).1 a b h13
    have hcd2 : Confined d a b
        (pdqPivot less (pdqPrep d a b limit wb).1 a b).1 :=
      confined_trans hc1 hpv.1
    have hbl2 : b ≤ (pdqPivot less (pdqPrep d a b limit wb).1 a b).1.length
        := by
      rw [hcd2.1]
      exact hbl
    have htp := pdqTryPIS_spec hasym hntr
      (pdqPivot less (pdqPrep d a b limit wb).1 a b).1 a b wb wp
      (pdqPivot less (pdqPrep d a b limit wb).1 a b).2.2 (by omega) hbl2
      (boundary_transport hcd2 hbound)
    have hcd3 : Confined d a b
        (pdqTryPIS less (pdqPivot less (pdqPrep d a b limit wb).1 a b).1
          a b wb wp
          (pdqPivot less (pdqPrep d a b limit wb).1 a b).2.2).1 :=
      confined_trans hcd2 htp.1
    have hbl3 : b ≤ (pdqTryPIS less
        (pdqPivot less (pdqPrep d a b limit wb).1 a b).1 a b wb wp
        (pdqPivot less (pdqPrep d a b limit wb).1 a b).2.2).1.length := by
      rw [hcd3.1]
      exact hbl
    have hbound3 := boundary_transport hcd3 hbound
    split
    case isTrue hflag => exact ⟨hcd3, htp.2 hflag⟩
    case isFalse hflag =>
    split
    case isTrue hcond =>
      simp only [Bool.and_eq_true, decide_eq_true_eq,
        Bool.not_eq_true'] at hcond
      obtain ⟨h0a, hle⟩ := hcond
      have hpe := partitionEqual_spec less hirr
        (pdqTryPIS less (pdqPivot less (pdqPrep d a b limit wb).1 a b).1
          a b wb wp
          (pdqPivot less (pdqPrep d a b limit wb).1 a b).2.2).1 a b
        (pdqPivot less (pdqPrep d a b limit wb).1 a b).2.1
        (by omega) hpv.2.1 hpv.2.2 hbl3
      obtain ⟨hpec, hpe1, hpe2, hzone1, hzone2⟩ := hpe
      have hleft : ∀ k, a ≤ k →
          k < (partitionEqual less
            (pdqTryPIS less
              (pdqPivot less (pdqPrep d a b limit wb).1 a b).1 a b wb wp
              (pdqPivot less (pdqPrep d a b limit wb).1 a b).2.2).1 a b
            (pdqPivot less (pdqPrep d a b limit wb).1 a b).2.1).2 →
          less (lget (partitionEqual less
            (pdqTryPIS less
              (pdqPivot less (pdqPrep d a b limit wb).1 a b).1 a b wb wp
              (pdqPivot less (pdqPrep d a b limit wb).1 a b).2.2).1 a b
            (pdqPivot less (pdqPrep d a b limit wb).1 a b).2.1).1 k)
            (lget (pdqTryPIS less
              (pdqPivot less (pdqPrep d a b limit wb).1 a b).1 a b wb wp
              (pdqPivot less (pdqPrep d a b limit wb).1 a b).2.2).1
              (pdqPivot less (pdqPrep d a b limit wb).1 a b).2.1)
            = false := by
        intro k hk1 hk2
        have hwind := hpec.2.2
          (fun x => less x (lget (pdqTryPIS less
            (pdqPivot less (pdqPrep d a b limit wb).1 a b).1 a b wb wp
            (pdqPivot less (pdqPrep d a b limit wb).1 a b).2.2).1 (a - 1))
            = false)
          (hbound3 h0a) k hk1 (by omega)
        exact hntr _ _ _ hwind hle
      have hrec := ih (partitionEqual less
          (pdqTryPIS less (pdqPivot less (pdqPrep d a b limit wb).1 a b).1
            a b wb wp
            (pdqPivot less (pdqPrep d a b limit wb).1 a b).2.2).1 a b
          (pdqPivot less (pdqPrep d a b limit wb).1 a b).2.1).1
        (partitionEqual less
          (pdqTryPIS less (pdqPivot less (pdqPrep d a b limit wb).1 a b).1
            a b wb wp
            (pdqPivot less (pdqPrep d a b limit wb).1 a b).2.2).1 a b
          (pdqPivot less (pdqPrep d a b limit wb).1 a b).2.1).2 b
        (pdqPrep d a b limit wb).2 wb wp
        (by rw [hpec.1]; exact hbl3) (by omega)
        (by
          intro _ k hk1 hk2
          refine hntr _ _ _ (hasym _ _ (hzone2 k (by omega) hk2))
            (hzone1 _ ?_ ?_) <;> omega)
      obtain ⟨hrc, hrs⟩ := hrec
      refine ⟨confined_trans hcd3 (confined_trans hpec
        (confined_mono hrc (by omega) le_rfl)), ?_⟩
      intro i j hi hij hj
      by_cases hjz : j < (partitionEqual less
          (pdqTryPIS less (pdqPivot less (pdqPrep d a b limit wb).1 a b).1
            a b wb wp
            (pdqPivot less (pdqPrep d a b limit wb).1 a b).2.2).1 a b
          (pdqPivot less (pdqPrep d a b limit wb).1 a b).2.1).2
      · rw [hrc.2.1 j (Or.inl hjz), hrc.2.1 i (Or.inl (by omega))]
        exact hntr _ _ _ (hleft j (by omega) hjz) (hzone1 i hi (by omega))
      · by_cases hiz : i < (partitionEqual less
            (pdqTryPIS less
              (pdqPivot less (pdqPrep d a b limit wb).1 a b).1 a b wb wp
              (pdqPivot less (pdqPrep d a b limit wb).1 a b).2.2).1 a b
            (pdqPivot less (pdqPrep d a b limit wb).1 a b).2.1).2
        · rw [hrc.2.1 i (Or.inl hiz)]
          have hj2 := hrc.2.2
            (fun x => less (lget (pdqTryPIS less
              (pdqPivot less (pdqPrep d a b limit wb).1 a b).1 a b wb wp
              (pdqPivot less (pdqPrep d a b limit wb).1 a b).2.2).1
              (pdqPivot less (pdqPrep d a b limit wb).1 a b).2.1) x = true)
            (fun k hk1 hk2 => hzone2 k hk1 hk2) j (by omega) hj
          exact hntr _ _ _ (hasym _ _ hj2) (hzone1 i hi (by omega))
        · exact hrs i j (by omega) hij hj
    case isFalse hcond =>
      have hpm := partition_spec less
        (pdqTryPIS less (pdqPivot less (pdqPrep d a b limit wb).1 a b).1
          a b wb wp
          (pdqPivot less (pdqPrep d a b limit wb).1 a b).2.2).1 a b
        (pdqPivot less (pdqPrep d a b limit wb).1 a b).2.1
        (by omega) hpv.2.1 hpv.2.2 hbl3
      obtain ⟨hpmc, hmida, hmidb, hval, hzone1, hzone2⟩ := hpm
      have hbound4 := boundary_transport hpmc hbound3
      split
      case isTrue hless =>
        have hin := ih (partition less
            (pdqTryPIS less
              (pdqPivot less (pdqPrep d a b limit wb).1 a b).1 a b wb wp
              (pdqPivot less (pdqPrep d a b limit wb).1 a b).2.2).1 a b
            (pdqPivot less (pdqPrep d a b limit wb).1 a b).2.1).1 a
          (partition less
            (pdqTryPIS less
              (pdqPivot less (pdqPrep d a b limit wb).1 a b).1 a b wb wp
              (pdqPivot less (pdqPrep d a b limit wb).1 a b).2.2).1 a b
            (pdqPivot less (pdqPrep d a b limit wb).1 a b).2.1).2.1
          (pdqPrep d a b limit wb).2 true true
          (by rw [hpmc.1]; omega) (by omega)
          (fun h0a k hk1 hk2 => hbound4 h0a k hk1 (by omega))
        obtain ⟨hcin, hsin⟩ := hin
        have hout := ih (pdqsortLoop less (partition less
            (pdqTryPIS less
              (pdqPivot less (pdqPrep d a b limit wb).1 a b).1 a b wb wp
              (pdqPivot less (pdqPrep d a b limit wb).1 a b).2.2).1 a b
            (pdqPivot less (pdqPrep d a b limit wb).1 a b).2.1).1 a
            (partition less
              (pdqTryPIS less
                (pdqPivot less (pdqPrep d a b limit wb).1 a b).1 a b wb wp
                (pdqPivot less (pdqPrep d a b limit wb).1 a b).2.2).1 a b
              (pdqPivot less (pdqPrep d a b limit wb).1 a b).2.1).2.1
            (pdqPrep d a b limit wb).2 true true fuel)
          ((partition less
            (pdqTryPIS less
              (pdqPivot less (pdqPrep d a b limit wb).1 a b).1 a b wb wp
              (pdqPivot less (pdqPrep d a b limit wb).1 a b).2.2).1 a b
            (pdqPivot less (pdqPrep d a b limit wb).1 a b).2.1).2.1 + 1) b
          (pdqPrep d a b limit wb).2
          (decide (min ((partition less
            (pdqTryPIS less
              (pdqPivot less (pdqPrep d a b limit wb).1 a b).1 a b wb wp
              (pdqPivot less (pdqPrep d a b limit wb).1 a b).2.2).1 a b
            (pdqPivot less (pdqPrep d a b limit wb).1 a b).2.1).2.1 - a)
            (b - (partition less
              (pdqTryPIS less
                (pdqPivot less (pdqPrep d a b limit wb).1 a b).1 a b wb wp
                (pdqPivot less (pdqPrep d a b limit wb).1 a b).2.2).1 a b
              (pdqPivot less (pdqPrep d a b limit wb).1 a b).2.1).2.1)
            ≥ (b - a) / 8))
          (partition less
            (pdqTryPIS less
              (pdqPivot less (pdqPrep d a b limit wb).1 a b).1 a b wb wp
              (pdqPivot less (pdqPrep d a b limit wb).1 a b).2.2).1 a b
            (pdqPivot less (pdqPrep d a b limit wb).1 a b).2.1).2.2
          (by rw [hcin.1, hpmc.1]; exact hbl3) (by omega)
          (by
          intro _ k hk1 hk2
          rw [hcin.2.1 k (Or.inr (by omega))]
          have hmfix : lget (pdqsortLoop less (partition less
              (pdqTryPIS less
                (pdqPivot less (pdqPrep d a b limit wb).1 a b).1 a b wb wp
                (pdqPivot less (pdqPrep d a b limit wb).1 a b).2.2).1 a b
              (pdqPivot less (pdqPrep d a b limit wb).1 a b).2.1).1 a
              (partition less
                (pdqTryPIS less
                  (pdqPivot less (pdqPrep d a b limit wb).1 a b).1 a b
                  wb wp
                  (pdqPivot less (pdqPrep d a b limit wb).1 a b).2.2).1
                a b
                (pdqPivot less (pdqPrep d a b limit wb).1 a b).2.1).2.1
              (pdqPrep d a b limit wb).2 true true fuel)
              ((partition less
                (pdqTryPIS less
                  (pdqPivot less (pdqPrep d a b limit wb).1 a b).1 a b
                  wb wp
                  (pdqPivot less (pdqPrep d a b limit wb).1 a b).2.2).1
                a b
                (pdqPivot less (pdqPrep d a b limit wb).1 a b).2.1).2.1
              + 1 - 1) = lget (partition less
                (pdqTryPIS less
                  (pdqPivot less (pdqPrep d a b limit wb).1 a b).1 a b
                  wb wp
                  (pdqPivot less (pdqPrep d a b limit wb).1 a b).2.2).1
                a b
                (pdqPivot less (pdqPrep d a b limit wb).1 a b).2.1).1
              ((partition less
                (pdqTryPIS less
                  (pdqPivot less (pdqPrep d a b limit wb).1 a b).1 a b
                  wb wp
                  (pdqPivot less (pdqPrep d a b limit wb).1 a b).2.2).1
                a b
                (pdqPivot less (pdqPrep d a b limit wb).1 a b).2.1).2.1
              + 1 - 1) :=
            hcin.2.1 _ (Or.inr (by omega))
          rw [hmfix]
          have hsimp : (partition less
              (pdqTryPIS less
                (pdqPivot less (pdqPrep d a b limit wb).1 a b).1 a b wb wp
                (pdqPivot less (pdqPrep d a b limit wb).1 a b).2.2).1 a b
              (pdqPivot less (pdqPrep d a b limit wb).1 a b).2.1).2.1
              + 1 - 1 = (partition less
              (pdqTryPIS less
                (pdqPivot less (pdqPrep d a b limit wb).1 a b).1 a b wb wp
                (pdqPivot less (pdqPrep d a b limit wb).1 a b).2.2).1 a b
              (pdqPivot less (pdqPrep d a b limit wb).1 a b).2.1).2.1 :=
            by omega
          rw [hsimp, hval]
          exact hzone2 k (by omega) hk2)
        obtain ⟨hcout, hsout⟩ := hout
        refine ⟨confined_trans hcd3 (confined_trans hpmc (confined_trans
          (confined_mono hcin le_rfl (by omega))
          (confined_mono hcout (by omega) le_rfl))), ?_⟩
        intro i j hi hij hj
        by_cases hjm : j ≤ (partition less
            (pdqTryPIS less
              (pdqPivot less (pdqPrep d a b limit wb).1 a b).1 a b wb wp
              (pdqPivot less (pdqPrep d a b limit wb).1 a b).2.2).1 a b
            (pdqPivot less (pdqPrep d a b limit wb).1 a b).2.1).2.1
        · rw [hcout.2.1 j (Or.inl (by omega)),
            hcout.2.1 i (Or.inl (by omega))]
          by_cases hjm2 : j = (partition less
              (pdqTryPIS less
                (pdqPivot less (pdqPrep d a b limit wb).1 a b).1 a b wb wp
                (pdqPivot less (pdqPrep d a b limit wb).1 a b).2.2).1 a b
              (pdqPivot less (pdqPrep d a b limit wb).1 a b).2.1).2.1
          · rw [hjm2, hcin.2.1 _ (Or.inr le_rfl), hval]
            have hPin := hcin.2.2
              (fun x => less x (lget (pdqTryPIS less
                (pdqPivot less (pdqPrep d a b limit wb).1 a b).1 a b wb wp
                (pdqPivot less (pdqPrep d a b limit wb).1 a b).2.2).1
                (pdqPivot less (pdqPrep d a b limit wb).1 a b).2.1) = true)
              (fun k hk1 hk2 => hzone1 k hk1 hk2) i hi (by omega)
            exact hasym _ _ hPin
          · exact hsin i j hi hij (by omega)
        · have hPoutj := hcout.2.2
            (fun x => less x (lget (pdqTryPIS less
              (pdqPivot less (pdqPrep d a b limit wb).1 a b).1 a b wb wp
              (pdqPivot less (pdqPrep d a b limit wb).1 a b).2.2).1
              (pdqPivot less (pdqPrep d a b limit wb).1 a b).2.1) = false)
            (fun k hk1 hk2 => by
              rw [hcin.2.1 k (Or.inr (by omega))]
              exact hzone2 k (by omega) hk2) j (by omega) hj
          by_cases him : i = (partition less
              (pdqTryPIS less
                (pdqPivot less (pdqPrep d a b limit wb).1 a b).1 a b wb wp
                (pdqPivot less (pdqPrep d a b limit wb).1 a b).2.2).1 a b
              (pdqPivot less (pdqPrep d a b limit wb).1 a b).2.1).2.1
          · rw [him, hcout.2.1 _ (Or.inl (Nat.lt_succ_self _)),
              hcin.2.1 _ (Or.inr le_rfl), hval]
            exact hPoutj
          · by_cases him2 : i < (partition less
                (pdqTryPIS less
                  (pdqPivot less (pdqPrep d a b limit wb).1 a b).1 a b
                  wb wp
                  (pdqPivot less (pdqPrep d a b limit wb).1 a b).2.2).1
                a b
                (pdqPivot less (pdqPrep d a b limit wb).1 a b).2.1).2.1
            · rw [hcout.2.1 i (Or.inl (by omega))]
              have hPin := hcin.2.2
                (fun x => less x (lget (pdqTryPIS less
                  (pdqPivot less (pdqPrep d a b limit wb).1 a b).1 a b
                  wb wp
                  (pdqPivot less (pdqPrep d a b limit wb).1 a b).2.2).1
                  (pdqPivot less (pdqPrep d a b limit wb).1 a b).2.1)
                  = true)
                (fun k hk1 hk2 => hzone1 k hk1 hk2) i hi him2
              exact hntr _ _ _ hPoutj (hasym _ _ hPin)
            · exact hsout i j (by omega) hij hj
      case isFalse hless =>
        have hin := ih (partition less
            (pdqTryPIS less
              (pdqPivot less (pdqPrep d a b limit wb).1 a b).1 a b wb wp
              (pdqPivot less (pdqPrep d a b limit wb).1 a b).2.2).1 a b
            (pdqPivot less (pdqPrep d a b limit wb).1 a b).2.1).1
          ((partition less
            (pdqTryPIS less
              (pdqPivot less (pdqPrep d a b limit wb).1 a b).1 a b wb wp
              (pdqPivot less (pdqPrep d a b limit wb).1 a b).2.2).1 a b
            (pdqPivot less (pdqPrep d a b limit wb).1 a b).2.1).2.1 + 1) b
          (pdqPrep d a b limit wb).2 true true
          (by rw [hpmc.1]; exact hbl3) (by omega)
          (by
          intro _ k hk1 hk2
          have hsimp : (partition less
              (pdqTryPIS less
                (pdqPivot less (pdqPrep d a b limit wb).1 a b).1 a b wb wp
                (pdqPivot less (pdqPrep d a b limit wb).1 a b).2.2).1 a b
              (pdqPivot less (pdqPrep d a b limit wb).1 a b).2.1).2.1
              + 1 - 1 = (partition less
              (pdqTryPIS less
                (pdqPivot less (pdqPrep d a b limit wb).1 a b).1 a b wb wp
                (pdqPivot less (pdqPrep d a b limit wb).1 a b).2.2).1 a b
              (pdqPivot less (pdqPrep d a b limit wb).1 a b).2.1).2.1 :=
            by omega
          rw [hsimp, hval]
          exact hzone2 k (by omega) hk2)
        obtain ⟨hcin, hsin⟩ := hin
        have hout := ih (pdqsortLoop less (partition less
            (pdqTryPIS less
              (pdqPivot less (pdqPrep d a b limit wb).1 a b).1 a b wb wp
              (pdqPivot less (pdqPrep d a b limit wb).1 a b).2.2).1 a b
            (pdqPivot less (pdqPrep d a b limit wb).1 a b).2.1).1
            ((partition less
              (pdqTryPIS less
                (pdqPivot less (pdqPrep d a b limit wb).1 a b).1 a b wb wp
                (pdqPivot less (pdqPrep d a b limit wb).1 a b).2.2).1 a b
              (pdqPivot less (pdqPrep d a b limit wb).1 a b).2.1).2.1 + 1)
            b (pdqPrep d a b limit wb).2 true true fuel) a
          (partition less
            (pdqTryPIS less
              (pdqPivot less (pdqPrep d a b limit wb).1 a b).1 a b wb wp
              (pdqPivot less (pdqPrep d a b limit wb).1 a b).2.2).1 a b
            (pdqPivot less (pdqPrep d a b limit wb).1 a b).2.1).2.1
          (pdqPrep d a b limit wb).2
          (decide (min ((partition less
            (pdqTryPIS less
              (pdqPivot less (pdqPrep d a b limit wb).1 a b).1 a b wb wp
              (pdqPivot less (pdqPrep d a b limit wb).1 a b).2.2).1 a b
            (pdqPivot less (pdqPrep d a b limit wb).1 a b).2.1).2.1 - a)
            (b - (partition less
              (pdqTryPIS less
                (pdqPivot less (pdqPrep d a b limit wb).1 a b).1 a b wb wp
                (pdqPivot less (pdqPrep d a b limit wb).1 a b).2.2).1 a b
              (pdqPivot less (pdqPrep d a b limit wb).1 a b).2.1).2.1)
            ≥ (b - a) / 8))
          (partition less
            (pdqTryPIS less
              (pdqPivot less (pdqPrep d a b limit wb).1 a b).1 a b wb wp
              (pdqPivot less (pdqPrep d a b limit wb).1 a b).2.2).1 a b
            (pdqPivot less (pdqPrep d a b limit wb).1 a b).2.1).2.2
          (by rw [hcin.1, hpmc.1]; omega) (by omega)
          (by
          intro h0a k hk1 hk2
          rw [hcin.2.1 k (Or.inl (by omega)),
            hcin.2.1 (a - 1) (Or.inl (by omega))]
          exact hbound4 h0a k hk1 (by omega))
        obtain ⟨hcout, hsout⟩ := hout
        refine ⟨confined_trans hcd3 (confined_trans hpmc (confined_trans
          (confined_mono hcin (by omega) le_rfl)
          (confined_mono hcout le_rfl (by omega)))), ?_⟩
        intro i j hi hij hj
        by_cases hjm : j < (partition less
            (pdqTryPIS less
              (pdqPivot less (pdqPrep d a b limit wb).1 a b).1 a b wb wp
              (pdqPivot less (pdqPrep d a b limit wb).1 a b).2.2).1 a b
            (pdqPivot less (pdqPrep d a b limit wb).1 a b).2.1).2.1
        · exact hsout i j hi hij hjm
        · have hjfix : lget (pdqsortLoop less (pdqsortLoop less
              (partition less
                (pdqTryPIS less
                  (pdqPivot less (pdqPrep d a b limit wb).1 a b).1 a b
                  wb wp
                  (pdqPivot less (pdqPrep d a b limit wb).1 a b).2.2).1
                a b
                (pdqPivot less (pdqPrep d a b limit wb).1 a b).2.1).1
              ((partition less
                (pdqTryPIS less
                  (pdqPivot less (pdqPrep d a b limit wb).1 a b).1 a b
                  wb wp
                  (pdqPivot less (pdqPrep d a b limit wb).1 a b).2.2).1
                a b
                (pdqPivot less (pdqPrep d a b limit wb).1 a b).2.1).2.1
              + 1) b (pdqPrep d a b limit wb).2 true true fuel) a
              (partition less
                (pdqTryPIS less
                  (pdqPivot less (pdqPrep d a b limit wb).1 a b).1 a b
                  wb wp
                  (pdqPivot less (pdqPrep d a b limit wb).1 a b).2.2).1
                a b
                (pdqPivot less (pdqPrep d a b limit wb).1 a b).2.1).2.1
              (pdqPrep d a b limit wb).2
              (decide (min ((partition less
                (pdqTryPIS less
                  (pdqPivot less (pdqPrep d a b limit wb).1 a b).1 a b
                  wb wp
                  (pdqPivot less (pdqPrep d a b limit wb).1 a b).2.2).1
                a b
                (pdqPivot less (pdqPrep d a b limit wb).1 a b).2.1).2.1
                - a)
                (b - (partition less
                  (pdqTryPIS less
                    (pdqPivot less (pdqPrep d a b limit wb).1 a b).1 a b
                    wb wp
                    (pdqPivot less
                      (pdqPrep d a b limit wb).1 a b).2.2).1 a b
                  (pdqPivot less (pdqPrep d a b limit wb).1 a b).2.1).2.1)
                ≥ (b - a) / 8))
              (partition less
                (pdqTryPIS less
                  (pdqPivot less (pdqPrep d a b limit wb).1 a b).1 a b
                  wb wp
                  (pdqPivot less (pdqPrep d a b limit wb).1 a b).2.2).1
                a b
                (pdqPivot less (pdqPrep d a b limit wb).1 a b).2.1).2.2
              fuel) j = lget (pdqsortLoop less
              (partition less
                (pdqTryPIS less
                  (pdqPivot less (pdqPrep d a b limit wb).1 a b).1 a b
                  wb wp
                  (pdqPivot less (pdqPrep d a b limit wb).1 a b).2.2).1
                a b
                (pdqPivot less (pdqPrep d a b limit wb).1 a b).2.1).1
              ((partition less
                (pdqTryPIS less
                  (pdqPivot less (pdqPrep d a b limit wb).1 a b).1 a b
                  wb wp
                  (pdqPivot less (pdqPrep d a b limit wb).1 a b).2.2).1
                a b
                (pdqPivot less (pdqPrep d a b limit wb).1 a b).2.1).2.1
              + 1) b (pdqPrep d a b limit wb).2 true true fuel) j :=
            hcout.2.1 j (Or.inr (by omega))
          rw [hjfix]
          by_cases hjm2 : j = (partition less
              (pdqTryPIS less
                (pdqPivot less (pdqPrep d a b limit wb).1 a b).1 a b wb wp
                (pdqPivot less (pdqPrep d a b limit wb).1 a b).2.2).1 a b
              (pdqPivot less (pdqPrep d a b limit wb).1 a b).2.1).2.1
          · rw [hjm2, hcin.2.1 _ (Or.inl (Nat.lt_succ_self _)), hval]
            have hPi := hcout.2.2
              (fun x => less x (lget (pdqTryPIS less
                (pdqPivot less (pdqPrep d a b limit wb).1 a b).1 a b wb wp
                (pdqPivot less (pdqPrep d a b limit wb).1 a b).2.2).1
                (pdqPivot less (pdqPrep d a b limit wb).1 a b).2.1)
                = true)
              (fun k hk1 hk2 => by
                rw [hcin.2.1 k (Or.inl (by omega))]
                exact hzone1 k hk1 hk2) i hi (by omega)
            exact hasym _ _ hPi
          · have hjv : less (lget (pdqsortLoop less
                (partition less
                  (pdqTryPIS less
                    (pdqPivot less (pdqPrep d a b limit wb).1 a b).1 a b
                    wb wp
                    (pdqPivot less
                      (pdqPrep d a b limit wb).1 a b).2.2).1 a b
                  (pdqPivot less (pdqPrep d a b limit wb).1 a b).2.1).1
                ((partition less
                  (pdqTryPIS less
                    (pdqPivot less (pdqPrep d a b limit wb).1 a b).1 a b
                    wb wp
                    (pdqPivot less
                      (pdqPrep d a b limit wb).1 a b).2.2).1 a b
                  (pdqPivot less (pdqPrep d a b limit wb).1 a b).2.1).2.1
                + 1) b (pdqPrep d a b limit wb).2 true true fuel) j)
                (lget (pdqTryPIS less
                  (pdqPivot less (pdqPrep d a b limit wb).1 a b).1 a b
                  wb wp
                  (pdqPivot less (pdqPrep d a b limit wb).1 a b).2.2).1
                  (pdqPivot less (pdqPrep d a b limit wb).1 a b).2.1)
                = false := by
              have hSeg := hcin.2.2
                (fun x => less x (lget (pdqTryPIS less
                  (pdqPivot less (pdqPrep d a b limit wb).1 a b).1 a b
                  wb wp
                  (pdqPivot less (pdqPrep d a b limit wb).1 a b).2.2).1
                  (pdqPivot less (pdqPrep d a b limit wb).1 a b).2.1)
                  = false)
                (fun k hk1 hk2 => hzone2 k (by omega) hk2) j (by omega) hj
              exact hSeg
            by_cases him2 : i < (partition less
                (pdqTryPIS less
                  (pdqPivot less (pdqPrep d a b limit wb).1 a b).1 a b
                  wb wp
                  (pdqPivot less (pdqPrep d a b limit wb).1 a b).2.2).1
                a b
                (pdqPivot less (pdqPrep d a b limit wb).1 a b).2.1).2.1
            · have hPi := hcout.2.2
                (fun x => less x (lget (pdqTryPIS less
                  (pdqPivot less (pdqPrep d a b limit wb).1 a b).1 a b
                  wb wp
                  (pdqPivot less (pdqPrep d a b limit wb).1 a b).2.2).1
                  (pdqPivot less (pdqPrep d a b limit wb).1 a b).2.1)
                  = true)
                (fun k hk1 hk2 => by
                  rw [hcin.2.1 k (Or.inl (by omega))]
                  exact hzone1 k hk1 hk2) i hi him2
              exact hntr _ _ _ hjv (hasym _ _ hPi)
            · by_cases him3 : i = (partition less
                  (pdqTryPIS less
                    (pdqPivot less (pdqPrep d a b limit wb).1 a b).1 a b
                    wb wp
                    (pdqPivot less
                      (pdqPrep d a b limit wb).1 a b).2.2).1 a b
                  (pdqPivot less (pdqPrep d a b limit wb).1 a b).2.1).2.1
              · rw [him3, hcout.2.1 _ (Or.inr le_rfl),
                  hcin.2.1 _ (Or.inl (Nat.lt_succ_self _)), hval]
                exact hjv
              · rw [hcout.2.1 i (Or.inr (by omega))]
                exact hsin i j (by omega) hij hj

theorem goSortSlice_sorted {α : Type} [Inhabited α] {less : α → α → Bool}
    (hasym : ∀ x y, less x y = true → less y x = false)
    (hntr : ∀ x y z, less x y = false → less y z = false →
      less x z = false)
    (htr : ∀ x y z, less x y = true → less y z = true → less x z = true)
    (hirr : ∀ x, less x x = false) (l : List α) :
    SortedSeg less (goSortSlice less l) 0 l.length := by
  unfold goSortSlice
  exact (pdqsortLoop_spec hasym hntr htr hirr (l.length + 1) l 0 l.length
    (bitsLen l.length) true true le_rfl (by omega)
    (fun h => by omega)).2

end GoSort

theorem alookup_mem {β : Type} :
    ∀ (m : List (String × β)) (k : String) (v : β),
      alookup m k = some v → (k, v) ∈ m := by
  intro m
  induction m with
  | nil =>
    intro k v h
    simp [alookup] at h
  | cons kv rest ih =>
    intro k v h
    obtain ⟨k', v'⟩ := kv
    simp only [alookup] at h
    split at h
    case isTrue heq =>
      injection h with h2
      subst h2
      rw [heq]
      exact List.mem_cons_self _ _
    case isFalse hne =>
      exact List.mem_cons_of_mem _ (ih k v h)

theorem setInfo_mem {x : String × NameInfo} :
    ∀ (m : List (String × NameInfo)) (k : String) (v : NameInfo),
      x ∈ setInfo m k v → x ∈ m ∨ x = (k, v) := by
  intro m
  induction m with
  | nil =>
    intro k v h
    simp [setInfo] at h
    exact Or.inr h
  | cons kv rest ih =>
    intro k v h
    obtain ⟨k', v'⟩ := kv
    simp only [setInfo] at h
    split at h
    case isTrue heq =>
      rcases List.mem_cons.mp h with h1 | h1
      · exact Or.inr (by rw [h1, heq])
      · exact Or.inl (List.mem_cons_of_mem _ h1)
    case isFalse hne =>
      rcases List.mem_cons.mp h with h1 | h1
      · exact Or.inl (by rw [h1]; exact List.mem_cons_self _ _)
      · rcases ih k v h1 with h2 | h2
        · exact Or.inl (List.mem_cons_of_mem _ h2)
        · exact Or.inr h2

theorem insertNameInfo_inv (m : List (String × NameInfo)) (r : MatchedLine)
    (hm : ∀ kv ∈ m, kv.2.Places.length = kv.2.Count) :
    ∀ kv ∈ insertNameInfo m r, kv.2.Places.length = kv.2.Count := by
  intro kv hkv
  simp only [insertNameInfo] at hkv
  rcases hlk : alookup m (goToLower r.Name) with _ | info
  · rw [hlk] at hkv
    rcases List.mem_append.mp hkv with h1 | h1
    · exact hm kv h1
    · simp at h1
      rw [h1]
      rfl
  · rw [hlk] at hkv
    rcases setInfo_mem m _ _ hkv with h1 | h1
    · exact hm kv h1
    · have hinfo := hm _ (alookup_mem m _ info hlk)
      rw [h1]
      simp [hinfo]

theorem buildNameCount_inv (ms : List MatchedLine) :
    ∀ kv ∈ buildNameCount ms, kv.2.Places.length = kv.2.Count := by
  unfold buildNameCount
  have key : ∀ (l : List MatchedLine) (acc : List (String × NameInfo)),
      (∀ kv ∈ acc, kv.2.Places.length = kv.2.Count) →
      ∀ kv ∈ l.foldl insertNameInfo acc,
        kv.2.Places.length = kv.2.Count := by
    intro l
    induction l with
    | nil =>
      intro acc hacc
      simpa using hacc
    | cons r rest ih =>
      intro acc hacc
      simp only [List.foldl_cons]
      exact ih _ (insertNameInfo_inv acc r hacc)
  exact key ms [] (by simp)

namespace GoSort

theorem sortedSeg_pairwise {α : Type} [Inhabited α] {less : α → α → Bool}
    (r : List α) (h : SortedSeg less r 0 r.length) :
    r.Pairwise (fun x y => less y x = false) := by
  rw [List.pairwise_iff_getElem]
  intro i j hi hj hij
  have hres := h i j (Nat.zero_le _) hij hj
  have e1 : lget r i = r[i] := List.getD_eq_getElem r default hi
  have e2 : lget r j = r[j] := List.getD_eq_getElem r default hj
  rw [e2, e1] at hres
  exact hres

end GoSort

/-- C5: on every aggregated match collection (and any map iteration order),
the duplicate-name report contains no group with `Count < 2`, every group's
`Places` list has length equal to its `Count`, and the emitted groups appear
in non-increasing order of `Count`. -/
theorem c5_name_counts_invariants (ms : List MatchedLine)
    (order : List String) :
    (∀ g ∈ (genReportNameCountsData ms order).1,
      2 ≤ g.Count ∧ g.Places.length = g.Count) ∧
    List.Pairwise (fun x y : NameInfo => y.Count ≤ x.Count)
      (genReportNameCountsData ms order).1 := by
  have hasym : ∀ x y : NameInfo, countGreater x y = true →
      countGreater y x = false := by
    intro x y
    simp only [countGreater, decide_eq_true_eq, decide_eq_false_iff_not]
    omega
  have hntr : ∀ x y z : NameInfo, countGreater x y = false →
      countGreater y z = false → countGreater x z = false := by
    intro x y z
    simp only [countGreater, decide_eq_false_iff_not]
    omega
  have htr : ∀ x y z : NameInfo, countGreater x y = true →
      countGreater y z = true → countGreater x z = true := by
    intro x y z
    simp only [countGreater, decide_eq_true_eq]
    omega
  have hirr : ∀ x : NameInfo, countGreater x x = false := by
    intro x
    simp [countGreater]
  simp only [genReportNameCountsData]
  constructor
  · intro g hg
    have hg1 := (GoSort.goSortSlice_perm _ _).mem_iff.mp hg
    have hg2 := List.mem_filter.mp hg1
    have hge2 : 2 ≤ g.Count := by simpa using hg2.2
    have hg3 := (GoSort.goSortSlice_perm _ _).mem_iff.mp hg2.1
    obtain ⟨k, hk, hlk⟩ := List.mem_filterMap.mp hg3
    exact ⟨hge2, buildNameCount_inv ms _ (alookup_mem _ _ _ hlk)⟩
  · have hlen := (GoSort.goSortSlice_perm countGreater
      (List.filter (fun i => i.Count ≥ 2)
        (GoSort.goSortSlice countGreater
          (List.filterMap (alookup (buildNameCount ms)) order)))).length_eq
    have hs := GoSort.goSortSlice_sorted hasym hntr htr hirr
      (List.filter (fun i => i.Count ≥ 2)
        (GoSort.goSortSlice countGreater
          (List.filterMap (alookup (buildNameCount ms)) order)))
    rw [← hlen] at hs
    have hp := GoSort.sortedSeg_pairwise _ hs
    exact hp.imp (fun h => by
      simp only [countGreater, decide_eq_false_iff_not] at h
      omega)
